import Mathlib

/-!
# shorturl: identifier generation, the preloaded identifier pool and the LRU cache

A shallow embedding of the Go packages `internal/generator`, `internal/preload` and
`internal/storage` (the LRU cache and the layered storage in front of the database),
followed by theorems about them.

Conventions of the embedding.

* Go `int` and `int64` are 64-bit two's-complement integers.  They are modelled by `Int`, and
  every arithmetic operation that can leave the 64-bit range is followed by `wrap64`.
* A Go `string` or `[]byte` is a list of bytes.
* A runtime panic (index out of range, division by zero, `make` with a length it cannot
  allocate) is the value `none` (or `Outcome.panic`); the repository never recovers from a
  panic, and a fatal error of the runtime ends the program in the same way.
* The allocations whose size an argument of the call decides, `make([]byte, bytesToRead)` in
  `readURLsFromFile` and `make([]string, 0, count)` in `Generate`, succeed when the size is
  not negative, within the limit `maxAlloc` of the runtime and within the memory that is
  available, which is a parameter; all other allocations succeed.
* The file system accepts the offsets up to `maxOffset` in `Seek` and holds no longer file;
  one `Read` transfers at most `maxRead` bytes.  Both are parameters of the loader.
* Methods that mutate their receiver return the new receiver.
* A `float64` is the rational number it stands for; a conversion or division rounds to the
  nearest such number, a tie to the one with the even significand.
* The database is outside the repository and opaque: what a call on it returns is an
  arbitrary function of the calls made before.
-/

namespace Shorturl

/-! ## Go primitives -/

/-- A Go `byte`. -/
abbrev Byte := Fin 256

/-- A Go `string`: an immutable sequence of bytes. -/
abbrev GoString := List Byte

/-- Two's-complement reduction of an integer to the range of a 64-bit signed Go integer. -/
def wrap64 (x : Int) : Int :=
  (x + 9223372036854775808) % 18446744073709551616 - 9223372036854775808

/-- Go's `a % b` on integers: truncated remainder, with a panic (`none`) when `b` is zero. -/
def goMod (a b : Int) : Option Int :=
  if b = 0 then none else some (Int.tmod a b)

/-- The largest size in bytes that `make` accepts: with 48 address bits (linux/amd64) the
runtime panics, "len out of range" or "cap out of range", for a larger one. -/
def maxAlloc : Int := 281474976710656

/-- Whether `make` returns for `n` elements of `size` bytes each when `memory` bytes can
still be allocated.  It panics for a negative `n` and for a size above `maxAlloc`, and the
program ends with "out of memory" when the memory is not there. -/
def canMake (memory n size : Int) : Bool :=
  decide (0 ≤ n ∧ n * size ≤ maxAlloc ∧ n * size ≤ memory)

/-- Reading `s[i]` for a Go `int` index: `none` is the out-of-range panic. -/
def sliceGet {α : Type} (s : List α) (i : Int) : Option α :=
  if i < 0 then none else s[i.toNat]?

/-- The assignment `s[i] = v` for a Go `int` index: `none` is the out-of-range panic. -/
def sliceSet {α : Type} (s : List α) (i : Int) (v : α) : Option (List α) :=
  if i < 0 ∨ s.length ≤ i.toNat then none else some (s.set i.toNat v)

/-! ## Package `generator` -/

/-- The constant `charset`: the 64 symbols of the URL-safe base-64 alphabet, as bytes. -/
def charset : GoString :=
  "ABCDEFGHIJKLMNOPQRSTUVWXYZabcdefghijklmnopqrstuvwxyz0123456789-_".toList.map
    (fun c => Fin.ofNat c.toNat)

/-- The expression `charset[i]` for a Go `int` index. -/
def charsetAt (i : Int) : Option Byte :=
  sliceGet charset i

/-- The type `BloomFilter`: the bit slice and its recorded size (the mutex is not modelled). -/
structure BloomFilter where
  bits : List Bool
  size : Int
deriving DecidableEq

/-- The constructor `NewBloomFilter`: `make([]bool, size)` panics for a negative size. -/
def NewBloomFilter (size : Int) : Option BloomFilter :=
  if size < 0 then none else some { bits := List.replicate size.toNat false, size := size }

/-- The function `simpleHash`: a polynomial hash in wrapping 64-bit arithmetic, negated (again
with wrap-around) when the accumulated value is negative. -/
def simpleHash (s : GoString) (seed : Int) : Int :=
  let hash := s.foldl (fun hash b => wrap64 (hash * 31 + (b.val : Int))) seed
  if hash < 0 then wrap64 (-hash) else hash

/-- The method `BloomFilter.Add`: the three probe indices are computed first, then the three
bits are set in order. -/
def BloomFilter.Add (bf : BloomFilter) (item : GoString) : Option BloomFilter :=
  (goMod (simpleHash item 0) bf.size).bind fun hash1 =>
  (goMod (simpleHash item 1) bf.size).bind fun hash2 =>
  (goMod (simpleHash item 2) bf.size).bind fun hash3 =>
  (sliceSet bf.bits hash1 true).bind fun bits1 =>
  (sliceSet bits1 hash2 true).bind fun bits2 =>
  (sliceSet bits2 hash3 true).bind fun bits3 =>
  some { bf with bits := bits3 }

/-- The method `BloomFilter.Contains`: the three probe indices are computed first; the
conjunction `bits[hash1] && bits[hash2] && bits[hash3]` is evaluated left to right and stops
at the first false operand. -/
def BloomFilter.Contains (bf : BloomFilter) (item : GoString) : Option Bool :=
  (goMod (simpleHash item 0) bf.size).bind fun hash1 =>
  (goMod (simpleHash item 1) bf.size).bind fun hash2 =>
  (goMod (simpleHash item 2) bf.size).bind fun hash3 =>
  (sliceGet bf.bits hash1).bind fun b1 =>
  if b1 then
    (sliceGet bf.bits hash2).bind fun b2 =>
    if b2 then sliceGet bf.bits hash3 else some false
  else some false

/-- The type `Generator`. -/
structure Generator where
  bf : BloomFilter
deriving DecidableEq

/-- The constructor `NewGenerator`. -/
def NewGenerator (bloomSize : Int) : Option Generator :=
  (NewBloomFilter bloomSize).map Generator.mk

/-- The method `generateOne`, as a function of the six bytes that `rand.Read` delivers:
`result[i] = charset[int(bytes[i]) % 64]` for `i = 0, ..., 5`. -/
def generateOne (bytes : Fin 6 → Byte) : Option GoString :=
  (List.finRange 6).mapM fun i => charsetAt (Int.tmod ((bytes i).val : Int) 64)

/-- The error value of `Generate`: "only generated %d URLs out of %d requested". -/
inductive GenerateError where
  | onlyGenerated (generated count : Int)
deriving DecidableEq

/-- The local variables of `Generate` when its loop is left, with the receiver's filter. -/
structure GenerateState where
  g : Generator
  urls : List GoString
  generated : Int
  attempts : Int
deriving DecidableEq

/-- The loop of `Generate`.  `rand k` is the block of six random bytes read by the `k`-th
call of `generateOne` (counting from zero) within this call of `Generate`.  The first argument
bounds the number of iterations; `Generate` passes `maxAttempts`, which the loop condition
never lets it exceed, and `none` is returned if the bound were ever too small (or on a panic).
The counters cannot overflow: they stay below `count` and `maxAttempts`. -/
def Generate.loop (rand : Nat → Fin 6 → Byte) (count maxAttempts : Int) :
    Nat → GenerateState → Option GenerateState
  | 0, st => if st.generated < count ∧ st.attempts < maxAttempts then none else some st
  | fuel + 1, st =>
    if st.generated < count ∧ st.attempts < maxAttempts then
      (generateOne (rand st.attempts.toNat)).bind fun code =>
      let attempts := st.attempts + 1
      (st.g.bf.Contains code).bind fun present =>
      if !present then
        (st.g.bf.Add code).bind fun bf =>
        Generate.loop rand count maxAttempts fuel
          { g := { bf := bf }, urls := st.urls ++ [code], generated := st.generated + 1,
            attempts := attempts }
      else
        Generate.loop rand count maxAttempts fuel { st with attempts := attempts }
    else some st

/-- The body of `Generate` up to the end of its loop, with `memory` bytes available:
`make([]string, 0, count)` reserves `count` strings of 16 bytes each and ends the program
when it cannot; `maxAttempts := count * 2` wraps around. -/
def Generator.GenerateRun (g : Generator) (memory : Int) (rand : Nat → Fin 6 → Byte)
    (count : Int) : Option GenerateState :=
  if canMake memory count 16 then
    let maxAttempts := wrap64 (count * 2)
    Generate.loop rand count maxAttempts maxAttempts.toNat
      { g := g, urls := [], generated := 0, attempts := 0 }
  else none

/-- The method `Generator.Generate`, with `memory` bytes available: the new receiver, the
returned slice and the returned error (`none` is a nil error). -/
def Generator.Generate (g : Generator) (memory : Int) (rand : Nat → Fin 6 → Byte)
    (count : Int) : Option (Generator × List GoString × Option GenerateError) :=
  (g.GenerateRun memory rand count).map fun st =>
    if st.generated < count then (st.g, st.urls, some (.onlyGenerated st.generated count))
    else (st.g, st.urls, none)

/-- The loop `for i := 0; i < 6; i++` of `GenerateWithHash`, with `n` iterations left. -/
def GenerateWithHash.loop : Nat → Nat → Int → List Byte → Option (List Byte)
  | 0, _, _, result => some result
  | n + 1, i, hash, result =>
    (charsetAt (Int.tmod hash 64)).bind fun c =>
    (sliceSet result (i : Int) c).bind fun result =>
    GenerateWithHash.loop n (i + 1) (Int.tdiv hash 64) result

/-- The function `GenerateWithHash`. -/
def GenerateWithHash (input : GoString) : Option GoString :=
  let hash := input.foldl (fun hash b => wrap64 (hash * 31 + (b.val : Int))) 0
  let hash := if hash < 0 then wrap64 (-hash) else hash
  GenerateWithHash.loop 6 0 hash (List.replicate 6 0)

/-- The loop `for i := 0; i < 6; i++` of `GenerateWithSequence`, with `n` iterations left. -/
def GenerateWithSequence.loop : Nat → Nat → Int → List Byte → Option (List Byte)
  | 0, _, _, result => some result
  | n + 1, i, seq, result =>
    (charsetAt (Int.tmod seq 64)).bind fun c =>
    (sliceSet result (5 - (i : Int)) c).bind fun result =>
    GenerateWithSequence.loop n (i + 1) (Int.tdiv seq 64) result

/-- The function `GenerateWithSequence` on an `int64`. -/
def GenerateWithSequence (seq : Int) : Option GoString :=
  let seq := if seq < 0 then wrap64 (-seq) else seq
  GenerateWithSequence.loop 6 0 seq (List.replicate 6 0)

/-- A sequence of `Generate` calls on one generator, each with its requested count and its
random source: the slices returned by the calls, up to the first call that panics. -/
def generateCalls (g : Generator) (memory : Int) :
    List (Int × (Nat → Fin 6 → Byte)) → List (List GoString)
  | [] => []
  | (count, rand) :: rest =>
    match g.Generate memory rand count with
    | none => []
    | some (g1, urls, _) => urls :: generateCalls g1 memory rest

/-- A sequence of `Add` calls on one filter. -/
def BloomFilter.addAll (bf : BloomFilter) (items : List GoString) : Option BloomFilter :=
  items.foldlM BloomFilter.Add bf

/-- A new generator with a filter of `bloomSize` bits followed by a sequence of `Generate`
calls: the slices the calls return (none if the constructor panics). -/
def generateAll (memory bloomSize : Int) (calls : List (Int × (Nat → Fin 6 → Byte))) :
    List (List GoString) :=
  match NewGenerator bloomSize with
  | none => []
  | some g => generateCalls g memory calls

/-! ## Package `generator`: comparing identifiers -/

/-- Lexicographic comparison of two sequences by a comparison of their elements: the first
position at which the sequences differ decides, and a proper initial segment is smaller. -/
def lexLess {α : Type} [DecidableEq α] (lt : α → α → Bool) : List α → List α → Bool
  | [], [] => false
  | [], _ :: _ => true
  | _ :: _, [] => false
  | a :: s, b :: t => lt a b || (decide (a = b) && lexLess lt s t)

/-- Go's `s < t` on strings: lexical, byte-wise. -/
def stringLess (s t : GoString) : Bool :=
  lexLess (fun a b => decide (a < b)) s t

/-- The position of a symbol in the charset (64 for a byte that is not in it). -/
def charsetIndex (c : Byte) : Nat :=
  charset.indexOf c

/-- Lexicographic comparison of two identifiers by the positions of their symbols in the
charset. -/
def charsetLess (s t : GoString) : Bool :=
  lexLess (fun a b => decide (charsetIndex a < charsetIndex b)) s t

/-- The six base-64 digits of a number, most significant first. -/
def seqDigits (n : Nat) : List Nat :=
  [n / 1073741824 % 64, n / 16777216 % 64, n / 262144 % 64, n / 4096 % 64, n / 64 % 64, n % 64]

/-- The symbol of the charset at a position below 64. -/
def charsetSymbol (d : Nat) : Byte :=
  charset.getD d 0

/-! ## Package `preload` -/

/-- The result of a call that returns a value, returns an error, or panics. -/
inductive Outcome (ε α : Type) where
  | ok (a : α)
  | err (e : ε)
  | panic
deriving DecidableEq

/-- The error a read of a regular file reports in this model: `io.EOF`.  Opening, locking and
writing the two files are taken to succeed. -/
inductive FileError where
  | EOF
deriving DecidableEq

/-- The type `FileLoader`, identified with what its two paths name and with the limits of
the system it runs on.  `urlFile` holds the bytes of the pool file.  `offsetFile` is the
content of the offset file: `none` when that file is absent, empty or does not start with a
decimal number, `some n` when it holds the decimal representation of `n`.  `maxOffset` is the
largest offset that `Seek` accepts on the file system of the pool file (the default is that
of ext4 with blocks of 4 KiB), and no file is longer.  `maxRead` is the largest number of
bytes that one `Read` transfers (Go asks for at most `2^30` bytes at a time).  `memory` is
the largest buffer that can be allocated when `LoadBatch` runs (the default leaves the limit
of the runtime alone). -/
structure FileLoader where
  urlFile : List Byte
  offsetFile : Option Int
  maxOffset : Int := 17592186040320
  maxRead : Nat := 1073741824
  memory : Int := 281474976710656
  size_le : (urlFile.length : Int) ≤ maxOffset := by decide
  maxOffset_lt : maxOffset < 9223372036854775808 := by decide
  maxRead_pos : 0 < maxRead := by decide
deriving DecidableEq

/-- The function `readOffset`: a scan error yields offset 0 and no error.  `Fscanf` reports
an error for a number that is not an `int64`. -/
def readOffset (file : Option Int) : Int :=
  match file with
  | none => 0
  | some offset =>
    if -9223372036854775808 ≤ offset ∧ offset < 9223372036854775808 then offset else 0

/-- The function `writeOffset`: the new content of the offset file. -/
def writeOffset (offset : Int) : Option Int :=
  some offset

/-- The constant `urlLength` of `readURLsFromFile`. -/
def urlLength : Int := 6

/-- The call `file.Seek(offset, 0)` on the freshly opened pool file: the position the next
read starts at.  The call fails for a negative offset and for one above `maxOffset`; the code
ignores the error, and the position is still 0. -/
def seekStart (maxOffset offset : Int) : Nat :=
  if offset < 0 ∨ maxOffset < offset then 0 else offset.toNat

/-- The call `file.Read(buffer)` on a regular file at position `pos`: the buffer afterwards,
the number `n` of bytes read and the error.  A read into an empty buffer returns `0, nil`;
otherwise the bytes available from `pos` on, up to the length of the buffer and up to
`maxRead`, are delivered, and `0, io.EOF` is returned when there is none. -/
def fileRead (file : List Byte) (maxRead pos : Nat) (buffer : List Byte) :
    List Byte × Nat × Option FileError :=
  if buffer.length = 0 then (buffer, 0, none)
  else
    let data := (file.drop pos).take (min buffer.length maxRead)
    if data.length = 0 then (buffer, 0, some FileError.EOF)
    else (data ++ buffer.drop data.length, data.length, none)

/-- The loop `for i := 0; i+urlLength <= n; i += urlLength` of `readURLsFromFile`.  The first
argument bounds the number of iterations; `n` is always enough. -/
def readURLsFromFile.loop (buffer : List Byte) (n : Nat) :
    Nat → Nat → List GoString → List GoString
  | 0, _, urls => urls
  | fuel + 1, i, urls =>
    if i + 6 ≤ n then
      readURLsFromFile.loop buffer n fuel (i + 6) (urls ++ [(buffer.drop i).take 6])
    else urls

/-- The function `readURLsFromFile` on the opened pool file of the loader: the records and the
number of bytes read.  `bytesToRead := count * urlLength` wraps around, and
`make([]byte, bytesToRead)` ends the program when it cannot allocate the buffer. -/
def readURLsFromFile (f : FileLoader) (offset : Int) (count : Int) :
    Outcome FileError (List GoString × Int) :=
  let bytesToRead := wrap64 (count * urlLength)
  if canMake f.memory bytesToRead 1 then
    let buffer : List Byte := List.replicate bytesToRead.toNat 0
    match fileRead f.urlFile f.maxRead (seekStart f.maxOffset offset) buffer with
    | (buffer, n, err) =>
      if err ≠ none ∧ n = 0 then Outcome.err FileError.EOF
      else Outcome.ok (readURLsFromFile.loop buffer n n 0 [], (n : Int))
  else Outcome.panic

/-- The method `FileLoader.LoadBatch`: the records returned and the files afterwards.  The
offset file is rewritten only after a successful read, with the 64-bit sum
`offset + int64(bytesRead)`. -/
def FileLoader.LoadBatch (f : FileLoader) (count : Int) :
    Outcome FileError (List GoString × FileLoader) :=
  let offset := readOffset f.offsetFile
  match readURLsFromFile f offset count with
  | Outcome.panic => Outcome.panic
  | Outcome.err e => Outcome.err e
  | Outcome.ok (urls, bytesRead) =>
    let newOffset := wrap64 (offset + bytesRead)
    Outcome.ok (urls, { f with offsetFile := writeOffset newOffset })

/-- The type `URLNode`; `Next` is the address of the next node, `none` for nil. -/
structure URLNode where
  Code : GoString
  Next : Option Nat
deriving DecidableEq

/-- The type `LinkedURL`.  The nodes live in a heap `nodes` indexed by address, and `fresh`
is the address the next allocated node receives; the mutex is not modelled, every method
runs as one step. -/
structure LinkedURL where
  nodes : Nat → URLNode
  fresh : Nat
  head : Option Nat
  tail : Option Nat
  count : Int
  threshold : Int
  batchSize : Int
  loader : FileLoader
  loading : Bool

/-- The constructor `NewLinkedURL`. -/
def NewLinkedURL (loader : FileLoader) (threshold batchSize : Int) : LinkedURL :=
  { nodes := fun _ => { Code := [], Next := none }, fresh := 0, head := none, tail := none,
    count := 0, threshold := threshold, batchSize := batchSize, loader := loader,
    loading := false }

/-- The error of `Acquire`: "no URLs available". -/
inductive PoolError where
  | noURLsAvailable
deriving DecidableEq

/-- The method `LinkedURL.Acquire`: the pool afterwards, the returned identifier or error,
and whether the goroutine `go l.loadMore()` is started.  The counter follows the number of
nodes and stays far inside the 64-bit range. -/
def LinkedURL.Acquire (l : LinkedURL) : LinkedURL × Outcome PoolError GoString × Bool :=
  match l.head with
  | none => (l, Outcome.err PoolError.noURLsAvailable, false)
  | some oldHead =>
    let code := (l.nodes oldHead).Code
    let head := (l.nodes oldHead).Next
    let nodes := Function.update l.nodes oldHead { Code := code, Next := none }
    let count := l.count - 1
    let tail := if head = none then none else l.tail
    let needLoad := decide (count < l.threshold) && !l.loading
    ({ l with nodes := nodes, head := head, tail := tail, count := count },
      Outcome.ok code, needLoad)

/-- One iteration of the loop `for _, code := range urls` of `loadMore`: a new node is
allocated and linked behind the tail. -/
def LinkedURL.appendNode (l : LinkedURL) (code : GoString) : LinkedURL :=
  let node := l.fresh
  let nodes := Function.update l.nodes node { Code := code, Next := none }
  match l.tail with
  | none =>
    { l with nodes := nodes, fresh := node + 1, head := some node, tail := some node,
             count := l.count + 1 }
  | some t =>
    { l with nodes := Function.update nodes t { Code := (nodes t).Code, Next := some node },
             fresh := node + 1, tail := some node, count := l.count + 1 }

/-- The method `LinkedURL.loadMore`, run as one step: the pool afterwards and the returned
error; `none` stands for a panic inside `LoadBatch`. -/
def LinkedURL.loadMore (l : LinkedURL) : Option (LinkedURL × Option FileError) :=
  if l.loading then some (l, none)
  else
    let l1 := { l with loading := true }
    match l1.loader.LoadBatch l1.batchSize with
    | Outcome.panic => none
    | Outcome.err e => some ({ l1 with loading := false }, some e)
    | Outcome.ok (urls, loader) =>
      some ({ urls.foldl LinkedURL.appendNode { l1 with loader := loader } with
              loading := false }, none)

/-- The method `LinkedURL.Init`. -/
def LinkedURL.Init (l : LinkedURL) : Option (LinkedURL × Option FileError) :=
  l.loadMore

/-- The method `LinkedURL.Count`. -/
def LinkedURL.Count (l : LinkedURL) : Int :=
  l.count

/-- The method `LinkedURL.IsLoading`. -/
def LinkedURL.IsLoading (l : LinkedURL) : Bool :=
  l.loading

/-- An event of the sequential model of the pool: a call of `Acquire`, or a refill, that is
one call of `loadMore` (by `Init` or by a goroutine that `Acquire` started). -/
inductive PoolEvent where
  | acquire
  | refill
deriving DecidableEq

/-- The identifiers returned by the successful `Acquire` calls of a run of events, in order.
The run ends at a panic. -/
def poolRun (l : LinkedURL) : List PoolEvent → List GoString
  | [] => []
  | PoolEvent.acquire :: rest =>
    match l.Acquire with
    | (l1, Outcome.ok code, _) => code :: poolRun l1 rest
    | (l1, _, _) => poolRun l1 rest
  | PoolEvent.refill :: rest =>
    match l.loadMore with
    | none => []
    | some (l1, _) => poolRun l1 rest

/-- The whole 6-byte records of a byte sequence: record `k` is the bytes `6k, ..., 6k+5`;
bytes behind the last whole record belong to no record. -/
def wholeRecords (bytes : List Byte) : List GoString :=
  (List.range (bytes.length / 6)).map fun k => (bytes.drop (6 * k)).take 6

/-- A sequence of `LoadBatch` calls with the given counts, all of which must succeed: for
each call the offset it read and the offset it wrote, and the files at the end. -/
def loadBatches (f : FileLoader) : List Int → Option (List (Int × Int) × FileLoader)
  | [] => some ([], f)
  | count :: rest =>
    match f.LoadBatch count with
    | Outcome.ok (_, f1) =>
      (loadBatches f1 rest).map fun r =>
        ((readOffset f.offsetFile, readOffset f1.offsetFile) :: r.1, r.2)
    | _ => none

/-- The pool file of the end-to-end scenario: the 12 records "aaaaaa", "bbbbbb", ...,
"llllll". -/
def scenarioFile : List Byte :=
  ((List.range 12).map fun k => List.replicate 6 (Fin.ofNat (97 + k) : Byte)).flatten

/-! ## Package `preload`: return values, reachable nodes and interleaved runs -/

/-- The two values `Acquire` returns: the identifier with a nil error, or the empty string
with the error. -/
def LinkedURL.acquireReturn (l : LinkedURL) : GoString × Option PoolError :=
  match l.Acquire.2.1 with
  | Outcome.ok code => (code, none)
  | Outcome.err e => ([], some e)
  | Outcome.panic => ([], none)

/-- The addresses of the nodes met when following `Next` from the pointer `p`, at most
`fuel` of them. -/
def nodesFrom (nodes : Nat → URLNode) : Nat → Option Nat → List Nat
  | 0, _ => []
  | _ + 1, none => []
  | fuel + 1, some a => a :: nodesFrom nodes fuel (nodes a).Next

/-- The nodes reachable from `head`.  No more nodes than were ever allocated can be reachable,
so `fresh` bounds the walk. -/
def LinkedURL.reachable (l : LinkedURL) : List Nat :=
  nodesFrom l.nodes l.fresh l.head

/-- The identifiers the pool holds, head first. -/
def LinkedURL.queue (l : LinkedURL) : List GoString :=
  l.reachable.map fun a => (l.nodes a).Code

/-- The first critical section of `loadMore`: the pool afterwards, and whether the call goes
on (it returns nil at once when a refill is already in flight). -/
def LinkedURL.loadMoreEnter (l : LinkedURL) : LinkedURL × Bool :=
  if l.loading then (l, false) else ({ l with loading := true }, true)

/-- The critical section of `loadMore` after a failed `LoadBatch`. -/
def LinkedURL.loadMoreFail (l : LinkedURL) : LinkedURL :=
  { l with loading := false }

/-- The critical section of `loadMore` after a successful `LoadBatch`: the loop that appends
the nodes, then `loading = false`. -/
def LinkedURL.loadMoreAppend (l : LinkedURL) (urls : List GoString) : LinkedURL :=
  { urls.foldl LinkedURL.appendNode l with loading := false }

/-- A call of `loadMore` in progress, by the point it has reached: called but not yet in its
first critical section; past it with `loading` set and `LoadBatch` still to be called;
back from `LoadBatch` with the records; back from `LoadBatch` with an error. -/
inductive RefillTask where
  | started
  | loading
  | loaded (urls : List GoString)
  | failed (e : FileError)
deriving DecidableEq

/-- The pool together with the calls of `loadMore` that are in progress. -/
structure PoolSys where
  pool : LinkedURL
  tasks : List RefillTask

/-- The steps of an interleaved run, each of which the mutex (or the file lock) makes atomic:
a call of `Acquire`, including its `go l.loadMore()`; a call of `Init`, which calls
`loadMore`; the next step of the `i`-th call of `loadMore` in progress. -/
inductive SysEvent where
  | acquire
  | init
  | advance (i : Nat)
deriving DecidableEq

/-- One step of an interleaved run; `none` is a panic in `LoadBatch`, which ends the
program. -/
def PoolSys.step (s : PoolSys) : SysEvent → Option PoolSys
  | SysEvent.acquire =>
    some { pool := s.pool.Acquire.1,
           tasks := if s.pool.Acquire.2.2 then s.tasks ++ [RefillTask.started] else s.tasks }
  | SysEvent.init => some { pool := s.pool, tasks := s.tasks ++ [RefillTask.started] }
  | SysEvent.advance i =>
    match s.tasks[i]? with
    | none => some s
    | some RefillTask.started =>
      if s.pool.loadMoreEnter.2 then
        some { pool := s.pool.loadMoreEnter.1, tasks := s.tasks.set i RefillTask.loading }
      else some { pool := s.pool.loadMoreEnter.1, tasks := s.tasks.eraseIdx i }
    | some RefillTask.loading =>
      match s.pool.loader.LoadBatch s.pool.batchSize with
      | Outcome.panic => none
      | Outcome.err e => some { pool := s.pool, tasks := s.tasks.set i (RefillTask.failed e) }
      | Outcome.ok (urls, loader) =>
        some { pool := { s.pool with loader := loader },
               tasks := s.tasks.set i (RefillTask.loaded urls) }
    | some (RefillTask.failed _) =>
      some { pool := s.pool.loadMoreFail, tasks := s.tasks.eraseIdx i }
    | some (RefillTask.loaded urls) =>
      some { pool := s.pool.loadMoreAppend urls, tasks := s.tasks.eraseIdx i }

/-- An interleaved run, up to its end or to a panic: the last state. -/
def PoolSys.run (s : PoolSys) : List SysEvent → PoolSys
  | [] => s
  | ev :: rest =>
    match s.step ev with
    | none => s
    | some s1 => s1.run rest

/-- A new pool with no call of `loadMore` in progress. -/
def PoolSys.new (loader : FileLoader) (threshold batchSize : Int) : PoolSys :=
  { pool := NewLinkedURL loader threshold batchSize, tasks := [] }

/-- The number of refills in flight: the calls of `loadMore` that are past their first
critical section. -/
def inFlight (tasks : List RefillTask) : Nat :=
  (tasks.filter fun t => decide (t ≠ RefillTask.started)).length

/-- The number of refill requests of an interleaved run: the `Acquire` calls in it that
execute `go l.loadMore()`. -/
def PoolSys.requests (s : PoolSys) : List SysEvent → Nat
  | [] => 0
  | ev :: rest =>
    match s.step ev with
    | none => 0
    | some s1 =>
      (if ev = SysEvent.acquire ∧ s.pool.Acquire.2.2 = true then 1 else 0) + s1.requests rest

/-- The value of `loading` after each step of an interleaved run. -/
def PoolSys.loadingTrace (s : PoolSys) : List SysEvent → List Bool
  | [] => []
  | ev :: rest =>
    match s.step ev with
    | none => []
    | some s1 => s1.pool.loading :: s1.loadingTrace rest

/-- What a step of an interleaved run hands out: the identifier a successful `Acquire`
returns. -/
def PoolSys.output (s : PoolSys) : SysEvent → List GoString
  | SysEvent.acquire =>
    match s.pool.Acquire.2.1 with
    | Outcome.ok code => [code]
    | _ => []
  | _ => []

/-- What a step of an interleaved run puts into the pool: the records a call of `loadMore`
appends in its last critical section. -/
def PoolSys.input (s : PoolSys) : SysEvent → List GoString
  | SysEvent.advance i =>
    match s.tasks[i]? with
    | some (RefillTask.loaded urls) => urls
    | _ => []
  | _ => []

/-- The identifiers the successful `Acquire` calls of an interleaved run return, in order. -/
def PoolSys.issued (s : PoolSys) : List SysEvent → List GoString
  | [] => []
  | ev :: rest =>
    match s.step ev with
    | none => []
    | some s1 => s.output ev ++ s1.issued rest

/-- The identifiers the refills of an interleaved run append, in order. -/
def PoolSys.appended (s : PoolSys) : List SysEvent → List GoString
  | [] => []
  | ev :: rest =>
    match s.step ev with
    | none => []
    | some s1 => s.input ev ++ s1.appended rest

/-! ## Package `storage`: the LRU cache -/

/-- The type `cacheEntry`. -/
structure cacheEntry where
  key : GoString
  value : GoString
deriving DecidableEq

/-- The type `LRUCache`.  `lruList` is the recency list, front first.  The map `cache` sends
a key to its element of the list; every method changes the map and the list together, so
that the keys of the map are the keys of the list elements, and `c.cache[key]` is the
element of the list with that key.  The counters count calls and stay far inside the
64-bit range.  The mutex is not modelled. -/
structure LRUCache where
  capacity : Int
  lruList : List cacheEntry
  hits : Int
  misses : Int
deriving DecidableEq

/-- The constructor `NewLRUCache`. -/
def NewLRUCache (capacity : Int) : LRUCache :=
  { capacity := capacity, lruList := [], hits := 0, misses := 0 }

/-- The map access `elem, ok := c.cache[key]`. -/
def LRUCache.lookup (c : LRUCache) (key : GoString) : Option cacheEntry :=
  c.lruList.find? fun e => decide (e.key = key)

/-- The method `LRUCache.Get`: the cache afterwards, the value and the flag.  On a hit
`MoveToFront` takes the element out of the list and puts it in front. -/
def LRUCache.Get (c : LRUCache) (key : GoString) : LRUCache × GoString × Bool :=
  match c.lookup key with
  | some elem =>
    ({ c with hits := c.hits + 1, lruList := elem :: c.lruList.erase elem }, elem.value, true)
  | none => ({ c with misses := c.misses + 1 }, [], false)

/-- The method `LRUCache.Put`.  For a key that is present the element is moved to the front
and its value overwritten.  Otherwise the new entry is pushed to the front, and if the list is
then longer than the capacity its back element is removed from the list and the map. -/
def LRUCache.Put (c : LRUCache) (key value : GoString) : LRUCache :=
  match c.lookup key with
  | some elem =>
    { c with lruList := { key := elem.key, value := value } :: c.lruList.erase elem }
  | none =>
    let lruList := { key := key, value := value } :: c.lruList
    if (lruList.length : Int) > c.capacity then { c with lruList := lruList.dropLast }
    else { c with lruList := lruList }

/-- The method `LRUCache.Size`. -/
def LRUCache.Size (c : LRUCache) : Int :=
  (c.lruList.length : Int)

/-- The method `LRUCache.Clear`. -/
def LRUCache.Clear (c : LRUCache) : LRUCache :=
  { c with lruList := [], hits := 0, misses := 0 }

/-- A call of a method of the cache that changes it. -/
inductive CacheOp where
  | get (key : GoString)
  | put (key value : GoString)
  | clear
deriving DecidableEq

/-- The cache after a call. -/
def LRUCache.step (c : LRUCache) : CacheOp → LRUCache
  | CacheOp.get key => (c.Get key).1
  | CacheOp.put key value => c.Put key value
  | CacheOp.clear => c.Clear

/-- The key a call uses: the key of a `Put`, and the key of a `Get` that hits. -/
def LRUCache.used (c : LRUCache) : CacheOp → Option GoString
  | CacheOp.get key => if (c.lookup key).isSome then some key else none
  | CacheOp.put key _ => some key
  | CacheOp.clear => none

/-- A cache together with the history needed to say which key is least recently used:
the number of calls made so far, and for every key the number of the last call that was a
`Put` of the key or a `Get` hit on it (0 if there was none). -/
structure TimedCache where
  cache : LRUCache
  clock : Nat
  lastUse : GoString → Nat

/-- A new cache with an empty history. -/
def TimedCache.new (capacity : Int) : TimedCache :=
  { cache := NewLRUCache capacity, clock := 0, lastUse := fun _ => 0 }

/-- One call on the cache, recorded in the history. -/
def TimedCache.step (t : TimedCache) (op : CacheOp) : TimedCache :=
  { cache := t.cache.step op,
    clock := t.clock + 1,
    lastUse :=
      match t.cache.used op with
      | some key => Function.update t.lastUse key (t.clock + 1)
      | none => t.lastUse }

/-- A sequence of calls on the cache. -/
def TimedCache.run (t : TimedCache) (ops : List CacheOp) : TimedCache :=
  ops.foldl TimedCache.step t

/-- A sequence of `Put` calls, one for each key and value of the list, in order. -/
def LRUCache.putAll (c : LRUCache) (kvs : List (GoString × GoString)) : LRUCache :=
  kvs.foldl (fun c kv => c.Put kv.1 kv.2) c

/-- A sequence of calls on the cache. -/
def LRUCache.run (c : LRUCache) (ops : List CacheOp) : LRUCache :=
  ops.foldl LRUCache.step c

/-- The number of distinct keys stored in the cache, that is the size of the map `cache`. -/
def LRUCache.storedKeys (c : LRUCache) : Nat :=
  (c.lruList.map cacheEntry.key).toFinset.card

/-- Rounding of a rational number to the nearest integer, a tie to the even one. -/
def roundHalfEven (x : ℚ) : Int :=
  if x - ⌊x⌋ < 1 / 2 then ⌊x⌋
  else if 1 / 2 < x - ⌊x⌋ then ⌊x⌋ + 1
  else if ⌊x⌋ % 2 = 0 then ⌊x⌋ else ⌊x⌋ + 1

/-- The `float64` value nearest to a positive rational number, a tie to the one with the even
significand: with `2^e ≤ x < 2^(e+1)`, the number is scaled to a significand in
`[2^52, 2^53)`, which is rounded to an integer.  Overflow and the subnormal range are not
modelled: the values the program rounds lie between `2^-64` and `2^64`. -/
def roundFloat64.pos (x : ℚ) : ℚ :=
  (roundHalfEven (x * 2 ^ (52 - Int.log 2 x)) : ℚ) * 2 ^ (Int.log 2 x - 52)

/-- The `float64` value nearest to a rational number. -/
def roundFloat64 (x : ℚ) : ℚ :=
  if x = 0 then 0
  else if 0 < x then roundFloat64.pos x
  else -roundFloat64.pos (-x)

/-- The method `LRUCache.HitRate`: the conversions `float64(c.hits)` and `float64(total)`
and the division each round to the nearest `float64`. -/
def LRUCache.HitRate (c : LRUCache) : ℚ :=
  let total := c.hits + c.misses
  if total = 0 then 0
  else roundFloat64 (roundFloat64 (c.hits : ℚ) / roundFloat64 (total : ℚ))

/-- The flags returned by the `Get` calls of a run, in order. -/
def LRUCache.getFlags (c : LRUCache) : List CacheOp → List Bool
  | [] => []
  | CacheOp.get key :: rest => (c.Get key).2.2 :: LRUCache.getFlags (c.Get key).1 rest
  | op :: rest => LRUCache.getFlags (c.step op) rest

/-! ## Package `storage`: the layered storage -/

/-- A call that `LayeredStorage` makes on its database handle: `db.Create(mapping)` in `Save`,
and the query `db.Where("short_code = ? AND expires_at > ?", code, time.Now()).First(&mapping)`
in `Get`, which is the only read of the store. -/
inductive DBCall where
  | create (code longURL : GoString)
  | first (code : GoString)
deriving DecidableEq

/-- The errors of the storage layer: `gorm.ErrRecordNotFound`; the error "short URL not found
or expired" that `Get` makes of it; any other error the database reports. -/
inductive StorageError where
  | recordNotFound
  | notFoundOrExpired
  | other (n : Nat)
deriving DecidableEq

/-- The database behind the handle `*gorm.DB`, which lies outside the repository: an opaque
store.  What a call returns may depend in any way on the calls made before it, which stand for
everything that has happened to the store, the clock included: `create` gives `result.Error`
of `db.Create` (`none` is nil), `first` gives `result.Error` of the query or, when that is
nil, `mapping.LongURL`. -/
structure Database where
  create : List DBCall → GoString → GoString → Option StorageError
  first : List DBCall → GoString → Except StorageError GoString

/-- The type `LayeredStorage`: the database handle with the calls made on it so far, and the
cache. -/
structure LayeredStorage where
  db : Database
  calls : List DBCall
  cache : LRUCache

/-- The constructor `NewLayeredStorage`, when the database opens and migrates without
error. -/
def NewLayeredStorage (db : Database) (cacheSize : Int) : LayeredStorage :=
  { db := db, calls := [], cache := NewLRUCache cacheSize }

/-- The method `LayeredStorage.Save`: the storage afterwards and the returned error. -/
def LayeredStorage.Save (s : LayeredStorage) (code longURL : GoString) :
    LayeredStorage × Option StorageError :=
  match s.db.create s.calls code longURL with
  | some e => ({ s with calls := s.calls ++ [DBCall.create code longURL] }, some e)
  | none =>
    ({ s with calls := s.calls ++ [DBCall.create code longURL],
              cache := s.cache.Put code longURL }, none)

/-- The method `LayeredStorage.Get`: the storage afterwards, the returned string and the
returned error. -/
def LayeredStorage.Get (s : LayeredStorage) (code : GoString) :
    LayeredStorage × GoString × Option StorageError :=
  match s.cache.Get code with
  | (cache, longURL, true) => ({ s with cache := cache }, longURL, none)
  | (cache, _, false) =>
    match s.db.first s.calls code with
    | Except.error e =>
      ({ s with calls := s.calls ++ [DBCall.first code], cache := cache }, [],
        some (if e = StorageError.recordNotFound then StorageError.notFoundOrExpired else e))
    | Except.ok longURL =>
      ({ s with calls := s.calls ++ [DBCall.first code], cache := cache.Put code longURL },
        longURL, none)

/-- The number of store reads made so far. -/
def LayeredStorage.reads (s : LayeredStorage) : Nat :=
  (s.calls.filter fun c => match c with
    | DBCall.first _ => true
    | DBCall.create _ _ => false).length

/-- A store for examples: a table of rows, none of which expires, in which `Create` fails on
a code that an earlier `Create` has stored (the unique index on `short_code`). -/
def tableDatabase : Database where
  create := fun calls code _ =>
    if calls.any (fun c => match c with
      | DBCall.create code1 _ => decide (code1 = code)
      | DBCall.first _ => false)
    then some (StorageError.other 0) else none
  first := fun calls code =>
    match calls.find? (fun c => match c with
      | DBCall.create code1 _ => decide (code1 = code)
      | DBCall.first _ => false) with
    | some (DBCall.create _ longURL) => Except.ok longURL
    | _ => Except.error StorageError.recordNotFound

/-! ## Predicates used in the statements and proofs -/

/-- A six-byte buffer whose positions selected by `p` hold charset symbols. -/
def filled (p : Nat → Prop) (result : List Byte) : Prop :=
  result.length = 6 ∧ ∀ j, j < 6 → p j → ∃ c, result[j]? = some c ∧ c ∈ charset

/-- The identifiers handed out so far are pairwise distinct and all reported by the filter. -/
def Issued (g : Generator) (acc : List GoString) : Prop :=
  acc.Nodup ∧ ∀ x ∈ acc, g.bf.Contains x = some true

/-- The nodes at the addresses `addrs` form the list that starts at pointer `p` and ends
with a nil `Next`. -/
def Chain (nodes : Nat → URLNode) : Option Nat → List Nat → Prop
  | p, [] => p = none
  | p, a :: addrs => p = some a ∧ Chain nodes (nodes a).Next addrs

/-- The representation invariant of the pool: `addrs` are the addresses of the nodes
reachable from `head`, in order; they are allocated and pairwise different; `tail` points to
the last of them; `count` is their number. -/
structure PoolInv (l : LinkedURL) (addrs : List Nat) : Prop where
  chain : Chain l.nodes l.head addrs
  nodup : addrs.Nodup
  bound : ∀ a ∈ addrs, a < l.fresh
  tail : l.tail = addrs.getLast?
  count : l.count = (addrs.length : Int)

/-- The identifiers queued in the pool, head first. -/
def queued (l : LinkedURL) (addrs : List Nat) : List GoString :=
  addrs.map fun a => (l.nodes a).Code

/-- The invariant of a sequential run of the pool over the pool file `file` with batch size
`B`, on a system where one read transfers at most `maxRead` bytes: no refill is in flight,
the cursor lies in the file and is a multiple of 6 or the end of the file, and the
identifiers issued so far followed by those queued are exactly the records of the file in
front of the cursor. -/
def RunInv (file : List Byte) (maxRead : Nat) (B : Int) (l : LinkedURL)
    (issued : List GoString) : Prop :=
  ∃ addrs, PoolInv l addrs ∧ (l.loader.urlFile = file ∧ l.loader.maxRead = maxRead) ∧
    l.batchSize = B ∧ l.loading = false ∧
    0 ≤ readOffset l.loader.offsetFile ∧
    readOffset l.loader.offsetFile ≤ (file.length : Int) ∧
    (readOffset l.loader.offsetFile % 6 = 0 ∨
      readOffset l.loader.offsetFile = (file.length : Int)) ∧
    issued ++ queued l addrs =
      (wholeRecords file).take ((readOffset l.loader.offsetFile).toNat / 6)

/-- The invariant of the cache with its history: nearer the front of the recency list the
last use is later, and no last use lies in the future. -/
def TimedInv (t : TimedCache) : Prop :=
  t.cache.lruList.Pairwise (fun e e1 => t.lastUse e1.key < t.lastUse e.key) ∧
    ∀ key, t.lastUse key ≤ t.clock

/-- The invariant of an interleaved run: the pool is well formed, and `loading` is set
exactly while one call of `loadMore` is past its first critical section; there is never
more than one such call. -/
def SysInv (s : PoolSys) : Prop :=
  (∃ addrs, PoolInv s.pool addrs) ∧ inFlight s.tasks = (if s.pool.loading then 1 else 0)

/-! ## Theorems -/

/-! ### 64-bit arithmetic and the charset -/

theorem wrap64_lower (x : Int) : -9223372036854775808 ≤ wrap64 x := by
  unfold wrap64; omega

theorem wrap64_upper (x : Int) : wrap64 x < 9223372036854775808 := by
  unfold wrap64; omega

theorem wrap64_of_range (x : Int) (h1 : -9223372036854775808 ≤ x)
    (h2 : x < 9223372036854775808) : wrap64 x = x := by
  unfold wrap64; omega

theorem wrap64_le_self (x : Int) (h : -9223372036854775808 ≤ x) : wrap64 x ≤ x := by
  unfold wrap64; omega

theorem charset_length : charset.length = 64 := by decide

theorem charsetAt_of_range (i : Int) (h0 : 0 ≤ i) (h1 : i < 64) :
    ∃ c, charsetAt i = some c ∧ c ∈ charset := by
  have hlt : i.toNat < charset.length := by rw [charset_length]; omega
  refine ⟨charset[i.toNat], ?_, List.getElem_mem hlt⟩
  unfold charsetAt sliceGet
  rw [if_neg (by omega)]
  exact List.getElem?_eq_getElem hlt

theorem tmod64_range (h : Int) (h0 : 0 ≤ h) : 0 ≤ Int.tmod h 64 ∧ Int.tmod h 64 < 64 :=
  ⟨Int.tmod_nonneg 64 h0, Int.tmod_lt_of_pos h (by decide)⟩

theorem tdiv64_nonneg (h : Int) (h0 : 0 ≤ h) : 0 ≤ Int.tdiv h 64 :=
  Int.tdiv_nonneg h0 (by decide)

theorem filled_all (result : List Byte) (h : filled (fun _ => True) result) :
    result.length = 6 ∧ ∀ c ∈ result, c ∈ charset := by
  refine ⟨h.1, fun c hc => ?_⟩
  obtain ⟨j, hj, rfl⟩ := List.getElem_of_mem hc
  obtain ⟨c, hc1, hc2⟩ := h.2 j (h.1 ▸ hj) trivial
  rw [List.getElem?_eq_getElem hj] at hc1
  cases hc1
  exact hc2

theorem filled_set (p : Nat → Prop) (result : List Byte) (k : Nat) (c : Byte) (hk : k < 6)
    (hc : c ∈ charset) (h : filled p result) :
    filled (fun j => p j ∨ j = k) (result.set k c) := by
  refine ⟨by simpa using h.1, fun j hj hp => ?_⟩
  by_cases hjk : k = j
  · subst hjk
    exact ⟨c, by rw [List.getElem?_set]; simp [h.1, hk], hc⟩
  · rcases hp with hp | hp
    · obtain ⟨d, hd1, hd2⟩ := h.2 j hj hp
      exact ⟨d, by rw [List.getElem?_set, if_neg hjk]; exact hd1, hd2⟩
    · exact absurd hp.symm hjk

theorem GenerateWithHash_loop_total (n : Nat) :
    ∀ (i : Nat) (hash : Int) (result : List Byte), i + n = 6 → 0 ≤ hash →
      filled (fun j => j < i) result →
      ∃ s, GenerateWithHash.loop n i hash result = some s ∧ filled (fun _ => True) s := by
  induction n with
  | zero =>
    intro i hash result hi _ hf
    refine ⟨result, rfl, hf.1, fun j hj _ => hf.2 j hj (by omega)⟩
  | succ n ih =>
    intro i hash result hi h0 hf
    obtain ⟨c, hc1, hc2⟩ := charsetAt_of_range _ (tmod64_range hash h0).1 (tmod64_range hash h0).2
    have hset : sliceSet result (i : Int) c = some (result.set i c) := by
      unfold sliceSet
      rw [if_neg (by rw [hf.1]; omega)]
      simp
    have hf2 := filled_set _ result i c (by omega) hc2 hf
    obtain ⟨s, hs1, hs2⟩ := ih (i + 1) (Int.tdiv hash 64) (result.set i c) (by omega)
      (tdiv64_nonneg hash h0)
      ⟨hf2.1, fun j hj hp => hf2.2 j hj (by omega)⟩
    exact ⟨s, by simp only [GenerateWithHash.loop, hc1, hset, Option.bind]; exact hs1, hs2⟩

theorem GenerateWithSequence_loop_total (n : Nat) :
    ∀ (i : Nat) (seq : Int) (result : List Byte), i + n = 6 → 0 ≤ seq →
      filled (fun j => 6 ≤ j + i) result →
      ∃ s, GenerateWithSequence.loop n i seq result = some s ∧ filled (fun _ => True) s := by
  induction n with
  | zero =>
    intro i seq result hi _ hf
    refine ⟨result, rfl, hf.1, fun j hj _ => hf.2 j hj (by omega)⟩
  | succ n ih =>
    intro i seq result hi h0 hf
    obtain ⟨c, hc1, hc2⟩ := charsetAt_of_range _ (tmod64_range seq h0).1 (tmod64_range seq h0).2
    have hidx : (5 - (i : Int)).toNat = 5 - i := by omega
    have hset : sliceSet result (5 - (i : Int)) c = some (result.set (5 - i) c) := by
      unfold sliceSet
      rw [if_neg (by rw [hf.1]; omega), hidx]
    have hf2 := filled_set _ result (5 - i) c (by omega) hc2 hf
    obtain ⟨s, hs1, hs2⟩ := ih (i + 1) (Int.tdiv seq 64) (result.set (5 - i) c) (by omega)
      (tdiv64_nonneg seq h0)
      ⟨hf2.1, fun j hj hp => hf2.2 j hj (by omega)⟩
    exact ⟨s, by simp only [GenerateWithSequence.loop, hc1, hset, Option.bind]; exact hs1, hs2⟩

theorem filled_replicate (p : Nat → Prop) (hp : ∀ j, j < 6 → ¬ p j) :
    filled p (List.replicate 6 (0 : Byte)) :=
  ⟨by simp, fun j hj h => absurd h (hp j hj)⟩

/-- After the sign flip of `GenerateWithHash` and `GenerateWithSequence` a 64-bit value is
non-negative or is the minimum integer. -/
theorem flip_cases (h : Int) (h1 : -9223372036854775808 ≤ h) (h2 : h < 9223372036854775808) :
    0 ≤ (if h < 0 then wrap64 (-h) else h) ∨
      (if h < 0 then wrap64 (-h) else h) = -9223372036854775808 := by
  unfold wrap64
  split <;> omega

theorem foldl_wrap64_range (s : GoString) (seed : Int)
    (h1 : -9223372036854775808 ≤ seed) (h2 : seed < 9223372036854775808) :
    -9223372036854775808 ≤ s.foldl (fun hash b => wrap64 (hash * 31 + (b.val : Int))) seed ∧
      s.foldl (fun hash b => wrap64 (hash * 31 + (b.val : Int))) seed < 9223372036854775808 := by
  induction s generalizing seed with
  | nil => exact ⟨h1, h2⟩
  | cons b s ih => exact ih _ (wrap64_lower _) (wrap64_upper _)

theorem mapM_loop_eq_some_map {α β : Type} (f : α → Option β) (g : α → β)
    (h : ∀ a, f a = some (g a)) (l : List α) :
    ∀ acc : List β, List.mapM.loop f l acc = some (acc.reverse ++ l.map g) := by
  induction l with
  | nil => intro acc; simp [List.mapM.loop]
  | cons a l ih => intro acc; simp [List.mapM.loop, h, ih]

theorem mapM_eq_some_map {α β : Type} (f : α → Option β) (g : α → β) (l : List α)
    (h : ∀ a, f a = some (g a)) : l.mapM f = some (l.map g) := by
  simpa [List.mapM] using mapM_loop_eq_some_map f g h l []

theorem generateOne_total (bytes : Fin 6 → Byte) :
    ∃ s, generateOne bytes = some s ∧ s.length = 6 ∧ ∀ c ∈ s, c ∈ charset := by
  have h : ∀ i : Fin 6, ∃ c, charsetAt (Int.tmod ((bytes i).val : Int) 64) = some c ∧
      c ∈ charset := fun i =>
    charsetAt_of_range _ (tmod64_range _ (by omega)).1 (tmod64_range _ (by omega)).2
  choose f hf1 hf2 using h
  refine ⟨(List.finRange 6).map f, ?_, by simp, ?_⟩
  · unfold generateOne
    exact mapM_eq_some_map _ f _ hf1
  · intro c hc
    obtain ⟨i, _, rfl⟩ := List.mem_map.1 hc
    exact hf2 i

theorem GenerateWithHash_loop_minInt :
    GenerateWithHash.loop 6 0 (-9223372036854775808) (List.replicate 6 0) =
      some [65, 65, 65, 65, 65, 65] := by decide

theorem GenerateWithSequence_loop_minInt :
    GenerateWithSequence.loop 6 0 (-9223372036854775808) (List.replicate 6 0) =
      some [65, 65, 65, 65, 65, 65] := by decide

theorem sixA_wellformed :
    ([65, 65, 65, 65, 65, 65] : GoString).length = 6 ∧
      ∀ c ∈ ([65, 65, 65, 65, 65, 65] : GoString), c ∈ charset := by
  refine ⟨rfl, fun c hc => ?_⟩
  have h65 : (65 : Byte) ∈ charset := by decide
  simp only [List.mem_cons, List.mem_singleton, List.not_mem_nil, or_false, or_self] at hc
  rw [hc]; exact h65

theorem GenerateWithHash_total (input : GoString) :
    ∃ s, GenerateWithHash input = some s ∧ s.length = 6 ∧ ∀ c ∈ s, c ∈ charset := by
  have hr := foldl_wrap64_range input 0 (by decide) (by decide)
  unfold GenerateWithHash
  rcases flip_cases _ hr.1 hr.2 with h | h
  · obtain ⟨s, hs1, hs2⟩ := GenerateWithHash_loop_total 6 0 _ (List.replicate 6 0) rfl h
      (filled_replicate _ (fun j _ hj => by omega))
    exact ⟨s, hs1, filled_all s hs2⟩
  · refine ⟨[65, 65, 65, 65, 65, 65], ?_, sixA_wellformed⟩
    simp only [h]
    exact GenerateWithHash_loop_minInt

theorem GenerateWithSequence_total (seq : Int) (h1 : -9223372036854775808 ≤ seq)
    (h2 : seq < 9223372036854775808) :
    ∃ s, GenerateWithSequence seq = some s ∧ s.length = 6 ∧ ∀ c ∈ s, c ∈ charset := by
  unfold GenerateWithSequence
  rcases flip_cases _ h1 h2 with h | h
  · obtain ⟨s, hs1, hs2⟩ := GenerateWithSequence_loop_total 6 0 _ (List.replicate 6 0) rfl h
      (filled_replicate _ (fun j _ hj => by omega))
    exact ⟨s, hs1, filled_all s hs2⟩
  · refine ⟨[65, 65, 65, 65, 65, 65], ?_, sixA_wellformed⟩
    simp only [h]
    exact GenerateWithSequence_loop_minInt

/-- C8: each of the three synthesis strategies returns (no index into the charset is out of
range) an identifier of exactly 6 bytes, all of them symbols of the 64-symbol charset:
`generateOne` for every six random bytes, `GenerateWithHash` for every input string, and
`GenerateWithSequence` for every 64-bit integer, the negative ones and the minimum included. -/
theorem C8_identifiers_wellformed :
    (charset.length = 64 ∧ charset.Nodup) ∧
    (∀ bytes : Fin 6 → Byte,
      ∃ s, generateOne bytes = some s ∧ s.length = 6 ∧ ∀ c ∈ s, c ∈ charset) ∧
    (∀ input : GoString,
      ∃ s, GenerateWithHash input = some s ∧ s.length = 6 ∧ ∀ c ∈ s, c ∈ charset) ∧
    (∀ seq : Int, -9223372036854775808 ≤ seq → seq < 9223372036854775808 →
      ∃ s, GenerateWithSequence seq = some s ∧ s.length = 6 ∧ ∀ c ∈ s, c ∈ charset) :=
  ⟨⟨charset_length, by decide⟩, generateOne_total, GenerateWithHash_total,
    GenerateWithSequence_total⟩

/-- C8 at the minimum 64-bit integer: `GenerateWithSequence` returns a well-formed identifier. -/
theorem C8_identifiers_wellformed_witness :
    ∃ s, GenerateWithSequence (-9223372036854775808) = some s ∧ s.length = 6 ∧
      ∀ c ∈ s, c ∈ charset :=
  C8_identifiers_wellformed.2.2.2 (-9223372036854775808) (by decide) (by decide)

/-! ### The Bloom filter -/

theorem sliceSet_length {α : Type} (s s1 : List α) (i : Int) (v : α)
    (h : sliceSet s i v = some s1) : s1.length = s.length := by
  unfold sliceSet at h
  split at h
  · cases h
  · cases h; simp

theorem sliceSet_get_self {α : Type} (s s1 : List α) (i : Int) (v : α)
    (h : sliceSet s i v = some s1) : sliceGet s1 i = some v := by
  unfold sliceSet at h
  split at h
  · cases h
  · rename_i hc
    cases h
    unfold sliceGet
    rw [if_neg (by omega), List.getElem?_set]
    simp
    omega

theorem sliceSet_get_mono {α : Type} (s s1 : List α) (i j : Int) (v : α)
    (h : sliceSet s i v = some s1) (hj : sliceGet s j = some v) : sliceGet s1 j = some v := by
  unfold sliceSet at h
  split at h
  · cases h
  · rename_i hc
    cases h
    unfold sliceGet at hj ⊢
    split at hj
    · cases hj
    · rename_i hj0
      rw [if_neg hj0, List.getElem?_set]
      split
      · rename_i heq
        rw [if_pos (by omega)]
      · exact hj

theorem goMod_eq_some (a b r : Int) (h : goMod a b = some r) : b ≠ 0 ∧ r = Int.tmod a b := by
  unfold goMod at h
  split at h
  · cases h
  · rename_i hb; cases h; exact ⟨hb, rfl⟩

/-- What a completed `Add` does: the size is kept, no bit is cleared, and the three probed
bits of the item are set. -/
theorem BloomFilter_Add_spec (bf bf1 : BloomFilter) (item : GoString)
    (h : bf.Add item = some bf1) :
    bf1.size = bf.size ∧
    (∀ j, sliceGet bf.bits j = some true → sliceGet bf1.bits j = some true) ∧
    ∃ hash1 hash2 hash3,
      goMod (simpleHash item 0) bf.size = some hash1 ∧
      goMod (simpleHash item 1) bf.size = some hash2 ∧
      goMod (simpleHash item 2) bf.size = some hash3 ∧
      sliceGet bf1.bits hash1 = some true ∧ sliceGet bf1.bits hash2 = some true ∧
      sliceGet bf1.bits hash3 = some true := by
  unfold BloomFilter.Add at h
  cases h1 : goMod (simpleHash item 0) bf.size with
  | none => simp [h1] at h
  | some hash1 =>
  cases h2 : goMod (simpleHash item 1) bf.size with
  | none => simp [h1, h2] at h
  | some hash2 =>
  cases h3 : goMod (simpleHash item 2) bf.size with
  | none => simp [h1, h2, h3] at h
  | some hash3 =>
  cases s1 : sliceSet bf.bits hash1 true with
  | none => simp [h1, h2, h3, s1] at h
  | some bits1 =>
  cases s2 : sliceSet bits1 hash2 true with
  | none => simp [h1, h2, h3, s1, s2] at h
  | some bits2 =>
  cases s3 : sliceSet bits2 hash3 true with
  | none => simp [h1, h2, h3, s1, s2, s3] at h
  | some bits3 =>
  simp only [h1, h2, h3, s1, s2, s3, Option.bind, Option.some.injEq] at h
  subst h
  refine ⟨rfl, fun j hj => ?_, hash1, hash2, hash3, rfl, rfl, rfl, ?_, ?_, ?_⟩
  · exact sliceSet_get_mono _ _ _ _ _ s3 (sliceSet_get_mono _ _ _ _ _ s2
      (sliceSet_get_mono _ _ _ _ _ s1 hj))
  · exact sliceSet_get_mono _ _ _ _ _ s3 (sliceSet_get_mono _ _ _ _ _ s2
      (sliceSet_get_self _ _ _ _ s1))
  · exact sliceSet_get_mono _ _ _ _ _ s3 (sliceSet_get_self _ _ _ _ s2)
  · exact sliceSet_get_self _ _ _ _ s3

theorem BloomFilter_Contains_of_bits (bf : BloomFilter) (item : GoString)
    (hash1 hash2 hash3 : Int)
    (h1 : goMod (simpleHash item 0) bf.size = some hash1)
    (h2 : goMod (simpleHash item 1) bf.size = some hash2)
    (h3 : goMod (simpleHash item 2) bf.size = some hash3)
    (b1 : sliceGet bf.bits hash1 = some true) (b2 : sliceGet bf.bits hash2 = some true)
    (b3 : sliceGet bf.bits hash3 = some true) : bf.Contains item = some true := by
  simp [BloomFilter.Contains, h1, h2, h3, b1, b2, b3]

theorem BloomFilter_bits_of_Contains (bf : BloomFilter) (item : GoString)
    (h : bf.Contains item = some true) :
    ∃ hash1 hash2 hash3,
      goMod (simpleHash item 0) bf.size = some hash1 ∧
      goMod (simpleHash item 1) bf.size = some hash2 ∧
      goMod (simpleHash item 2) bf.size = some hash3 ∧
      sliceGet bf.bits hash1 = some true ∧ sliceGet bf.bits hash2 = some true ∧
      sliceGet bf.bits hash3 = some true := by
  unfold BloomFilter.Contains at h
  cases h1 : goMod (simpleHash item 0) bf.size with
  | none => simp [h1] at h
  | some hash1 =>
  cases h2 : goMod (simpleHash item 1) bf.size with
  | none => simp [h1, h2] at h
  | some hash2 =>
  cases h3 : goMod (simpleHash item 2) bf.size with
  | none => simp [h1, h2, h3] at h
  | some hash3 =>
  simp only [h1, h2, h3, Option.bind] at h
  cases b1 : sliceGet bf.bits hash1 with
  | none => simp [b1] at h
  | some v1 =>
  cases v1 with
  | false => simp [b1] at h
  | true =>
  cases b2 : sliceGet bf.bits hash2 with
  | none => simp [b1, b2] at h
  | some v2 =>
  cases v2 with
  | false => simp [b1, b2] at h
  | true =>
  simp only [b1, b2, if_true] at h
  exact ⟨hash1, hash2, hash3, rfl, rfl, rfl, b1, b2, h⟩

/-- A positive answer of `Contains` survives every later `Add`. -/
theorem BloomFilter_Contains_Add (bf bf1 : BloomFilter) (item x : GoString)
    (h : bf.Add item = some bf1) (hx : bf.Contains x = some true) :
    bf1.Contains x = some true := by
  obtain ⟨hsize, hmono, -⟩ := BloomFilter_Add_spec bf bf1 item h
  obtain ⟨a, b, c, h1, h2, h3, b1, b2, b3⟩ := BloomFilter_bits_of_Contains bf x hx
  exact BloomFilter_Contains_of_bits bf1 x a b c (hsize ▸ h1) (hsize ▸ h2) (hsize ▸ h3)
    (hmono _ b1) (hmono _ b2) (hmono _ b3)

/-- An item is reported present right after its own `Add`. -/
theorem BloomFilter_Contains_self (bf bf1 : BloomFilter) (item : GoString)
    (h : bf.Add item = some bf1) : bf1.Contains item = some true := by
  obtain ⟨hsize, -, a, b, c, h1, h2, h3, b1, b2, b3⟩ := BloomFilter_Add_spec bf bf1 item h
  exact BloomFilter_Contains_of_bits bf1 item a b c (hsize ▸ h1) (hsize ▸ h2) (hsize ▸ h3)
    b1 b2 b3

theorem BloomFilter_addAll_cons (bf : BloomFilter) (item : GoString) (items : List GoString) :
    bf.addAll (item :: items) = (bf.Add item).bind fun bf1 => bf1.addAll items := by
  simp [BloomFilter.addAll, List.foldlM_cons]

theorem BloomFilter_addAll_spec (items : List GoString) :
    ∀ bf bf1 : BloomFilter, bf.addAll items = some bf1 →
      (∀ j, sliceGet bf.bits j = some true → sliceGet bf1.bits j = some true) ∧
      (∀ x, bf.Contains x = some true → bf1.Contains x = some true) ∧
      ∀ x ∈ items, bf1.Contains x = some true := by
  induction items with
  | nil =>
    intro bf bf1 h
    simp [BloomFilter.addAll] at h
    subst h
    exact ⟨fun _ h => h, fun _ h => h, fun x hx => by cases hx⟩
  | cons item items ih =>
    intro bf bf1 h
    rw [BloomFilter_addAll_cons] at h
    cases hadd : bf.Add item with
    | none => simp [hadd] at h
    | some bf2 =>
      simp only [hadd, Option.bind] at h
      obtain ⟨m1, m2, m3⟩ := ih bf2 bf1 h
      refine ⟨fun j hj => m1 j ((BloomFilter_Add_spec bf bf2 item hadd).2.1 j hj),
        fun x hx => m2 x (BloomFilter_Contains_Add bf bf2 item x hadd hx), fun x hx => ?_⟩
      rcases List.mem_cons.1 hx with rfl | hx
      · exact m2 _ (BloomFilter_Contains_self bf bf2 _ hadd)
      · exact m3 x hx

/-- C5: for every filter size `M > 0` and every sequence of `Add` calls on a new filter that
run to completion, `Contains x` returns true for every item `x` of the sequence, whatever was
added before or after it; and no `Add` clears a bit that was set. -/
theorem C5_bloom_no_false_negatives (M : Int) (hM : 0 < M) (items : List GoString)
    (bf : BloomFilter) (h : (NewBloomFilter M).bind (fun bf0 => bf0.addAll items) = some bf) :
    (∀ x ∈ items, bf.Contains x = some true) ∧
    (∀ (b b1 : BloomFilter) (item : GoString), b.Add item = some b1 →
      ∀ j, sliceGet b.bits j = some true → sliceGet b1.bits j = some true) := by
  have _ := hM
  cases h0 : NewBloomFilter M with
  | none => simp [h0] at h
  | some bf0 =>
    simp only [h0, Option.bind] at h
    exact ⟨(BloomFilter_addAll_spec items bf0 bf h).2.2,
      fun b b1 item hb => (BloomFilter_Add_spec b b1 item hb).2.1⟩

/-- C5 on a filter of 10 bits after the items "abc", "abd" and "x" were added. -/
theorem C5_bloom_no_false_negatives_witness :
    (0 : Int) < 10 ∧
    ∀ x ∈ ([[97, 98, 99], [97, 98, 100], [120]] : List GoString),
      BloomFilter.Contains
        { bits := [true, true, true, false, true, true, true, true, false, false], size := 10 }
        x = some true :=
  ⟨by decide,
    (C5_bloom_no_false_negatives 10 (by decide) [[97, 98, 99], [97, 98, 100], [120]]
      { bits := [true, true, true, false, true, true, true, true, false, false], size := 10 }
      (by decide)).1⟩

/-! ### The generator -/

theorem Generate_loop_issued (rand : Nat → Fin 6 → Byte) (count maxAttempts : Int)
    (prev : List GoString) (fuel : Nat) :
    ∀ st st1 : GenerateState, Generate.loop rand count maxAttempts fuel st = some st1 →
      Issued st.g (prev ++ st.urls) → Issued st1.g (prev ++ st1.urls) := by
  induction fuel with
  | zero =>
    intro st st1 h hI
    unfold Generate.loop at h
    split at h
    · cases h
    · cases h; exact hI
  | succ fuel ih =>
    intro st st1 h hI
    unfold Generate.loop at h
    split at h
    · cases hc : generateOne (rand st.attempts.toNat) with
      | none => simp [hc] at h
      | some code =>
        cases hp : st.g.bf.Contains code with
        | none => simp [hc, hp] at h
        | some present =>
          cases present with
          | true =>
            simp only [hc, hp, Option.bind, Bool.not_true] at h
            exact ih _ st1 h hI
          | false =>
            cases ha : st.g.bf.Add code with
            | none => simp [hc, hp, ha] at h
            | some bf =>
              simp only [hc, hp, ha, Option.bind, Bool.not_false, if_true] at h
              refine ih _ st1 h ?_
              have hnot : code ∉ prev ++ st.urls := by
                intro hmem
                have := hI.2 code hmem
                rw [hp] at this
                cases this
              refine ⟨?_, fun x hx => ?_⟩
              · show (prev ++ (st.urls ++ [code])).Nodup
                rw [← List.append_assoc]
                exact List.Nodup.append hI.1 (List.nodup_singleton code)
                  (by
                    intro a ha1 ha2
                    rw [List.mem_singleton] at ha2
                    exact hnot (ha2 ▸ ha1))
              · have hx2 : x ∈ (prev ++ st.urls) ++ [code] := by
                  simpa [List.append_assoc] using hx
                rcases List.mem_append.1 hx2 with hx3 | hx3
                · exact BloomFilter_Contains_Add _ _ _ _ ha (hI.2 x hx3)
                · rw [List.mem_singleton] at hx3
                  subst hx3
                  exact BloomFilter_Contains_self _ _ _ ha
    · cases h; exact hI

theorem Generate_issued (g g1 : Generator) (memory : Int) (rand : Nat → Fin 6 → Byte)
    (count : Int) (urls : List GoString) (err : Option GenerateError) (prev : List GoString)
    (h : g.Generate memory rand count = some (g1, urls, err)) (hI : Issued g prev) :
    Issued g1 (prev ++ urls) := by
  unfold Generator.Generate at h
  cases hr : g.GenerateRun memory rand count with
  | none => simp [hr] at h
  | some st =>
    have hst : g1 = st.g ∧ urls = st.urls := by
      simp only [hr, Option.map] at h
      split at h <;> (cases h; exact ⟨rfl, rfl⟩)
    unfold Generator.GenerateRun at hr
    split at hr
    · have := Generate_loop_issued rand count _ prev _ _ st hr (by simpa using hI)
      rw [hst.1, hst.2]
      exact this
    · cases hr

theorem generateCalls_nodup (memory : Int) (calls : List (Int × (Nat → Fin 6 → Byte))) :
    ∀ (g : Generator) (prev : List GoString), Issued g prev →
      (prev ++ (generateCalls g memory calls).flatten).Nodup := by
  induction calls with
  | nil => intro g prev hI; simpa [generateCalls] using hI.1
  | cons call calls ih =>
    intro g prev hI
    obtain ⟨count, rand⟩ := call
    unfold generateCalls
    cases hg : g.Generate memory rand count with
    | none => simpa using hI.1
    | some r =>
      obtain ⟨g1, urls, err⟩ := r
      have := ih g1 (prev ++ urls) (Generate_issued g g1 memory rand count urls err prev hg hI)
      simpa [List.append_assoc] using this

/-- C6: for every filter size, every sequence of `Generate` calls on one generator, every
requested count and every stream of random bytes, all identifiers returned by the calls
are pairwise distinct: those of one call among themselves and from those of every earlier
call; this holds whatever memory is available. -/
theorem C6_generate_distinct (memory bloomSize : Int)
    (calls : List (Int × (Nat → Fin 6 → Byte))) :
    (generateAll memory bloomSize calls).flatten.Nodup := by
  unfold generateAll
  cases hg : NewGenerator bloomSize with
  | none => simp
  | some g =>
    have := generateCalls_nodup memory calls g [] ⟨List.nodup_nil, fun x hx => by cases hx⟩
    simpa using this

theorem simpleHash_six (a b c d e f : Byte) (seed : Int) (h0 : 0 ≤ seed) (h2 : seed ≤ 2) :
    0 ≤ simpleHash [a, b, c, d, e, f] seed ∧
      simpleHash [a, b, c, d, e, f] seed < 9223372036854775808 := by
  have ha := a.isLt
  have hb := b.isLt
  have hc := c.isLt
  have hd := d.isLt
  have he := e.isLt
  have hf := f.isLt
  have h1 : wrap64 (seed * 31 + (a.val : Int)) = seed * 31 + (a.val : Int) :=
    wrap64_of_range _ (by omega) (by omega)
  have h2 : wrap64 ((seed * 31 + (a.val : Int)) * 31 + (b.val : Int)) =
      (seed * 31 + (a.val : Int)) * 31 + (b.val : Int) :=
    wrap64_of_range _ (by omega) (by omega)
  have h3 : wrap64 (((seed * 31 + (a.val : Int)) * 31 + (b.val : Int)) * 31 + (c.val : Int)) =
      ((seed * 31 + (a.val : Int)) * 31 + (b.val : Int)) * 31 + (c.val : Int) :=
    wrap64_of_range _ (by omega) (by omega)
  have h4 : wrap64 ((((seed * 31 + (a.val : Int)) * 31 + (b.val : Int)) * 31 + (c.val : Int))
        * 31 + (d.val : Int)) =
      (((seed * 31 + (a.val : Int)) * 31 + (b.val : Int)) * 31 + (c.val : Int)) * 31
        + (d.val : Int) :=
    wrap64_of_range _ (by omega) (by omega)
  have h5 : wrap64 (((((seed * 31 + (a.val : Int)) * 31 + (b.val : Int)) * 31 + (c.val : Int))
        * 31 + (d.val : Int)) * 31 + (e.val : Int)) =
      ((((seed * 31 + (a.val : Int)) * 31 + (b.val : Int)) * 31 + (c.val : Int)) * 31
        + (d.val : Int)) * 31 + (e.val : Int) :=
    wrap64_of_range _ (by omega) (by omega)
  have h6 : wrap64 ((((((seed * 31 + (a.val : Int)) * 31 + (b.val : Int)) * 31
        + (c.val : Int)) * 31 + (d.val : Int)) * 31 + (e.val : Int)) * 31 + (f.val : Int)) =
      (((((seed * 31 + (a.val : Int)) * 31 + (b.val : Int)) * 31 + (c.val : Int)) * 31
        + (d.val : Int)) * 31 + (e.val : Int)) * 31 + (f.val : Int) :=
    wrap64_of_range _ (by omega) (by omega)
  simp only [simpleHash, List.foldl, h1, h2, h3, h4, h5, h6]
  split <;> omega

theorem length_six {α : Type} (s : List α) (h : s.length = 6) :
    ∃ a b c d e f, s = [a, b, c, d, e, f] := by
  match s, h with
  | [a, b, c, d, e, f], _ => exact ⟨a, b, c, d, e, f, rfl⟩

theorem probe_in_range (item : GoString) (seed size : Int) (hsize : 0 < size)
    (h0 : 0 ≤ simpleHash item seed) :
    ∃ idx, goMod (simpleHash item seed) size = some idx ∧ 0 ≤ idx ∧ idx < size := by
  refine ⟨Int.tmod (simpleHash item seed) size, ?_, Int.tmod_nonneg _ h0,
    Int.tmod_lt_of_pos _ hsize⟩
  unfold goMod
  rw [if_neg (by omega)]

theorem sliceGet_of_range {α : Type} (s : List α) (i : Int) (h0 : 0 ≤ i)
    (h1 : i.toNat < s.length) : ∃ v, sliceGet s i = some v := by
  refine ⟨s[i.toNat], ?_⟩
  unfold sliceGet
  rw [if_neg (by omega)]
  exact List.getElem?_eq_getElem h1

theorem sliceSet_of_range {α : Type} (s : List α) (i : Int) (v : α) (h0 : 0 ≤ i)
    (h1 : i.toNat < s.length) : ∃ s1, sliceSet s i v = some s1 ∧ s1.length = s.length := by
  refine ⟨s.set i.toNat v, ?_, by simp⟩
  unfold sliceSet
  rw [if_neg (by omega)]

theorem BloomFilter_total (bf : BloomFilter) (code : GoString) (hsize : 0 < bf.size)
    (hbits : bf.bits.length = bf.size.toNat) (hcode : code.length = 6) :
    (∃ present, bf.Contains code = some present) ∧
    ∃ bf1, bf.Add code = some bf1 ∧ bf1.size = bf.size ∧ bf1.bits.length = bf.bits.length := by
  obtain ⟨a, b, c, d, e, f, rfl⟩ := length_six code hcode
  obtain ⟨i1, hi1, l1, u1⟩ := probe_in_range _ 0 bf.size hsize
    (simpleHash_six a b c d e f 0 (by decide) (by decide)).1
  obtain ⟨i2, hi2, l2, u2⟩ := probe_in_range _ 1 bf.size hsize
    (simpleHash_six a b c d e f 1 (by decide) (by decide)).1
  obtain ⟨i3, hi3, l3, u3⟩ := probe_in_range _ 2 bf.size hsize
    (simpleHash_six a b c d e f 2 (by decide) (by decide)).1
  constructor
  · obtain ⟨v1, hv1⟩ := sliceGet_of_range bf.bits i1 l1 (by omega)
    obtain ⟨v2, hv2⟩ := sliceGet_of_range bf.bits i2 l2 (by omega)
    obtain ⟨v3, hv3⟩ := sliceGet_of_range bf.bits i3 l3 (by omega)
    unfold BloomFilter.Contains
    simp only [hi1, hi2, hi3, hv1, hv2, hv3, Option.bind]
    cases v1 <;> cases v2 <;> simp
  · obtain ⟨s1, hs1, len1⟩ := sliceSet_of_range bf.bits i1 true l1 (by omega)
    obtain ⟨s2, hs2, len2⟩ := sliceSet_of_range s1 i2 true l2 (by omega)
    obtain ⟨s3, hs3, len3⟩ := sliceSet_of_range s2 i3 true l3 (by omega)
    refine ⟨{ bf with bits := s3 }, ?_, rfl, by simp [len1, len2, len3]⟩
    unfold BloomFilter.Add
    simp only [hi1, hi2, hi3, hs1, hs2, hs3, Option.bind]

theorem Generate_loop_total (rand : Nat → Fin 6 → Byte) (count maxAttempts : Int) (fuel : Nat) :
    ∀ st : GenerateState, 0 < st.g.bf.size → st.g.bf.bits.length = st.g.bf.size.toNat →
      (maxAttempts - st.attempts).toNat ≤ fuel → st.generated ≤ count →
      (st.urls.length : Int) = st.generated →
      ∃ st1, Generate.loop rand count maxAttempts fuel st = some st1 ∧
        0 < st1.g.bf.size ∧ st1.g.bf.bits.length = st1.g.bf.size.toNat ∧
        (st1.attempts ≤ st.attempts ∨ st1.attempts ≤ maxAttempts) ∧
        st1.generated ≤ count ∧ (st1.urls.length : Int) = st1.generated ∧
        (st1.generated < count → maxAttempts ≤ st1.attempts) ∧
        st.attempts ≤ st1.attempts := by
  induction fuel with
  | zero =>
    intro st hsize hbits hfuel hgen hlen
    refine ⟨st, ?_, hsize, hbits, Or.inl (le_refl _), hgen, hlen, fun _ => by omega,
      le_refl _⟩
    unfold Generate.loop
    rw [if_neg (by omega)]
  | succ fuel ih =>
    intro st hsize hbits hfuel hgen hlen
    unfold Generate.loop
    split
    · rename_i hcond
      obtain ⟨code, hcode, hlen6, -⟩ := generateOne_total (rand st.attempts.toNat)
      obtain ⟨⟨present, hp⟩, bf1, hadd, hs1, hb1⟩ :=
        BloomFilter_total st.g.bf code hsize hbits hlen6
      cases present with
      | true =>
        obtain ⟨st1, h1, h2, h3, h4, h5, h6, h7, h8⟩ := ih
          { st with attempts := st.attempts + 1 }
          hsize hbits (by show (maxAttempts - (st.attempts + 1)).toNat ≤ fuel; omega) hgen hlen
        have h9 : st.attempts + 1 ≤ st1.attempts := h8
        refine ⟨st1, ?_, h2, h3, ?_, h5, h6, h7, by omega⟩
        · simp only [hcode, hp, Option.bind, Bool.not_true]
          exact h1
        · right
          rcases h4 with h4 | h4
          · have : st1.attempts ≤ st.attempts + 1 := h4
            omega
          · exact h4
      | false =>
        obtain ⟨st1, h1, h2, h3, h4, h5, h6, h7, h8⟩ := ih
          { g := { bf := bf1 }, urls := st.urls ++ [code], generated := st.generated + 1,
            attempts := st.attempts + 1 }
          (by show 0 < bf1.size; omega) (by show bf1.bits.length = bf1.size.toNat; omega)
          (by show (maxAttempts - (st.attempts + 1)).toNat ≤ fuel; omega)
          (by show st.generated + 1 ≤ count; omega)
          (by show ((st.urls ++ [code]).length : Int) = st.generated + 1; simp; omega)
        have h9 : st.attempts + 1 ≤ st1.attempts := h8
        refine ⟨st1, ?_, h2, h3, ?_, h5, h6, h7, by omega⟩
        · simp only [hcode, hp, hadd, Option.bind, Bool.not_false, if_true]
          exact h1
        · right
          rcases h4 with h4 | h4
          · have : st1.attempts ≤ st.attempts + 1 := h4
            omega
          · exact h4
    · rename_i hcond
      exact ⟨st, rfl, hsize, hbits, Or.inl (le_refl _), hgen, hlen, fun h => by omega,
        le_refl _⟩

theorem canMake_spec (memory n size : Int) :
    canMake memory n size = true ↔ (0 ≤ n ∧ n * size ≤ maxAlloc ∧ n * size ≤ memory) := by
  unfold canMake
  exact decide_eq_true_iff

/-- C7 (as amended): on a generator whose filter has a positive size, for every count and
every stream of random bytes, `Generate` returns exactly when the slice
`make([]string, 0, count)` can be allocated: the count is not negative and its `16 * count`
bytes are within the limit of the runtime and the memory available; otherwise it panics.
When it returns, it has made at most `2 * count` synthesis attempts; its error is nil exactly
when it returns `count` identifiers; otherwise it returns the fewer-than-count identifiers
accepted so far together with the error, and this happens only once the `2 * count` attempts
are used up.  The generator it leaves behind is again of that kind. -/
theorem C7_generate_attempts_and_error (g : Generator) (memory : Int)
    (rand : Nat → Fin 6 → Byte) (count : Int) (hsize : 0 < g.bf.size)
    (hbits : g.bf.bits.length = g.bf.size.toNat) :
    (canMake memory count 16 = false → g.Generate memory rand count = none) ∧
    (canMake memory count 16 = true →
      ∃ st err, g.GenerateRun memory rand count = some st ∧
        g.Generate memory rand count = some (st.g, st.urls, err) ∧
        0 ≤ st.attempts ∧ st.attempts ≤ 2 * count ∧
        (err = none ↔ (st.urls.length : Int) = count) ∧
        (err ≠ none → (st.urls.length : Int) < count ∧
          err = some (.onlyGenerated (st.urls.length : Int) count) ∧
          2 * count ≤ st.attempts) ∧
        0 < st.g.bf.size ∧ st.g.bf.bits.length = st.g.bf.size.toNat ∧
        0 ≤ count ∧ count ≤ 17592186044416) := by
  constructor
  · intro hno
    unfold Generator.Generate Generator.GenerateRun
    rw [hno]
    rfl
  intro hmake
  obtain ⟨hcount, hlim, -⟩ := (canMake_spec memory count 16).1 hmake
  have hlim2 : count ≤ 17592186044416 := by
    unfold maxAlloc at hlim
    omega
  have hmax : wrap64 (count * 2) = 2 * count := by
    rw [wrap64_of_range _ (by omega) (by omega)]
    omega
  obtain ⟨st, h1, h2, h3, h4, h5, h6, h7, h8⟩ := Generate_loop_total rand count
    (wrap64 (count * 2)) (wrap64 (count * 2)).toNat
    { g := g, urls := [], generated := 0, attempts := 0 } hsize hbits
    (by show (wrap64 (count * 2) - 0).toNat ≤ _; simp) hcount rfl
  have h4a : st.attempts ≤ 0 ∨ st.attempts ≤ wrap64 (count * 2) := h4
  have h8a : (0 : Int) ≤ st.attempts := h8
  have hrun : g.GenerateRun memory rand count = some st := by
    unfold Generator.GenerateRun
    rw [if_pos hmake]
    exact h1
  by_cases hlt : st.generated < count
  · refine ⟨st, some (.onlyGenerated st.generated count), hrun, ?_, h8a, by omega, ?_, ?_,
      h2, h3, hcount, hlim2⟩
    · simp [Generator.Generate, hrun, hlt]
    · constructor
      · intro h; cases h
      · intro h; omega
    · intro _
      have := h7 hlt
      exact ⟨by omega, by rw [h6], by omega⟩
  · refine ⟨st, none, hrun, ?_, h8a, by omega, ?_, ?_, h2, h3, hcount, hlim2⟩
    · simp [Generator.Generate, hrun, hlt]
    · constructor
      · intro _; omega
      · intro _; rfl
    · intro h; exact absurd rfl h

/-- C7 (as amended) on a new generator with a filter of 50 bits, three identifiers requested,
memory for them and a source that delivers every block of random bytes twice: five attempts,
three identifiers, no error. -/
theorem C7_generate_attempts_and_error_witness :
    ∃ st err,
      Generator.GenerateRun { bf := { bits := List.replicate 50 false, size := 50 } } 1024
        (fun k i => Fin.ofNat (k / 2 * 6 + i.val)) 3 = some st ∧
      Generator.Generate { bf := { bits := List.replicate 50 false, size := 50 } } 1024
        (fun k i => Fin.ofNat (k / 2 * 6 + i.val)) 3 = some (st.g, st.urls, err) ∧
      0 ≤ st.attempts ∧ st.attempts ≤ 2 * 3 ∧
      (err = none ↔ (st.urls.length : Int) = 3) ∧
      (err ≠ none → (st.urls.length : Int) < 3 ∧
        err = some (.onlyGenerated (st.urls.length : Int) 3) ∧
        2 * 3 ≤ st.attempts) ∧
      0 < st.g.bf.size ∧ st.g.bf.bits.length = st.g.bf.size.toNat ∧
      (0 : Int) ≤ 3 ∧ (3 : Int) ≤ 17592186044416 :=
  (C7_generate_attempts_and_error { bf := { bits := List.replicate 50 false, size := 50 } } 1024
    (fun k i => Fin.ofNat (k / 2 * 6 + i.val)) 3 (by decide) (by decide)).2 (by decide)

/-- C7 fails as stated: on a generator whose filter has size 0, `Generate(1)` does not
return, whatever memory is available; the first probe `simpleHash(code, 0) % 0` panics.  And
on a generator whose filter has 50 bits, `Generate(1125899906842624)` does not return either:
`make([]string, 0, count)` panics, the slice being larger than the runtime allows. -/
theorem C7_counterexample :
    NewGenerator 0 = some { bf := { bits := [], size := 0 } } ∧
    Generator.Generate { bf := { bits := [], size := 0 } } maxAlloc (fun _ _ => 0) 1 = none ∧
    Generator.Generate { bf := { bits := List.replicate 50 false, size := 50 } } maxAlloc
      (fun _ _ => 0) 1125899906842624 = none := by
  decide

/-! ### The batch loader -/

theorem readURLs_loop_eq (buffer : List Byte) (n : Nat) (fuel : Nat) :
    ∀ (i : Nat) (urls : List GoString), (n - i) / 6 ≤ fuel →
      readURLsFromFile.loop buffer n fuel i urls =
        urls ++ (List.range ((n - i) / 6)).map fun k => (buffer.drop (i + 6 * k)).take 6 := by
  induction fuel with
  | zero =>
    intro i urls h
    have h0 : (n - i) / 6 = 0 := by omega
    simp [readURLsFromFile.loop, h0]
  | succ fuel ih =>
    intro i urls h
    unfold readURLsFromFile.loop
    split
    · rename_i hle
      have hdiv : (n - i) / 6 = (n - (i + 6)) / 6 + 1 := by omega
      rw [ih (i + 6) _ (by omega), hdiv, List.range_succ_eq_map, List.map_cons, List.map_map,
        List.append_assoc]
      congr 1
      simp only [List.singleton_append, Nat.mul_zero, Nat.add_zero, List.cons.injEq, true_and]
      apply List.map_congr_left
      intro k _
      simp only [Function.comp, Nat.succ_eq_add_one]
      congr 2
      omega
    · rename_i hle
      have h0 : (n - i) / 6 = 0 := by omega
      simp [h0]

theorem chunk_of_append (data rest : List Byte) (k : Nat) (h : 6 * k + 6 ≤ data.length) :
    ((data ++ rest).drop (6 * k)).take 6 = (data.drop (6 * k)).take 6 := by
  rw [List.drop_append_of_le_length (by omega), List.take_append_of_le_length]
  rw [List.length_drop]
  omega

theorem readURLs_loop_wholeRecords (data rest : List Byte) :
    readURLsFromFile.loop (data ++ rest) data.length data.length 0 [] = wholeRecords data := by
  rw [readURLs_loop_eq _ _ _ 0 [] (by omega)]
  simp only [List.nil_append, Nat.sub_zero, Nat.zero_add, wholeRecords]
  apply List.map_congr_left
  intro k hk
  have hk2 : k < data.length / 6 := List.mem_range.1 hk
  exact chunk_of_append data rest k (by omega)

/-- The bytes a read of `count` records at `offset` delivers, when the buffer can be
allocated. -/
theorem readURLsFromFile_eq (f : FileLoader) (offset count : Int)
    (hB : canMake f.memory (wrap64 (count * urlLength)) 1 = true) :
    readURLsFromFile f offset count =
      if 0 < wrap64 (count * urlLength) ∧
          ((f.urlFile.drop (seekStart f.maxOffset offset)).take
            (min (wrap64 (count * urlLength)).toNat f.maxRead)).length = 0
      then Outcome.err FileError.EOF
      else Outcome.ok
        (wholeRecords ((f.urlFile.drop (seekStart f.maxOffset offset)).take
            (min (wrap64 (count * urlLength)).toNat f.maxRead)),
          (((f.urlFile.drop (seekStart f.maxOffset offset)).take
            (min (wrap64 (count * urlLength)).toNat f.maxRead)).length : Int)) := by
  have h0 : 0 ≤ wrap64 (count * urlLength) := ((canMake_spec _ _ _).1 hB).1
  unfold readURLsFromFile
  simp only
  rw [if_pos hB]
  unfold fileRead
  simp only [List.length_replicate]
  by_cases hz : (wrap64 (count * urlLength)).toNat = 0
  · have hz2 : ¬ 0 < wrap64 (count * urlLength) := by omega
    simp [hz, hz2, readURLsFromFile.loop, wholeRecords]
  · rw [if_neg hz]
    by_cases hd : ((f.urlFile.drop (seekStart f.maxOffset offset)).take
        (min (wrap64 (count * urlLength)).toNat f.maxRead)).length = 0
    · have hz2 : 0 < wrap64 (count * urlLength) := by omega
      simp only [hd, if_true]
      simp [hz2]
    · simp only [hd, if_false]
      rw [if_neg (by simp), if_neg (by simp [hd]), readURLs_loop_wholeRecords]

/-- A read whose buffer cannot be allocated does not return. -/
theorem readURLsFromFile_panic (f : FileLoader) (offset count : Int)
    (hB : canMake f.memory (wrap64 (count * urlLength)) 1 = false) :
    readURLsFromFile f offset count = Outcome.panic := by
  unfold readURLsFromFile
  simp only
  rw [hB]
  rfl

theorem readOffset_lower (file : Option Int) : -9223372036854775808 ≤ readOffset file := by
  unfold readOffset
  split
  · omega
  · split <;> omega

theorem readOffset_upper (file : Option Int) : readOffset file < 9223372036854775808 := by
  unfold readOffset
  split
  · omega
  · split <;> omega

theorem readOffset_wrap64 (x : Int) : readOffset (some (wrap64 x)) = wrap64 x := by
  unfold readOffset
  simp only
  rw [if_pos ⟨wrap64_lower x, wrap64_upper x⟩]

theorem wholeRecords_length (bytes : List Byte) :
    (wholeRecords bytes).length = bytes.length / 6 := by
  simp [wholeRecords]

theorem wholeRecords_record_length (bytes : List Byte) :
    ∀ u ∈ wholeRecords bytes, u.length = 6 := by
  intro u hu
  obtain ⟨k, hk, rfl⟩ := List.mem_map.1 hu
  have hk2 : k < bytes.length / 6 := List.mem_range.1 hk
  rw [List.length_take, List.length_drop]
  omega

/-- A successful `LoadBatch` in terms of the bytes read: the buffer was allocated, the
records are the whole records of the bytes read and the offset written is the 64-bit sum of
the old offset and their number. -/
theorem LoadBatch_ok (f f1 : FileLoader) (count : Int) (urls : List GoString)
    (h : f.LoadBatch count = Outcome.ok (urls, f1)) :
    canMake f.memory (wrap64 (count * urlLength)) 1 = true ∧
    urls = wholeRecords ((f.urlFile.drop (seekStart f.maxOffset (readOffset f.offsetFile))).take
      (min (wrap64 (count * urlLength)).toNat f.maxRead)) ∧
    readURLsFromFile f (readOffset f.offsetFile) count = Outcome.ok (urls,
      (((f.urlFile.drop (seekStart f.maxOffset (readOffset f.offsetFile))).take
        (min (wrap64 (count * urlLength)).toNat f.maxRead)).length : Int)) ∧
    f1 = { f with offsetFile := some (wrap64 (readOffset f.offsetFile +
             (((f.urlFile.drop (seekStart f.maxOffset (readOffset f.offsetFile))).take
               (min (wrap64 (count * urlLength)).toNat f.maxRead)).length : Int))) } := by
  cases hB : canMake f.memory (wrap64 (count * urlLength)) 1 with
  | true =>
    unfold FileLoader.LoadBatch at h
    simp only at h
    rw [readURLsFromFile_eq _ _ _ hB] at h ⊢
    by_cases hc : 0 < wrap64 (count * urlLength) ∧
        ((f.urlFile.drop (seekStart f.maxOffset (readOffset f.offsetFile))).take
          (min (wrap64 (count * urlLength)).toNat f.maxRead)).length = 0
    · rw [if_pos hc] at h
      cases h
    · rw [if_neg hc] at h ⊢
      simp only [Outcome.ok.injEq, Prod.mk.injEq, writeOffset] at h
      exact ⟨rfl, h.1.symm, by rw [h.1], h.2.symm⟩
  | false =>
    exfalso
    unfold FileLoader.LoadBatch at h
    simp only at h
    rw [readURLsFromFile_panic _ _ _ hB] at h
    cases h

/-- A `LoadBatch` whose buffer cannot be allocated does not return. -/
theorem LoadBatch_panic (f : FileLoader) (count : Int)
    (hB : canMake f.memory (wrap64 (count * urlLength)) 1 = false) :
    f.LoadBatch count = Outcome.panic := by
  unfold FileLoader.LoadBatch
  simp only
  rw [readURLsFromFile_panic _ _ _ hB]

/-- A successful `LoadBatch` from a cursor in the file: the read starts at the cursor, and
the cursor advances by the number of bytes read, which is the least of the size of the
buffer, the limit of one read and the number of bytes behind the cursor. -/
theorem LoadBatch_inside (f f1 : FileLoader) (count : Int) (urls : List GoString)
    (h : f.LoadBatch count = Outcome.ok (urls, f1))
    (hc0 : 0 ≤ readOffset f.offsetFile)
    (hc1 : readOffset f.offsetFile ≤ (f.urlFile.length : Int)) :
    f1.urlFile = f.urlFile ∧ f1.maxRead = f.maxRead ∧
    0 ≤ wrap64 (count * urlLength) ∧
    urls = wholeRecords ((f.urlFile.drop (readOffset f.offsetFile).toNat).take
      (min (wrap64 (count * urlLength)).toNat f.maxRead)) ∧
    readOffset f1.offsetFile = readOffset f.offsetFile +
      ((min (min (wrap64 (count * urlLength)).toNat f.maxRead)
        (f.urlFile.length - (readOffset f.offsetFile).toNat) : Nat) : Int) := by
  obtain ⟨hm, hu, -, hf⟩ := LoadBatch_ok f f1 count urls h
  have hsz := f.size_le
  have hmo := f.maxOffset_lt
  have hseek : seekStart f.maxOffset (readOffset f.offsetFile) =
      (readOffset f.offsetFile).toNat := by
    unfold seekStart
    rw [if_neg (by omega)]
  rw [hseek] at hu hf
  have hlen : ((f.urlFile.drop (readOffset f.offsetFile).toNat).take
      (min (wrap64 (count * urlLength)).toNat f.maxRead)).length =
      min (min (wrap64 (count * urlLength)).toNat f.maxRead)
        (f.urlFile.length - (readOffset f.offsetFile).toNat) := by
    rw [List.length_take, List.length_drop]
  rw [hlen] at hf
  refine ⟨by rw [hf], by rw [hf], ((canMake_spec _ _ _).1 hm).1, hu, ?_⟩
  rw [hf]
  show readOffset (some (wrap64 _)) = _
  rw [readOffset_wrap64, wrap64_of_range _ (by omega) (by omega)]

/-- C3 (as amended): for every pool file, every cursor and every count, a successful
`LoadBatch` writes the 64-bit sum of the old cursor and the number of bytes read, which is
their sum unless that leaves the 64-bit range; that number is at least 6 times the number of
records returned and exceeds it by less than 6 (the bytes of a dropped trailing fragment are
counted), so the cursor written is the old cursor advanced by exactly 6 times the number of
records if and only if the number of bytes read is a multiple of 6. -/
theorem C3_cursor_advances_by_bytes_read (f f1 : FileLoader) (count : Int)
    (urls : List GoString) (h : f.LoadBatch count = Outcome.ok (urls, f1)) :
    ∃ bytesRead : Int,
      readURLsFromFile f (readOffset f.offsetFile) count = Outcome.ok (urls, bytesRead) ∧
      readOffset f1.offsetFile = wrap64 (readOffset f.offsetFile + bytesRead) ∧
      (readOffset f.offsetFile + bytesRead < 9223372036854775808 →
        readOffset f1.offsetFile = readOffset f.offsetFile + bytesRead) ∧
      6 * (urls.length : Int) ≤ bytesRead ∧ bytesRead < 6 * (urls.length : Int) + 6 ∧
      (readOffset f1.offsetFile = wrap64 (readOffset f.offsetFile + 6 * (urls.length : Int)) ↔
        bytesRead % 6 = 0) ∧
      (readOffset f.offsetFile + bytesRead < 9223372036854775808 →
        (readOffset f1.offsetFile = readOffset f.offsetFile + 6 * (urls.length : Int) ↔
          bytesRead % 6 = 0)) ∧
      f1.urlFile = f.urlFile := by
  obtain ⟨-, hu, hr, hf⟩ := LoadBatch_ok f f1 count urls h
  have hlo := readOffset_lower f.offsetFile
  have hup := readOffset_upper f.offsetFile
  have hnew : readOffset f1.offsetFile = wrap64 (readOffset f.offsetFile +
      (((f.urlFile.drop (seekStart f.maxOffset (readOffset f.offsetFile))).take
        (min (wrap64 (count * urlLength)).toNat f.maxRead)).length : Int)) := by
    rw [hf]
    exact readOffset_wrap64 _
  have hlen : urls.length = ((f.urlFile.drop (seekStart f.maxOffset
      (readOffset f.offsetFile))).take
        (min (wrap64 (count * urlLength)).toNat f.maxRead)).length / 6 := by
    rw [hu, wholeRecords_length]
  generalize ((f.urlFile.drop (seekStart f.maxOffset (readOffset f.offsetFile))).take
        (min (wrap64 (count * urlLength)).toNat f.maxRead)).length = n at hr hnew hlen
  refine ⟨_, hr, hnew, ?_, by omega, by omega, ?_, ?_, by rw [hf]⟩
  · intro hs
    rw [hnew, wrap64_of_range _ (by omega) (by omega)]
  · rw [hnew]
    unfold wrap64
    omega
  · intro hs
    rw [hnew, wrap64_of_range _ (by omega) (by omega)]
    omega

/-- C3 (as amended) on a pool file of 8 bytes read from cursor 0 with count 2. -/
theorem C3_cursor_advances_by_bytes_read_witness :
    ∃ bytesRead : Int,
      readURLsFromFile { urlFile := [65, 66, 67, 68, 69, 70, 71, 72], offsetFile := some 0 }
        (readOffset (some 0)) 2 = Outcome.ok ([[65, 66, 67, 68, 69, 70]], bytesRead) ∧
      readOffset (some (8 : Int)) = wrap64 (readOffset (some 0) + bytesRead) ∧
      (readOffset (some 0) + bytesRead < 9223372036854775808 →
        readOffset (some (8 : Int)) = readOffset (some 0) + bytesRead) ∧
      6 * (([[65, 66, 67, 68, 69, 70]] : List GoString).length : Int) ≤ bytesRead ∧
      bytesRead < 6 * (([[65, 66, 67, 68, 69, 70]] : List GoString).length : Int) + 6 ∧
      (readOffset (some (8 : Int)) = wrap64 (readOffset (some 0) +
          6 * (([[65, 66, 67, 68, 69, 70]] : List GoString).length : Int)) ↔
        bytesRead % 6 = 0) ∧
      (readOffset (some 0) + bytesRead < 9223372036854775808 →
        (readOffset (some (8 : Int)) =
            readOffset (some 0) + 6 * (([[65, 66, 67, 68, 69, 70]] : List GoString).length : Int) ↔
          bytesRead % 6 = 0)) ∧
      ([65, 66, 67, 68, 69, 70, 71, 72] : List Byte) = [65, 66, 67, 68, 69, 70, 71, 72] :=
  C3_cursor_advances_by_bytes_read
    { urlFile := [65, 66, 67, 68, 69, 70, 71, 72], offsetFile := some 0 }
    { urlFile := [65, 66, 67, 68, 69, 70, 71, 72], offsetFile := some 8 } 2
    [[65, 66, 67, 68, 69, 70]] (by decide)

/-- C3 fails as stated: on a pool file of 8 bytes, `LoadBatch(2)` from cursor 0 returns one
record and succeeds, yet writes cursor 8, not 0 + 6 * 1.  And from the cursor
9223372036854775807, which `Seek` rejects so that the read starts at byte 0, `LoadBatch(1)`
returns one record and writes the wrapped sum -9223372036854775803. -/
theorem C3_counterexample :
    FileLoader.LoadBatch { urlFile := [65, 66, 67, 68, 69, 70, 71, 72], offsetFile := some 0 } 2
      = Outcome.ok ([[65, 66, 67, 68, 69, 70]],
          { urlFile := [65, 66, 67, 68, 69, 70, 71, 72], offsetFile := some 8 }) ∧
    readOffset (some (8 : Int)) ≠
      readOffset (some 0) + 6 * (([[65, 66, 67, 68, 69, 70]] : List GoString).length : Int) ∧
    FileLoader.LoadBatch
      { urlFile := [65, 66, 67, 68, 69, 70, 71, 72], offsetFile := some 9223372036854775807 } 1
      = Outcome.ok ([[65, 66, 67, 68, 69, 70]],
          { urlFile := [65, 66, 67, 68, 69, 70, 71, 72],
            offsetFile := some (-9223372036854775803) }) ∧
    readOffset (some (-9223372036854775803 : Int)) ≠
      readOffset (some 9223372036854775807) +
        6 * (([[65, 66, 67, 68, 69, 70]] : List GoString).length : Int) := by
  decide

theorem loadBatches_cons (f : FileLoader) (count : Int) (rest : List Int)
    (rs : List (Int × Int)) (f1 : FileLoader)
    (h : loadBatches f (count :: rest) = some (rs, f1)) :
    ∃ urls f2 rs2, f.LoadBatch count = Outcome.ok (urls, f2) ∧
      loadBatches f2 rest = some (rs2, f1) ∧
      rs = (readOffset f.offsetFile, readOffset f2.offsetFile) :: rs2 := by
  unfold loadBatches at h
  cases hL : f.LoadBatch count with
  | panic => simp [hL] at h
  | err e => simp [hL] at h
  | ok r =>
    obtain ⟨urls, f2⟩ := r
    simp only [hL] at h
    cases hR : loadBatches f2 rest with
    | none => simp [hR] at h
    | some r2 =>
      obtain ⟨rs2, f3⟩ := r2
      simp only [hR, Option.map, Option.some.injEq, Prod.mk.injEq] at h
      exact ⟨urls, f2, rs2, rfl, by rw [← h.2]; exact hR, h.1.symm⟩

theorem loadBatches_spec (counts : List Int) :
    ∀ (f f1 : FileLoader) (rs : List (Int × Int)), loadBatches f counts = some (rs, f1) →
      0 ≤ readOffset f.offsetFile → readOffset f.offsetFile ≤ (f.urlFile.length : Int) →
      readOffset f.offsetFile ≤ readOffset f1.offsetFile ∧
      (∀ r ∈ rs, readOffset f.offsetFile ≤ r.1 ∧ r.1 ≤ r.2 ∧ r.2 ≤ readOffset f1.offsetFile) ∧
      rs.Pairwise (fun r s => r.2 ≤ s.1) ∧
      rs.Chain' (fun r s => r.2 = s.1) ∧
      (∀ r, rs.head? = some r → r.1 = readOffset f.offsetFile) ∧
      (∀ r, rs.getLast? = some r → r.2 = readOffset f1.offsetFile) ∧
      (rs = [] → readOffset f1.offsetFile = readOffset f.offsetFile) ∧
      (∀ p, readOffset f.offsetFile ≤ p → p < readOffset f1.offsetFile →
        ∃ r ∈ rs, r.1 ≤ p ∧ p < r.2) := by
  induction counts with
  | nil =>
    intro f f1 rs h _ _
    simp only [loadBatches, Option.some.injEq, Prod.mk.injEq] at h
    obtain ⟨rfl, rfl⟩ := h
    refine ⟨le_refl _, (fun r hr => by cases hr), List.Pairwise.nil, List.chain'_nil,
      (fun r hr => by cases hr), (fun r hr => by cases hr), (fun _ => rfl),
      (fun p h1 h2 => by omega)⟩
  | cons count rest ih =>
    intro f f1 rs h hc0 hc1
    obtain ⟨urls, f2, rs2, hL, hR, rfl⟩ := loadBatches_cons f count rest rs f1 h
    obtain ⟨e1, -, -, -, e5⟩ := LoadBatch_inside f f2 count urls hL hc0 hc1
    have hle : readOffset f.offsetFile ≤ readOffset f2.offsetFile := by omega
    obtain ⟨i1, i2, i3, i4, i5, i6, i7, i8⟩ := ih f2 f1 rs2 hR (by omega)
      (by rw [e1]; omega)
    refine ⟨by omega, ?_, ?_, ?_, ?_, ?_, ?_, ?_⟩
    · intro r hr
      rcases List.mem_cons.1 hr with rfl | hr
      · exact ⟨le_refl _, hle, i1⟩
      · obtain ⟨a, b, c⟩ := i2 r hr
        exact ⟨by omega, b, c⟩
    · exact List.Pairwise.cons (fun s hs => (i2 s hs).1) i3
    · cases rs2 with
      | nil => exact List.chain'_singleton _
      | cons s rs3 =>
        rw [List.chain'_cons]
        exact ⟨(i5 s rfl).symm, i4⟩
    · intro r hr
      simp only [List.head?_cons, Option.some.injEq] at hr
      rw [← hr]
    · intro r hr
      cases rs2 with
      | nil =>
        simp only [List.getLast?_singleton, Option.some.injEq] at hr
        rw [← hr]
        exact (i7 rfl).symm
      | cons s rs3 =>
        rw [List.getLast?_cons_cons] at hr
        exact i6 r hr
    · intro hnil
      cases hnil
    · intro p h1 h2
      by_cases hp : p < readOffset f2.offsetFile
      · exact ⟨_, List.mem_cons_self _ _, h1, hp⟩
      · obtain ⟨r, hr, a, b⟩ := i8 p (by omega) h2
        exact ⟨r, List.mem_cons_of_mem _ hr, a, b⟩

/-- C4: in every sequence of successful `LoadBatch` calls that starts from cursor 0, no call
decreases the cursor; the byte ranges `[offset read, offset written)` of the calls are
pairwise disjoint (each ends where or before every later one starts) and contiguous (each
starts where the previous one ended, the first at 0, the last ending at the final cursor);
and a byte position lies in one of them exactly when it lies in `[0, final cursor)`. -/
theorem C4_cursor_ranges_partition (f f1 : FileLoader) (counts : List Int)
    (rs : List (Int × Int)) (h0 : readOffset f.offsetFile = 0)
    (h : loadBatches f counts = some (rs, f1)) :
    (∀ r ∈ rs, r.1 ≤ r.2) ∧
    rs.Pairwise (fun r s => r.2 ≤ s.1) ∧
    rs.Chain' (fun r s => r.2 = s.1) ∧
    (∀ r, rs.head? = some r → r.1 = 0) ∧
    (∀ r, rs.getLast? = some r → r.2 = readOffset f1.offsetFile) ∧
    (∀ p : Int, (∃ r ∈ rs, r.1 ≤ p ∧ p < r.2) ↔ (0 ≤ p ∧ p < readOffset f1.offsetFile)) := by
  obtain ⟨-, i2, i3, i4, i5, i6, -, i8⟩ := loadBatches_spec counts f f1 rs h (by omega)
    (by omega)
  rw [h0] at i2 i5 i8
  refine ⟨fun r hr => (i2 r hr).2.1, i3, i4, i5, i6, fun p => ⟨?_, fun hp => i8 p hp.1 hp.2⟩⟩
  rintro ⟨r, hr, a, b⟩
  obtain ⟨c, d, e⟩ := i2 r hr
  exact ⟨by omega, by omega⟩

/-- C4 on a pool file of 14 bytes and three `LoadBatch(1)` calls. -/
theorem C4_cursor_ranges_partition_witness :
    (∀ r ∈ ([(0, 6), (6, 12), (12, 14)] : List (Int × Int)), r.1 ≤ r.2) ∧
    ([(0, 6), (6, 12), (12, 14)] : List (Int × Int)).Pairwise (fun r s => r.2 ≤ s.1) ∧
    ([(0, 6), (6, 12), (12, 14)] : List (Int × Int)).Chain' (fun r s => r.2 = s.1) ∧
    (∀ r, ([(0, 6), (6, 12), (12, 14)] : List (Int × Int)).head? = some r → r.1 = 0) ∧
    (∀ r, ([(0, 6), (6, 12), (12, 14)] : List (Int × Int)).getLast? = some r →
      r.2 = readOffset (some 14)) ∧
    (∀ p : Int, (∃ r ∈ ([(0, 6), (6, 12), (12, 14)] : List (Int × Int)), r.1 ≤ p ∧ p < r.2) ↔
      (0 ≤ p ∧ p < readOffset (some 14))) :=
  C4_cursor_ranges_partition
    { urlFile := [65, 66, 67, 68, 69, 70, 71, 72, 73, 74, 75, 76, 77, 78], offsetFile := none }
    { urlFile := [65, 66, 67, 68, 69, 70, 71, 72, 73, 74, 75, 76, 77, 78],
      offsetFile := some 14 }
    [1, 1, 1] [(0, 6), (6, 12), (12, 14)] (by decide) (by decide)

theorem take_min_length {α : Type} (l : List α) (a : Nat) :
    l.take (min a l.length) = l.take a := by
  rw [List.take_eq_take]
  omega

theorem chunk_of_slice (file : List Byte) (c m k : Nat) (h : 6 * k + 6 ≤ m) :
    (((file.drop c).take m).drop (6 * k)).take 6 = (file.drop (c + 6 * k)).take 6 := by
  rw [List.drop_take, List.take_take, List.drop_drop]
  congr 1
  omega

/-- The whole records of a slice of the file, read off the file itself. -/
theorem wholeRecords_slice (file : List Byte) (c m : Nat) :
    wholeRecords ((file.drop c).take m) =
      (List.range (min m (file.length - c) / 6)).map fun k => (file.drop (c + 6 * k)).take 6 := by
  unfold wholeRecords
  rw [List.length_take, List.length_drop]
  apply List.map_congr_left
  intro k hk
  have hk2 : k < min m (file.length - c) / 6 := List.mem_range.1 hk
  exact chunk_of_slice file c m k (by omega)

/-- C2 (as amended): for every pool file, every cursor inside the file and every count
`>= 1` whose buffer of `6 * count` bytes can be allocated, `LoadBatch(count)` succeeds and
returns, in file order, exactly the whole 6-byte records of the slice `file[cursor, cursor +
min(6*count, R, bytes remaining))`, where `R` is the largest number of bytes one `Read`
transfers; record `k` is the bytes `cursor + 6k, ..., cursor + 6k + 5` of the file, every
returned record has 6 bytes, so a trailing fragment is never returned, and the cursor
advances to the end of the slice.  When `min(6*count, bytes remaining)` is at most `R` the
slice is `file[cursor, cursor + min(6*count, bytes remaining))`.  When `6 * count` is below
`2^63` and the buffer cannot be allocated, the call does not return.  On the file of 12
records, three successive `LoadBatch(5)` calls from cursor 0 return records 1-5, 6-10 and the
remaining 2, and leave the cursor at 30, 60 and 72. -/
theorem C2_loadBatch_whole_records :
    (∀ (f : FileLoader) (count : Int),
      0 ≤ readOffset f.offsetFile → readOffset f.offsetFile < (f.urlFile.length : Int) →
      1 ≤ count → canMake f.memory (6 * count) 1 = true →
      f.LoadBatch count = Outcome.ok
        (wholeRecords ((f.urlFile.drop (readOffset f.offsetFile).toNat).take
            (min (min (6 * count).toNat f.maxRead)
              (f.urlFile.length - (readOffset f.offsetFile).toNat))),
          { f with
            offsetFile := some (readOffset f.offsetFile +
              min (min (6 * count) (f.maxRead : Int))
                ((f.urlFile.length : Int) - readOffset f.offsetFile)) }) ∧
      wholeRecords ((f.urlFile.drop (readOffset f.offsetFile).toNat).take
          (min (min (6 * count).toNat f.maxRead)
            (f.urlFile.length - (readOffset f.offsetFile).toNat))) =
        (List.range
          (min (min (6 * count).toNat f.maxRead)
            (f.urlFile.length - (readOffset f.offsetFile).toNat) / 6)).map
          (fun k => (f.urlFile.drop ((readOffset f.offsetFile).toNat + 6 * k)).take 6) ∧
      (∀ u ∈ wholeRecords ((f.urlFile.drop (readOffset f.offsetFile).toNat).take
          (min (min (6 * count).toNat f.maxRead)
            (f.urlFile.length - (readOffset f.offsetFile).toNat))),
        u.length = 6) ∧
      (min (6 * count) ((f.urlFile.length : Int) - readOffset f.offsetFile) ≤ (f.maxRead : Int) →
        min (min (6 * count).toNat f.maxRead)
            (f.urlFile.length - (readOffset f.offsetFile).toNat) =
          min (6 * count).toNat (f.urlFile.length - (readOffset f.offsetFile).toNat) ∧
        min (min (6 * count) (f.maxRead : Int))
            ((f.urlFile.length : Int) - readOffset f.offsetFile) =
          min (6 * count) ((f.urlFile.length : Int) - readOffset f.offsetFile))) ∧
    (∀ (f : FileLoader) (count : Int), 1 ≤ count → 6 * count < 9223372036854775808 →
      canMake f.memory (6 * count) 1 = false → f.LoadBatch count = Outcome.panic) ∧
    (wholeRecords scenarioFile).length = 12 ∧
    FileLoader.LoadBatch { urlFile := scenarioFile, offsetFile := some 0 } 5 =
      Outcome.ok ((wholeRecords scenarioFile).take 5,
        { urlFile := scenarioFile, offsetFile := some 30 }) ∧
    FileLoader.LoadBatch { urlFile := scenarioFile, offsetFile := some 30 } 5 =
      Outcome.ok (((wholeRecords scenarioFile).drop 5).take 5,
        { urlFile := scenarioFile, offsetFile := some 60 }) ∧
    FileLoader.LoadBatch { urlFile := scenarioFile, offsetFile := some 60 } 5 =
      Outcome.ok ((wholeRecords scenarioFile).drop 10,
        { urlFile := scenarioFile, offsetFile := some 72 }) ∧
    ((wholeRecords scenarioFile).drop 10).length = 2 := by
  refine ⟨?_, ?_, by decide, by decide, by decide, by decide, by decide⟩
  · intro f count hc0 hc1 hcount hmake
    obtain ⟨-, hlim, -⟩ := (canMake_spec _ _ _).1 hmake
    have hw : wrap64 (count * urlLength) = 6 * count := by
      unfold urlLength
      unfold maxAlloc at hlim
      rw [wrap64_of_range _ (by omega) (by omega)]
      omega
    have hsz := f.size_le
    have hmo := f.maxOffset_lt
    have hmr := f.maxRead_pos
    have hseek : seekStart f.maxOffset (readOffset f.offsetFile) =
        (readOffset f.offsetFile).toNat := by
      unfold seekStart
      rw [if_neg (by omega)]
    have hslice : (f.urlFile.drop (readOffset f.offsetFile).toNat).take
        (min (min (6 * count).toNat f.maxRead)
          (f.urlFile.length - (readOffset f.offsetFile).toNat)) =
        (f.urlFile.drop (readOffset f.offsetFile).toNat).take
          (min (6 * count).toNat f.maxRead) := by
      rw [← List.length_drop]
      exact take_min_length _ _
    refine ⟨?_, ?_, wholeRecords_record_length _, fun hle => ⟨by omega, by omega⟩⟩
    · unfold FileLoader.LoadBatch
      simp only
      rw [readURLsFromFile_eq _ _ _ (by rw [hw]; exact hmake), hw, hseek, hslice]
      rw [if_neg (by
        rw [List.length_take, List.length_drop]
        omega)]
      simp only [writeOffset]
      rw [List.length_take, List.length_drop, wrap64_of_range _ (by omega) (by omega)]
      congr 4
      omega
    · rw [hslice, wholeRecords_slice]
  · intro f count hcount hov hmake
    have hw : wrap64 (count * urlLength) = 6 * count := by
      unfold urlLength
      rw [wrap64_of_range _ (by omega) (by omega)]
      omega
    exact LoadBatch_panic f count (by rw [hw]; exact hmake)

/-- C2 (as amended) on a pool file of 8 bytes read from cursor 0 with count 2. -/
theorem C2_loadBatch_whole_records_witness :
    FileLoader.LoadBatch { urlFile := [65, 66, 67, 68, 69, 70, 71, 72], offsetFile := some 0 } 2 =
      Outcome.ok
        (wholeRecords ((([65, 66, 67, 68, 69, 70, 71, 72] : List Byte).drop
            (readOffset (some 0)).toNat).take
            (min (min (6 * (2 : Int)).toNat 1073741824)
              (([65, 66, 67, 68, 69, 70, 71, 72] : List Byte).length
                - (readOffset (some 0)).toNat))),
          { urlFile := [65, 66, 67, 68, 69, 70, 71, 72],
            offsetFile := some (readOffset (some 0) +
              min (min (6 * (2 : Int)) ((1073741824 : Nat) : Int))
                ((([65, 66, 67, 68, 69, 70, 71, 72] : List Byte).length : Int)
                  - readOffset (some 0))) }) :=
  (C2_loadBatch_whole_records.1
    { urlFile := [65, 66, 67, 68, 69, 70, 71, 72], offsetFile := some 0 } 2
    (by decide) (by decide) (by decide) (by decide)).1

/-- C2 fails as stated: for the count 3074457345618258603 the product `count * 6` wraps
around to 2, so `LoadBatch` on a pool file of 8 bytes at cursor 0 reads two bytes and returns
no record, although the slice `file[0, 0 + min(6*count, 8))` holds the whole record
"ABCDEF".  And for the count 1537228672809129301, whose 6-fold 9223372036854775806 does not
wrap around, the buffer cannot be allocated and the call panics. -/
theorem C2_counterexample :
    FileLoader.LoadBatch { urlFile := [65, 66, 67, 68, 69, 70, 71, 72], offsetFile := some 0 }
        3074457345618258603 =
      Outcome.ok ([], { urlFile := [65, 66, 67, 68, 69, 70, 71, 72], offsetFile := some 2 }) ∧
    wholeRecords ((([65, 66, 67, 68, 69, 70, 71, 72] : List Byte).drop 0).take
        (min (6 * (3074457345618258603 : Int)).toNat
          (([65, 66, 67, 68, 69, 70, 71, 72] : List Byte).length - 0))) =
      [[65, 66, 67, 68, 69, 70]] ∧
    wrap64 (1537228672809129301 * urlLength) = 9223372036854775806 ∧
    FileLoader.LoadBatch { urlFile := [65, 66, 67, 68, 69, 70, 71, 72], offsetFile := some 0 }
        1537228672809129301 = Outcome.panic := by
  decide

/-- The records of the file up to an aligned position, extended by the whole records of
the slice that starts there. -/
theorem wholeRecords_take_add (file : List Byte) (a n : Nat) (h : 6 * a + n ≤ file.length) :
    (wholeRecords file).take (a + n / 6) =
      (wholeRecords file).take a ++ wholeRecords ((file.drop (6 * a)).take n) := by
  rw [wholeRecords_slice]
  unfold wholeRecords
  rw [← List.map_take, ← List.map_take, List.take_range, List.take_range]
  have h1 : min (a + n / 6) (file.length / 6) = a + n / 6 := by omega
  have h2 : min a (file.length / 6) = a := by omega
  have h3 : min n (file.length - 6 * a) = n := by omega
  rw [h1, h2, h3, List.range_add, List.map_append, List.map_map]
  congr 1
  apply List.map_congr_left
  intro k _
  simp only [Function.comp]
  congr 2
  omega

/-- A successful `LoadBatch` from a cursor that is a multiple of 6 or the end of the file,
with a count whose 6-fold does not overflow and is delivered by one read (it is within the
limit of a read, or the file is): the cursor is again of that kind, and the records returned
are the records of the file between the old and the new cursor. -/
theorem LoadBatch_aligned (f f1 : FileLoader) (B : Int) (urls : List GoString)
    (hB1 : -9223372036854775808 ≤ B * 6) (hB2 : B * 6 < 9223372036854775808)
    (hR : B * 6 ≤ (f.maxRead : Int) ∨ f.urlFile.length ≤ f.maxRead)
    (h : f.LoadBatch B = Outcome.ok (urls, f1))
    (hc0 : 0 ≤ readOffset f.offsetFile)
    (hc1 : readOffset f.offsetFile ≤ (f.urlFile.length : Int))
    (hc2 : readOffset f.offsetFile % 6 = 0 ∨ readOffset f.offsetFile = (f.urlFile.length : Int)) :
    f1.urlFile = f.urlFile ∧ f1.maxRead = f.maxRead ∧ 0 ≤ readOffset f1.offsetFile ∧
      readOffset f1.offsetFile ≤ (f.urlFile.length : Int) ∧
      (readOffset f1.offsetFile % 6 = 0 ∨ readOffset f1.offsetFile = (f.urlFile.length : Int)) ∧
      (wholeRecords f.urlFile).take ((readOffset f1.offsetFile).toNat / 6) =
        (wholeRecords f.urlFile).take ((readOffset f.offsetFile).toNat / 6) ++ urls ∧
      (urls.length : Int) ≤ max B 0 := by
  obtain ⟨e1, e2, hW, hu, hoff0⟩ := LoadBatch_inside f f1 B urls h hc0 hc1
  have hw : wrap64 (B * urlLength) = B * 6 := by
    unfold urlLength
    exact wrap64_of_range _ hB1 hB2
  rw [hw] at hW hu hoff0
  have hmin : min (min (B * 6).toNat f.maxRead)
      (f.urlFile.length - (readOffset f.offsetFile).toNat) =
      min (B * 6).toNat (f.urlFile.length - (readOffset f.offsetFile).toNat) := by
    omega
  have hslice0 : (f.urlFile.drop (readOffset f.offsetFile).toNat).take
      (min (B * 6).toNat f.maxRead) =
      (f.urlFile.drop (readOffset f.offsetFile).toNat).take (B * 6).toNat := by
    rw [← take_min_length _ (min (B * 6).toNat f.maxRead), ← take_min_length _ (B * 6).toNat,
      List.length_drop, hmin]
  rw [hslice0] at hu
  rw [hmin] at hoff0
  have hlen : ((f.urlFile.drop (readOffset f.offsetFile).toNat).take (B * 6).toNat).length =
      min (B * 6).toNat (f.urlFile.length - (readOffset f.offsetFile).toNat) := by
    rw [List.length_take, List.length_drop]
  have hul : urls.length = min (B * 6).toNat
      (f.urlFile.length - (readOffset f.offsetFile).toNat) / 6 := by
    rw [hu, wholeRecords_length, hlen]
  have hoff : readOffset f1.offsetFile = readOffset f.offsetFile +
      ((min (B * 6).toNat (f.urlFile.length - (readOffset f.offsetFile).toNat) : Nat) : Int) :=
    hoff0
  refine ⟨e1, e2, by omega, by omega, by omega, ?_, by omega⟩
  rcases hc2 with hal | hend
  · have ha : (readOffset f.offsetFile).toNat = 6 * ((readOffset f.offsetFile).toNat / 6) := by
      omega
    have hslice : (f.urlFile.drop (readOffset f.offsetFile).toNat).take (B * 6).toNat =
        (f.urlFile.drop (6 * ((readOffset f.offsetFile).toNat / 6))).take
          (min (B * 6).toNat (f.urlFile.length - (readOffset f.offsetFile).toNat)) := by
      rw [← ha, ← List.length_drop, take_min_length]
    have hnew : (readOffset f1.offsetFile).toNat / 6 = (readOffset f.offsetFile).toNat / 6 +
        min (B * 6).toNat (f.urlFile.length - (readOffset f.offsetFile).toNat) / 6 := by
      omega
    rw [hu, hslice, hnew]
    exact wholeRecords_take_add _ _ _ (by omega)
  · have hnil : (f.urlFile.drop (readOffset f.offsetFile).toNat).take (B * 6).toNat = [] := by
      rw [List.drop_of_length_le (by omega)]
      simp
    have hsame : readOffset f1.offsetFile = readOffset f.offsetFile := by omega
    rw [hu, hnil, hsame]
    simp [wholeRecords]

/-! ### The identifier pool -/

theorem Chain_update_of_not_mem (nodes : Nat → URLNode) (a : Nat) (v : URLNode)
    (addrs : List Nat) :
    ∀ p, a ∉ addrs → Chain nodes p addrs → Chain (Function.update nodes a v) p addrs := by
  induction addrs with
  | nil => intro p _ h; exact h
  | cons b addrs ih =>
    intro p hmem h
    have hba : b ≠ a := fun e => hmem (e ▸ List.mem_cons_self _ _)
    refine ⟨h.1, ?_⟩
    rw [Function.update_noteq hba]
    exact ih _ (fun hm => hmem (List.mem_cons_of_mem _ hm)) h.2

theorem Chain_head_nil (nodes : Nat → URLNode) (addrs : List Nat)
    (h : Chain nodes none addrs) : addrs = [] := by
  cases addrs with
  | nil => rfl
  | cons a addrs => cases h.1

/-- Linking a fresh node behind the last node of a chain. -/
theorem Chain_append (nodes : Nat → URLNode) (t new : Nat) (v : URLNode) (hv : v.Next = none)
    (c : GoString) (addrs : List Nat) :
    ∀ p, (addrs ++ [t]).Nodup → new ∉ addrs ++ [t] → Chain nodes p (addrs ++ [t]) →
      Chain (Function.update (Function.update nodes new v) t { Code := c, Next := some new })
        p ((addrs ++ [t]) ++ [new]) := by
  induction addrs with
  | nil =>
    intro p _ hnew h
    have hnt : new ≠ t := fun e => hnew (by simp [e])
    refine ⟨h.1, ?_, ?_⟩
    · show (Function.update (Function.update nodes new v) t
        { Code := c, Next := some new } t).Next = some new
      rw [Function.update_same]
    · show (Function.update (Function.update nodes new v) t
        { Code := c, Next := some new } new).Next = none
      rw [Function.update_noteq hnt, Function.update_same, hv]
  | cons a addrs ih =>
    intro p hnd hnew h
    have hat : a ≠ t := by
      intro e
      have := (List.nodup_cons.1 hnd).1
      exact this (by simp [e])
    have han : a ≠ new := fun e => hnew (by simp [e])
    refine ⟨h.1, ?_⟩
    rw [Function.update_noteq hat, Function.update_noteq han]
    exact ih _ (List.nodup_cons.1 hnd).2 (fun hm => hnew (List.mem_cons_of_mem _ hm)) h.2

/-- The call `Acquire` on an empty pool: the error, no goroutine, the pool unchanged. -/
theorem Acquire_nil (l : LinkedURL) (h : PoolInv l []) :
    l.Acquire = (l, Outcome.err PoolError.noURLsAvailable, false) := by
  have hh : l.head = none := h.chain
  unfold LinkedURL.Acquire
  rw [hh]

/-- The call `Acquire` on a pool that holds a node: the identifier of the head node is returned and
the node is unlinked. -/
theorem Acquire_cons (l : LinkedURL) (a : Nat) (addrs : List Nat) (h : PoolInv l (a :: addrs)) :
    l.Acquire.2.1 = Outcome.ok (l.nodes a).Code ∧
      PoolInv l.Acquire.1 addrs ∧ queued l.Acquire.1 addrs = queued l addrs ∧
      l.Acquire.1.loader = l.loader ∧ l.Acquire.1.batchSize = l.batchSize ∧
      l.Acquire.1.threshold = l.threshold ∧ l.Acquire.1.loading = l.loading ∧
      l.Acquire.1.count = l.count - 1 ∧ l.Acquire.1.fresh = l.fresh ∧
      l.Acquire.2.2 = (decide (l.count - 1 < l.threshold) && !l.loading) := by
  have hh : l.head = some a := h.chain.1
  have hnot : a ∉ addrs := (List.nodup_cons.1 h.nodup).1
  have hA : l.Acquire =
      ({ l with nodes := Function.update l.nodes a { Code := (l.nodes a).Code, Next := none },
                head := (l.nodes a).Next,
                tail := if (l.nodes a).Next = none then none else l.tail,
                count := l.count - 1 },
        Outcome.ok (l.nodes a).Code, decide (l.count - 1 < l.threshold) && !l.loading) := by
    unfold LinkedURL.Acquire
    rw [hh]
  rw [hA]
  refine ⟨rfl, ?_, ?_, rfl, rfl, rfl, rfl, rfl, rfl, rfl⟩
  · refine ⟨?_, (List.nodup_cons.1 h.nodup).2, fun x hx => h.bound x (List.mem_cons_of_mem _ hx),
      ?_, ?_⟩
    · exact Chain_update_of_not_mem _ _ _ _ _ hnot h.chain.2
    · show (if (l.nodes a).Next = none then none else l.tail) = addrs.getLast?
      cases addrs with
      | nil =>
        have : (l.nodes a).Next = none := h.chain.2
        rw [if_pos this]
        rfl
      | cons b bs =>
        have : (l.nodes a).Next = some b := h.chain.2.1
        rw [if_neg (by rw [this]; simp), h.tail, List.getLast?_cons_cons]
    · show l.count - 1 = (addrs.length : Int)
      have := h.count
      simp only [List.length_cons, Nat.cast_add, Nat.cast_one] at this
      omega
  · unfold queued
    apply List.map_congr_left
    intro x hx
    have hxa : x ≠ a := fun e => hnot (e ▸ hx)
    show (Function.update l.nodes a _ x).Code = (l.nodes x).Code
    rw [Function.update_noteq hxa]

theorem appendNode_inv_concat (l : LinkedURL) (code : GoString) (L : List Nat) (b : Nat)
    (h : PoolInv l (L ++ [b])) :
    PoolInv (l.appendNode code) ((L ++ [b]) ++ [l.fresh]) ∧
      queued (l.appendNode code) ((L ++ [b]) ++ [l.fresh]) = queued l (L ++ [b]) ++ [code] ∧
      (l.appendNode code).loader = l.loader ∧ (l.appendNode code).batchSize = l.batchSize ∧
      (l.appendNode code).threshold = l.threshold ∧ (l.appendNode code).loading = l.loading ∧
      (l.appendNode code).count = l.count + 1 := by
  have hfresh : l.fresh ∉ L ++ [b] := fun hm => Nat.lt_irrefl _ (h.bound _ hm)
  have ht : l.tail = some b := by rw [h.tail, List.getLast?_concat]
  have hb : b ≠ l.fresh := fun e => hfresh (by simp [e])
  have hc : l.count = ((L ++ [b]).length : Int) := h.count
  have hA : l.appendNode code =
      { l with nodes := Function.update
                 (Function.update l.nodes l.fresh { Code := code, Next := none }) b
                 { Code := (Function.update l.nodes l.fresh
                     { Code := code, Next := none } b).Code, Next := some l.fresh },
               fresh := l.fresh + 1, tail := some l.fresh, count := l.count + 1 } := by
    unfold LinkedURL.appendNode
    simp only [ht]
  rw [hA]
  refine ⟨⟨?_, ?_, ?_, ?_, ?_⟩, ?_, rfl, rfl, rfl, rfl, rfl⟩
  · exact Chain_append l.nodes b l.fresh { Code := code, Next := none } rfl _ L l.head h.nodup
      hfresh h.chain
  · exact List.Nodup.append h.nodup (List.nodup_singleton _)
      (by
        intro x hx1 hx2
        rw [List.mem_singleton] at hx2
        exact hfresh (hx2 ▸ hx1))
  · intro x hx
    show x < l.fresh + 1
    rcases List.mem_append.1 hx with hx | hx
    · have := h.bound x hx
      omega
    · have : x = l.fresh := by simpa using hx
      omega
  · show some l.fresh = _
    rw [List.getLast?_concat]
  · show l.count + 1 = _
    rw [hc]
    simp only [List.length_append, List.length_singleton, Nat.cast_add, Nat.cast_one]
  · unfold queued
    rw [List.map_append]
    congr 1
    · apply List.map_congr_left
      intro x hx
      have hxf : x ≠ l.fresh := fun e => hfresh (e ▸ hx)
      show (Function.update (Function.update l.nodes l.fresh _) b _ x).Code = (l.nodes x).Code
      by_cases hxb : x = b
      · subst hxb
        rw [Function.update_same, Function.update_noteq hxf]
      · rw [Function.update_noteq hxb, Function.update_noteq hxf]
    · show [(Function.update (Function.update l.nodes l.fresh _) b _ l.fresh).Code] = [code]
      rw [Function.update_noteq (Ne.symm hb), Function.update_same]

/-- One node appended behind the tail. -/
theorem appendNode_inv (l : LinkedURL) (code : GoString) (addrs : List Nat)
    (h : PoolInv l addrs) :
    PoolInv (l.appendNode code) (addrs ++ [l.fresh]) ∧
      queued (l.appendNode code) (addrs ++ [l.fresh]) = queued l addrs ++ [code] ∧
      (l.appendNode code).loader = l.loader ∧ (l.appendNode code).batchSize = l.batchSize ∧
      (l.appendNode code).threshold = l.threshold ∧ (l.appendNode code).loading = l.loading ∧
      (l.appendNode code).count = l.count + 1 := by
  have hfresh : l.fresh ∉ addrs := fun hm => Nat.lt_irrefl _ (h.bound _ hm)
  rcases List.eq_nil_or_concat addrs with rfl | ⟨L, b, hL⟩
  swap
  · rw [List.concat_eq_append] at hL
    subst hL
    exact appendNode_inv_concat l code L b h
  · have ht : l.tail = none := h.tail
    have hc : l.count = 0 := h.count
    have hA : l.appendNode code =
        { l with nodes := Function.update l.nodes l.fresh { Code := code, Next := none },
                 fresh := l.fresh + 1, head := some l.fresh, tail := some l.fresh,
                 count := l.count + 1 } := by
      unfold LinkedURL.appendNode
      simp only [ht]
    rw [hA]
    refine ⟨⟨⟨rfl, ?_⟩, List.nodup_singleton _, ?_, rfl, ?_⟩, ?_, rfl, rfl, rfl, rfl, rfl⟩
    · show (Function.update l.nodes l.fresh _ l.fresh).Next = none
      rw [Function.update_same]
    · intro x hx
      have : x = l.fresh := by simpa using hx
      show x < l.fresh + 1
      omega
    · show l.count + 1 = _
      simp [hc]
    · show [(Function.update l.nodes l.fresh _ l.fresh).Code] = [] ++ [code]
      rw [Function.update_same]
      rfl

/-- The loop of `loadMore`: the identifiers are appended behind the queue, in order. -/
theorem appendAll_inv (urls : List GoString) :
    ∀ (l : LinkedURL) (addrs : List Nat), PoolInv l addrs →
      ∃ addrs2, PoolInv (urls.foldl LinkedURL.appendNode l) addrs2 ∧
        queued (urls.foldl LinkedURL.appendNode l) addrs2 = queued l addrs ++ urls ∧
        (urls.foldl LinkedURL.appendNode l).loader = l.loader ∧
        (urls.foldl LinkedURL.appendNode l).batchSize = l.batchSize ∧
        (urls.foldl LinkedURL.appendNode l).threshold = l.threshold ∧
        (urls.foldl LinkedURL.appendNode l).loading = l.loading ∧
        (urls.foldl LinkedURL.appendNode l).count = l.count + (urls.length : Int) := by
  induction urls with
  | nil =>
    intro l addrs h
    exact ⟨addrs, h, by simp, rfl, rfl, rfl, rfl, by simp⟩
  | cons code urls ih =>
    intro l addrs h
    obtain ⟨h1, h2, h3, h4, h5, h6, h7⟩ := appendNode_inv l code addrs h
    obtain ⟨addrs2, g1, g2, g3, g4, g5, g6, g7⟩ := ih (l.appendNode code) _ h1
    refine ⟨addrs2, g1, ?_, ?_, ?_, ?_, ?_, ?_⟩
    · rw [List.foldl_cons, g2, h2, List.append_assoc]
      rfl
    · rw [List.foldl_cons, g3, h3]
    · rw [List.foldl_cons, g4, h4]
    · rw [List.foldl_cons, g5, h5]
    · rw [List.foldl_cons, g6, h6]
    · rw [List.foldl_cons, g7, h7]
      simp only [List.length_cons, Nat.cast_add, Nat.cast_one]
      omega

theorem PoolInv_congr (l l1 : LinkedURL) (addrs : List Nat) (h : PoolInv l addrs)
    (h1 : l1.nodes = l.nodes) (h2 : l1.fresh = l.fresh) (h3 : l1.head = l.head)
    (h4 : l1.tail = l.tail) (h5 : l1.count = l.count) : PoolInv l1 addrs :=
  ⟨by rw [h1, h3]; exact h.chain, h.nodup, by rw [h2]; exact h.bound, by rw [h4]; exact h.tail,
    by rw [h5]; exact h.count⟩

/-- What a refill does to a pool with no refill in flight, by the result of `LoadBatch`. -/
theorem loadMore_inv (l : LinkedURL) (addrs : List Nat) (h : PoolInv l addrs)
    (hl : l.loading = false) :
    (l.loader.LoadBatch l.batchSize = Outcome.panic ∧ l.loadMore = none) ∨
    (∃ e l1, l.loader.LoadBatch l.batchSize = Outcome.err e ∧ l.loadMore = some (l1, some e) ∧
      PoolInv l1 addrs ∧ queued l1 addrs = queued l addrs ∧ l1.loader = l.loader ∧
      l1.batchSize = l.batchSize ∧ l1.threshold = l.threshold ∧ l1.loading = false ∧
      l1.count = l.count) ∨
    (∃ urls ld l1 addrs2, l.loader.LoadBatch l.batchSize = Outcome.ok (urls, ld) ∧
      l.loadMore = some (l1, none) ∧
      PoolInv l1 addrs2 ∧ queued l1 addrs2 = queued l addrs ++ urls ∧ l1.loader = ld ∧
      l1.batchSize = l.batchSize ∧ l1.threshold = l.threshold ∧ l1.loading = false ∧
      l1.count = l.count + (urls.length : Int)) := by
  cases hL : l.loader.LoadBatch l.batchSize with
  | panic =>
    left
    refine ⟨rfl, ?_⟩
    unfold LinkedURL.loadMore
    simp only [hl, hL]
    rfl
  | err e =>
    right; left
    refine ⟨e, { l with loading := false }, rfl, ?_,
      PoolInv_congr l _ addrs h rfl rfl rfl rfl rfl, rfl, rfl, rfl, rfl, rfl, rfl⟩
    unfold LinkedURL.loadMore
    simp only [hl, hL, Bool.false_eq_true, if_false]
  | ok r =>
    obtain ⟨urls, ld⟩ := r
    right; right
    have h0 : PoolInv { l with loading := true, loader := ld } addrs :=
      PoolInv_congr l _ addrs h rfl rfl rfl rfl rfl
    obtain ⟨addrs2, g1, g2, g3, g4, g5, g6, g7⟩ := appendAll_inv urls _ addrs h0
    refine ⟨urls, ld,
      { urls.foldl LinkedURL.appendNode { l with loading := true, loader := ld } with
        loading := false },
      addrs2, rfl, ?_, PoolInv_congr _ _ addrs2 g1 rfl rfl rfl rfl rfl, g2, g3, g4, g5, rfl, g7⟩
    unfold LinkedURL.loadMore
    simp only [hl, hL, Bool.false_eq_true, if_false]

theorem RunInv_issued_prefix (file : List Byte) (maxRead : Nat) (B : Int) (l : LinkedURL)
    (issued : List GoString) (h : RunInv file maxRead B l issued) :
    issued <+: wholeRecords file := by
  obtain ⟨addrs, -, -, -, -, -, -, -, hq⟩ := h
  exact List.IsPrefix.trans (List.prefix_append issued (queued l addrs))
    (hq ▸ List.take_prefix _ _)

/-- In a sequential run the identifiers issued so far, followed by those the rest of the run
issues, are an initial segment of the records of the pool file. -/
theorem poolRun_prefix (file : List Byte) (maxRead : Nat) (B : Int)
    (hB1 : -9223372036854775808 ≤ B * 6) (hB2 : B * 6 < 9223372036854775808)
    (hR : B * 6 ≤ (maxRead : Int) ∨ file.length ≤ maxRead) (events : List PoolEvent) :
    ∀ (l : LinkedURL) (issued : List GoString), RunInv file maxRead B l issued →
      (issued ++ poolRun l events) <+: wholeRecords file := by
  induction events with
  | nil =>
    intro l issued h
    simpa [poolRun] using RunInv_issued_prefix file maxRead B l issued h
  | cons ev events ih =>
    intro l issued h
    obtain ⟨addrs, hP, hfile, hbatch, hload, hc0, hc1, hc2, hq⟩ := h
    cases ev with
    | acquire =>
      cases addrs with
      | nil =>
        have hA := Acquire_nil l hP
        have hrun : poolRun l (PoolEvent.acquire :: events) = poolRun l events := by
          simp only [poolRun, hA]
        rw [hrun]
        exact ih l issued ⟨[], hP, hfile, hbatch, hload, hc0, hc1, hc2, hq⟩
      | cons a addrs =>
        obtain ⟨a1, a2, a3, a4, a5, -, a7, -, -, -⟩ := Acquire_cons l a addrs hP
        rcases hA : l.Acquire with ⟨l1, r, nl⟩
        rw [hA] at a1 a2 a3 a4 a5 a7
        simp only at a1 a2 a3 a4 a5 a7
        have hrun : poolRun l (PoolEvent.acquire :: events) =
            (l.nodes a).Code :: poolRun l1 events := by
          simp only [poolRun, hA, a1]
        rw [hrun]
        have := ih l1 (issued ++ [(l.nodes a).Code])
          ⟨addrs, a2, by rw [a4]; exact hfile, by rw [a5]; exact hbatch, by rw [a7]; exact hload,
            by rw [a4]; exact hc0, by rw [a4]; exact hc1, by rw [a4]; exact hc2,
            by rw [a4, a3, ← hq]; simp [queued]⟩
        simpa [List.append_assoc] using this
    | refill =>
      rcases loadMore_inv l addrs hP hload with ⟨-, hm⟩ | ⟨e, l1, -, hm, b1, b2, b3, b4, -, b6, -⟩ |
        ⟨urls, ld, l1, addrs2, hL, hm, b1, b2, b3, b4, -, b6, -⟩
      · have hrun : poolRun l (PoolEvent.refill :: events) = [] := by
          simp only [poolRun, hm]
        rw [hrun]
        simpa using RunInv_issued_prefix file maxRead B l issued
          ⟨addrs, hP, hfile, hbatch, hload, hc0, hc1, hc2, hq⟩
      · have hrun : poolRun l (PoolEvent.refill :: events) = poolRun l1 events := by
          simp only [poolRun, hm]
        rw [hrun]
        exact ih l1 issued
          ⟨addrs, b1, by rw [b3]; exact hfile, by rw [b4]; exact hbatch, b6,
            by rw [b3]; exact hc0, by rw [b3]; exact hc1, by rw [b3]; exact hc2,
            by rw [b3, b2]; exact hq⟩
      · have hrun : poolRun l (PoolEvent.refill :: events) = poolRun l1 events := by
          simp only [poolRun, hm]
        rw [hrun]
        rw [hbatch] at hL
        obtain ⟨hfile1, hfile2⟩ := hfile
        rw [← hfile1] at hc1 hc2
        rw [← hfile1, ← hfile2] at hR
        obtain ⟨c1, c0, c2, c3, c4, c5, -⟩ :=
          LoadBatch_aligned l.loader ld B urls hB1 hB2 hR hL hc0 hc1 hc2
        rw [hfile1] at c3 c4 c5
        exact ih l1 issued
          ⟨addrs2, b1, by rw [b3, c1, c0]; exact ⟨hfile1, hfile2⟩, by rw [b4]; exact hbatch, b6,
            by rw [b3]; exact c2, by rw [b3]; exact c3, by rw [b3]; exact c4,
            by rw [b3, b2, c5, ← List.append_assoc, hq]⟩

theorem NewLinkedURL_RunInv (loader : FileLoader) (threshold B : Int)
    (h0 : readOffset loader.offsetFile = 0) :
    RunInv loader.urlFile loader.maxRead B (NewLinkedURL loader threshold B) [] :=
  ⟨[], ⟨rfl, List.nodup_nil, (fun a ha => by cases ha), rfl, rfl⟩, ⟨rfl, rfl⟩, rfl, rfl,
    by simp [h0, NewLinkedURL], by simp [h0, NewLinkedURL], Or.inl (by simp [h0, NewLinkedURL]),
    by simp [queued, h0, NewLinkedURL]⟩

/-- C1 (as amended): in the sequential model, with a pool file whose 6-byte records are
pairwise distinct, the cursor starting at 0, a batch size whose 6-fold does not leave the
64-bit range and reads that are not cut short (the 6-fold of the batch size, or the length of
the pool file, is at most the number of bytes one `Read` transfers), for every threshold and
every interleaving of `Acquire` calls and refills the identifiers returned by the successful
`Acquire` calls are an initial segment of the records of the file, in file order; no two of
them are the same. -/
theorem C1_acquire_never_repeats (loader : FileLoader) (threshold batchSize : Int)
    (events : List PoolEvent) (hcur : readOffset loader.offsetFile = 0)
    (hrec : (wholeRecords loader.urlFile).Nodup)
    (hB1 : -9223372036854775808 ≤ batchSize * 6) (hB2 : batchSize * 6 < 9223372036854775808)
    (hread : batchSize * 6 ≤ (loader.maxRead : Int) ∨ loader.urlFile.length ≤ loader.maxRead) :
    poolRun (NewLinkedURL loader threshold batchSize) events <+: wholeRecords loader.urlFile ∧
      (poolRun (NewLinkedURL loader threshold batchSize) events).Nodup := by
  have h := poolRun_prefix loader.urlFile loader.maxRead batchSize hB1 hB2 hread events _ []
    (NewLinkedURL_RunInv loader threshold batchSize hcur)
  rw [List.nil_append] at h
  exact ⟨h, List.Nodup.sublist h.sublist hrec⟩

/-- C1 (as amended) on a pool file of 14 bytes with threshold 1 and batch size 1. -/
theorem C1_acquire_never_repeats_witness :
    poolRun (NewLinkedURL
        { urlFile := [65, 66, 67, 68, 69, 70, 71, 72, 73, 74, 75, 76, 77, 78],
          offsetFile := some 0 } 1 1)
        [PoolEvent.refill, PoolEvent.acquire, PoolEvent.acquire, PoolEvent.refill,
          PoolEvent.acquire, PoolEvent.refill, PoolEvent.refill, PoolEvent.acquire]
        <+: wholeRecords [65, 66, 67, 68, 69, 70, 71, 72, 73, 74, 75, 76, 77, 78] ∧
      (poolRun (NewLinkedURL
        { urlFile := [65, 66, 67, 68, 69, 70, 71, 72, 73, 74, 75, 76, 77, 78],
          offsetFile := some 0 } 1 1)
        [PoolEvent.refill, PoolEvent.acquire, PoolEvent.acquire, PoolEvent.refill,
          PoolEvent.acquire, PoolEvent.refill, PoolEvent.refill, PoolEvent.acquire]).Nodup :=
  C1_acquire_never_repeats
    { urlFile := [65, 66, 67, 68, 69, 70, 71, 72, 73, 74, 75, 76, 77, 78], offsetFile := some 0 }
    1 1
    [PoolEvent.refill, PoolEvent.acquire, PoolEvent.acquire, PoolEvent.refill,
      PoolEvent.acquire, PoolEvent.refill, PoolEvent.refill, PoolEvent.acquire]
    (by decide) (by decide) (by decide) (by decide) (by decide)

/-- C1 fails as stated: the pool file holds the pairwise distinct records "AAAAAA", "BBAAAA"
and "AACCCC", the cursor starts at 0 the threshold is 1 and the batch size is
3074457345618258604, whose 6-fold wraps around to 8.  Each refill then reads 8 bytes: the
first queues "AAAAAA" (bytes 0-5), the first `Acquire` returns it and starts the second
refill, which queues bytes 8-13, again "AAAAAA", and the second `Acquire` returns that. -/
theorem C1_counterexample :
    (wholeRecords [65, 65, 65, 65, 65, 65, 66, 66, 65, 65, 65, 65, 65, 65, 67, 67, 67, 67]).Nodup ∧
    poolRun (NewLinkedURL
        { urlFile := [65, 65, 65, 65, 65, 65, 66, 66, 65, 65, 65, 65, 65, 65, 67, 67, 67, 67],
          offsetFile := some 0 } 1 3074457345618258604)
        [PoolEvent.refill, PoolEvent.acquire, PoolEvent.refill, PoolEvent.acquire] =
      [[65, 65, 65, 65, 65, 65], [65, 65, 65, 65, 65, 65]] := by
  decide

/-! ### The LRU cache -/

theorem lookup_some (c : LRUCache) (key : GoString) (elem : cacheEntry)
    (h : c.lookup key = some elem) : elem ∈ c.lruList ∧ elem.key = key := by
  unfold LRUCache.lookup at h
  exact ⟨List.mem_of_find?_eq_some h, by simpa using List.find?_some h⟩

theorem lookup_none (c : LRUCache) (key : GoString) (h : c.lookup key = none) :
    ∀ e ∈ c.lruList, e.key ≠ key := by
  unfold LRUCache.lookup at h
  intro e he
  simpa using List.find?_eq_none.1 h e he

theorem lookup_isSome_of_mem (c : LRUCache) (e : cacheEntry) (he : e ∈ c.lruList) :
    ∃ elem, c.lookup e.key = some elem := by
  cases h : c.lookup e.key with
  | some elem => exact ⟨elem, rfl⟩
  | none => exact absurd rfl (lookup_none c e.key h e he)

theorem Put_present (c : LRUCache) (key value : GoString) (elem : cacheEntry)
    (h : c.lookup key = some elem) :
    c.Put key value =
      { c with lruList := { key := elem.key, value := value } :: c.lruList.erase elem } := by
  unfold LRUCache.Put
  rw [h]

theorem Put_new_room (c : LRUCache) (key value : GoString) (h : c.lookup key = none)
    (hroom : (c.lruList.length : Int) < c.capacity) :
    c.Put key value = { c with lruList := { key := key, value := value } :: c.lruList } := by
  unfold LRUCache.Put
  rw [h]
  simp only [List.length_cons, Nat.cast_add, Nat.cast_one]
  rw [if_neg (by omega)]

theorem Put_new_full (c : LRUCache) (key value : GoString) (h : c.lookup key = none)
    (hfull : c.capacity ≤ (c.lruList.length : Int)) :
    c.Put key value =
      { c with lruList := ({ key := key, value := value } :: c.lruList).dropLast } := by
  unfold LRUCache.Put
  rw [h]
  simp only [List.length_cons, Nat.cast_add, Nat.cast_one]
  rw [if_pos (by omega)]

theorem Get_hit (c : LRUCache) (key : GoString) (elem : cacheEntry)
    (h : c.lookup key = some elem) :
    c.Get key =
      ({ c with hits := c.hits + 1, lruList := elem :: c.lruList.erase elem },
        elem.value, true) := by
  unfold LRUCache.Get
  rw [h]

theorem Get_miss (c : LRUCache) (key : GoString) (h : c.lookup key = none) :
    c.Get key = ({ c with misses := c.misses + 1 }, [], false) := by
  unfold LRUCache.Get
  rw [h]

/-- Entries of a list ordered by strictly decreasing last use have pairwise different keys. -/
theorem ordered_keys_ne (lastUse : GoString → Nat) (l : List cacheEntry)
    (h : l.Pairwise (fun e e1 => lastUse e1.key < lastUse e.key)) :
    ∀ e ∈ l, ∀ e1 ∈ l, e ≠ e1 → e.key ≠ e1.key := by
  have h2 : l.Pairwise (fun e e1 => e.key ≠ e1.key) :=
    h.imp (fun {a b} hab heq => by rw [heq] at hab; exact Nat.lt_irrefl _ hab)
  intro e he e1 he1 hne
  exact List.Pairwise.forall (fun a b hab => Ne.symm hab) h2 he he1 hne

theorem ordered_nodup (lastUse : GoString → Nat) (l : List cacheEntry)
    (h : l.Pairwise (fun e e1 => lastUse e1.key < lastUse e.key)) : l.Nodup :=
  h.imp (fun {a b} hab heq => by rw [heq] at hab; exact Nat.lt_irrefl _ hab)

/-- Moving the entry of `key` to the front, or pushing a new entry for `key`, at a time later
than every last use keeps the recency list ordered by last use. -/
theorem ordered_front (lastUse : GoString → Nat) (clock : Nat) (rest : List cacheEntry)
    (front : cacheEntry) (hclock : ∀ k, lastUse k ≤ clock)
    (hrest : rest.Pairwise (fun e e1 => lastUse e1.key < lastUse e.key))
    (hkey : ∀ e ∈ rest, e.key ≠ front.key) :
    (front :: rest).Pairwise (fun e e1 =>
      Function.update lastUse front.key (clock + 1) e1.key <
        Function.update lastUse front.key (clock + 1) e.key) := by
  refine List.pairwise_cons.2 ⟨fun e he => ?_, ?_⟩
  · rw [Function.update_same, Function.update_noteq (hkey e he)]
    have := hclock e.key
    omega
  · refine List.Pairwise.imp_of_mem ?_ hrest
    intro a b ha hb hab
    rw [Function.update_noteq (hkey a ha), Function.update_noteq (hkey b hb)]
    exact hab

theorem erase_keys_ne (lastUse : GoString → Nat) (l : List cacheEntry) (elem : cacheEntry)
    (h : l.Pairwise (fun e e1 => lastUse e1.key < lastUse e.key)) (hmem : elem ∈ l) :
    ∀ e ∈ l.erase elem, e.key ≠ elem.key := by
  intro e he
  obtain ⟨hne, hel⟩ := (List.Nodup.mem_erase_iff (ordered_nodup lastUse l h)).1 he
  exact ordered_keys_ne lastUse l h e hel elem hmem hne

theorem update_le_succ (lastUse : GoString → Nat) (clock : Nat) (key : GoString)
    (hclock : ∀ k, lastUse k ≤ clock) :
    ∀ k, Function.update lastUse key (clock + 1) k ≤ clock + 1 := by
  intro k
  by_cases hk : k = key
  · rw [hk, Function.update_same]
  · rw [Function.update_noteq hk]
    have := hclock k
    omega

/-- Every call keeps the invariant of the cache with its history. -/
theorem TimedInv_step (t : TimedCache) (op : CacheOp) (h : TimedInv t) : TimedInv (t.step op) := by
  obtain ⟨hord, hclock⟩ := h
  cases op with
  | get key =>
    cases hl : t.cache.lookup key with
    | none =>
      have h1 : (t.step (CacheOp.get key)).cache.lruList = t.cache.lruList := by
        simp [TimedCache.step, LRUCache.step, Get_miss _ _ hl]
      have h2 : (t.step (CacheOp.get key)).lastUse = t.lastUse := by
        simp [TimedCache.step, LRUCache.used, hl]
      refine ⟨by rw [h1, h2]; exact hord, fun k => ?_⟩
      rw [h2]
      have := hclock k
      show t.lastUse k ≤ t.clock + 1
      omega
    | some elem =>
      obtain ⟨hmem, hkey⟩ := lookup_some _ _ _ hl
      have h1 : (t.step (CacheOp.get key)).cache.lruList =
          elem :: t.cache.lruList.erase elem := by
        simp [TimedCache.step, LRUCache.step, Get_hit _ _ _ hl]
      have h2 : (t.step (CacheOp.get key)).lastUse =
          Function.update t.lastUse elem.key (t.clock + 1) := by
        simp [TimedCache.step, LRUCache.used, hl, hkey]
      refine ⟨?_, ?_⟩
      · rw [h1, h2]
        exact ordered_front t.lastUse t.clock _ elem hclock
          (hord.sublist (List.erase_sublist _ _)) (erase_keys_ne t.lastUse _ elem hord hmem)
      · rw [h2]
        exact update_le_succ _ _ _ hclock
  | put key value =>
    have h2 : (t.step (CacheOp.put key value)).lastUse =
        Function.update t.lastUse key (t.clock + 1) := by
      simp [TimedCache.step, LRUCache.used]
    refine ⟨?_, by rw [h2]; exact update_le_succ _ _ _ hclock⟩
    rw [h2]
    cases hl : t.cache.lookup key with
    | some elem =>
      obtain ⟨hmem, hkey⟩ := lookup_some _ _ _ hl
      have h1 : (t.step (CacheOp.put key value)).cache.lruList =
          { key := elem.key, value := value } :: t.cache.lruList.erase elem := by
        simp [TimedCache.step, LRUCache.step, Put_present _ _ _ _ hl]
      rw [h1, ← hkey]
      exact ordered_front t.lastUse t.clock _ { key := elem.key, value := value } hclock
        (hord.sublist (List.erase_sublist _ _)) (erase_keys_ne t.lastUse _ elem hord hmem)
    | none =>
      have hne := lookup_none _ _ hl
      have hfront := ordered_front t.lastUse t.clock t.cache.lruList
        { key := key, value := value } hclock hord hne
      by_cases hfull : t.cache.capacity ≤ (t.cache.lruList.length : Int)
      · have h1 : (t.step (CacheOp.put key value)).cache.lruList =
            ({ key := key, value := value } :: t.cache.lruList).dropLast := by
          simp [TimedCache.step, LRUCache.step, Put_new_full _ _ _ hl hfull]
        rw [h1]
        exact hfront.sublist (List.dropLast_sublist _)
      · have h1 : (t.step (CacheOp.put key value)).cache.lruList =
            { key := key, value := value } :: t.cache.lruList := by
          simp [TimedCache.step, LRUCache.step, Put_new_room _ _ _ hl (by omega)]
        rw [h1]
        exact hfront
  | clear =>
    refine ⟨?_, fun k => ?_⟩
    · show List.Pairwise _ []
      exact List.Pairwise.nil
    · have := hclock k
      show t.lastUse k ≤ t.clock + 1
      omega

theorem TimedInv_run (ops : List CacheOp) :
    ∀ t : TimedCache, TimedInv t → TimedInv (t.run ops) := by
  induction ops with
  | nil => intro t h; exact h
  | cons op ops ih => intro t h; exact ih _ (TimedInv_step t op h)

theorem TimedInv_new (capacity : Int) : TimedInv (TimedCache.new capacity) :=
  ⟨List.Pairwise.nil, fun _ => le_refl _⟩

theorem capacity_step (t : TimedCache) (op : CacheOp) :
    (t.step op).cache.capacity = t.cache.capacity := by
  cases op with
  | get key =>
    cases hl : t.cache.lookup key with
    | none => simp [TimedCache.step, LRUCache.step, Get_miss _ _ hl]
    | some elem => simp [TimedCache.step, LRUCache.step, Get_hit _ _ _ hl]
  | put key value =>
    simp only [TimedCache.step, LRUCache.step, LRUCache.Put]
    split
    · rfl
    · split <;> rfl
  | clear => rfl

theorem capacity_run (ops : List CacheOp) :
    ∀ t : TimedCache, (t.run ops).cache.capacity = t.cache.capacity := by
  induction ops with
  | nil => intro t; rfl
  | cons op ops ih => intro t; exact (ih _).trans (capacity_step t op)

theorem lookup_eq_none (c : LRUCache) (key : GoString) (h : ∀ e ∈ c.lruList, e.key ≠ key) :
    c.lookup key = none := by
  cases hl : c.lookup key with
  | none => rfl
  | some elem =>
    obtain ⟨hmem, hkey⟩ := lookup_some c key elem hl
    exact absurd hkey (h elem hmem)

/-- A full, non-empty recency list loses exactly its back element when a new key is put. -/
theorem Put_new_full_concat (c : LRUCache) (key value : GoString) (init : List cacheEntry)
    (victim : cacheEntry) (hlist : c.lruList = init ++ [victim])
    (h : c.lookup key = none) (hfull : c.capacity ≤ (c.lruList.length : Int)) :
    (c.Put key value).lruList = { key := key, value := value } :: init := by
  rw [Put_new_full c key value h hfull]
  show ({ key := key, value := value } :: c.lruList).dropLast = _
  rw [hlist, List.dropLast_cons_of_ne_nil (by simp), List.dropLast_concat]

/-- Distinct new keys put into a cache with enough room are all kept, latest first. -/
theorem putAll_room (kvs : List (GoString × GoString)) :
    ∀ c : LRUCache, (kvs.map Prod.fst).Nodup →
      (∀ kv ∈ kvs, ∀ e ∈ c.lruList, e.key ≠ kv.1) →
      ((c.lruList.length : Int) + (kvs.length : Int) ≤ c.capacity) →
      (c.putAll kvs).lruList =
          kvs.reverse.map (fun kv => ({ key := kv.1, value := kv.2 } : cacheEntry)) ++ c.lruList ∧
        (c.putAll kvs).capacity = c.capacity := by
  induction kvs with
  | nil => intro c _ _ _; exact ⟨by simp [LRUCache.putAll], rfl⟩
  | cons kv kvs ih =>
    intro c hnd hdis hroom
    have hl : c.lookup kv.1 = none :=
      lookup_eq_none c kv.1 (hdis kv (List.mem_cons_self _ _))
    simp only [List.length_cons, Nat.cast_add, Nat.cast_one] at hroom
    have hput := Put_new_room c kv.1 kv.2 hl (by omega)
    have hnd2 : kv.1 ∉ kvs.map Prod.fst ∧ (kvs.map Prod.fst).Nodup := by
      rw [List.map_cons] at hnd
      exact List.nodup_cons.1 hnd
    obtain ⟨i1, i2⟩ := ih (c.Put kv.1 kv.2) hnd2.2
      (by
        intro kv1 hkv1 e he
        rw [hput] at he
        rcases List.mem_cons.1 he with rfl | he
        · intro heq
          exact hnd2.1 (List.mem_map.2 ⟨kv1, hkv1, heq.symm⟩)
        · exact hdis kv1 (List.mem_cons_of_mem _ hkv1) e he)
      (by
        rw [hput]
        simp only [List.length_cons, Nat.cast_add, Nat.cast_one]
        omega)
    refine ⟨?_, ?_⟩
    · show ((c.Put kv.1 kv.2).putAll kvs).lruList = _
      rw [i1, hput]
      simp
    · show ((c.Put kv.1 kv.2).putAll kvs).capacity = _
      rw [i2, hput]

theorem putAll_append (c : LRUCache) (kvs kvs1 : List (GoString × GoString)) :
    c.putAll (kvs ++ kvs1) = (c.putAll kvs).putAll kvs1 := by
  simp [LRUCache.putAll, List.foldl_append]

/-- Inserting `capacity + 1` distinct keys into an empty cache evicts exactly the first. -/
theorem putAll_overflow (capacity : Int) (first : GoString × GoString)
    (rest : List (GoString × GoString)) (hcap : 1 ≤ capacity)
    (hlen : (rest.length : Int) = capacity) (hnd : ((first :: rest).map Prod.fst).Nodup) :
    ((NewLRUCache capacity).putAll (first :: rest)).lruList =
      rest.reverse.map (fun kv => ({ key := kv.1, value := kv.2 } : cacheEntry)) := by
  rcases List.eq_nil_or_concat rest with hnil | ⟨init, last, hrest⟩
  · rw [hnil] at hlen
    simp at hlen
    omega
  · rw [List.concat_eq_append] at hrest
    subst hrest
    have hnd1 : ((first :: init).map Prod.fst ++ [last.1]).Nodup := by
      simpa using hnd
    have hlen1 : (init.length : Int) + 1 = capacity := by
      rw [← hlen]
      simp
    obtain ⟨h1, h2⟩ := putAll_room (first :: init) (NewLRUCache capacity)
      (List.Nodup.of_append_left hnd1) (fun kv _ e he => by cases he)
      (by
        show ((0 : Nat) : Int) + ((first :: init).length : Int) ≤ capacity
        simp only [List.length_cons, Nat.cast_add, Nat.cast_one]
        omega)
    have hlist : ((NewLRUCache capacity).putAll (first :: init)).lruList =
        init.reverse.map (fun kv => ({ key := kv.1, value := kv.2 } : cacheEntry)) ++
          [{ key := first.1, value := first.2 }] := by
      rw [h1]
      simp [NewLRUCache]
    have hnew : ((NewLRUCache capacity).putAll (first :: init)).lookup last.1 = none := by
      apply lookup_eq_none
      intro e he heq
      rw [h1] at he
      simp only [NewLRUCache, List.append_nil, List.mem_map, List.mem_reverse] at he
      obtain ⟨kv, hkv, rfl⟩ := he
      have hdis := (List.nodup_append.1 hnd1).2.2
      exact hdis (List.mem_map.2 ⟨kv, hkv, heq⟩) (List.mem_singleton.2 rfl)
    have hstep : (NewLRUCache capacity).putAll (first :: (init ++ [last])) =
        ((NewLRUCache capacity).putAll (first :: init)).Put last.1 last.2 := by
      rw [← List.cons_append, putAll_append]
      rfl
    rw [hstep, Put_new_full_concat _ last.1 last.2 _ _ hlist hnew
      (by
        rw [h2, hlist]
        simp only [NewLRUCache, List.length_append, List.length_map, List.length_reverse,
          List.length_singleton, Nat.cast_add, Nat.cast_one]
        omega)]
    simp

theorem concat_of_length_pos {α : Type} (l : List α) (h : 0 < l.length) :
    ∃ init last, l = init ++ [last] := by
  rcases List.eq_nil_or_concat l with hnil | ⟨init, last, hl⟩
  · rw [hnil] at h
    simp at h
  · exact ⟨init, last, by rw [hl, List.concat_eq_append]⟩

theorem mem_init_iff (lastUse : GoString → Nat) (init : List cacheEntry) (victim : cacheEntry)
    (h : (init ++ [victim]).Pairwise (fun e e1 => lastUse e1.key < lastUse e.key)) :
    (∀ e, e ∈ init ↔ (e ∈ init ++ [victim] ∧ e ≠ victim)) ∧
      ∀ e ∈ init ++ [victim], e ≠ victim → lastUse victim.key < lastUse e.key := by
  have hnd := ordered_nodup lastUse _ h
  have hnot : victim ∉ init := fun hm =>
    (List.nodup_append.1 hnd).2.2 hm (List.mem_singleton.2 rfl)
  have hlt := (List.pairwise_append.1 h).2.2
  have hiff : ∀ e, e ∈ init ↔ (e ∈ init ++ [victim] ∧ e ≠ victim) := by
    intro e
    constructor
    · intro he
      exact ⟨List.mem_append_left _ he, fun heq => hnot (heq ▸ he)⟩
    · rintro ⟨he, hne⟩
      rcases List.mem_append.1 he with he | he
      · exact he
      · exact absurd (List.mem_singleton.1 he) hne
  exact ⟨hiff, fun e he hne => hlt e ((hiff e).2 ⟨he, hne⟩) victim (List.mem_singleton.2 rfl)⟩

/-- A `Put` of a new key into a full cache evicts the least recently used entry only. -/
theorem evict_lru (t : TimedCache) (key value : GoString) (hinv : TimedInv t)
    (hcap : 1 ≤ t.cache.capacity)
    (hfull : (t.cache.lruList.length : Int) = t.cache.capacity)
    (hnew : t.cache.lookup key = none) :
    ∃ victim ∈ t.cache.lruList,
      (∀ e ∈ t.cache.lruList, e ≠ victim → t.lastUse victim.key < t.lastUse e.key) ∧
      (∀ e, e ∈ (t.cache.Put key value).lruList ↔
        e = { key := key, value := value } ∨ (e ∈ t.cache.lruList ∧ e ≠ victim)) ∧
      ((t.cache.Put key value).lruList.length : Int) = t.cache.capacity := by
  obtain ⟨init, victim, hlist⟩ := concat_of_length_pos t.cache.lruList (by omega)
  have hput := Put_new_full_concat t.cache key value init victim hlist hnew (by omega)
  have hord := hinv.1
  rw [hlist] at hord
  obtain ⟨hiff, hlt⟩ := mem_init_iff t.lastUse init victim hord
  refine ⟨victim, by rw [hlist]; simp, ?_, ?_, ?_⟩
  · rw [hlist]
    exact hlt
  · intro e
    rw [hput, List.mem_cons, hiff e, hlist]
  · rw [hput, ← hfull, hlist]
    simp

/-- A `Put` of a key that is present, or into a cache with room, removes nothing. -/
theorem Put_keeps (c : LRUCache) (key value : GoString)
    (h : (∃ elem, c.lookup key = some elem) ∨ (c.lruList.length : Int) < c.capacity) :
    (∀ e ∈ c.lruList, e.key ≠ key → e ∈ (c.Put key value).lruList) ∧
      ({ key := key, value := value } : cacheEntry) ∈ (c.Put key value).lruList ∧
      c.lruList.length ≤ (c.Put key value).lruList.length := by
  cases hl : c.lookup key with
  | some elem =>
    obtain ⟨hmem, hkey⟩ := lookup_some c key elem hl
    rw [Put_present c key value elem hl]
    refine ⟨fun e he hne => ?_, ?_, ?_⟩
    · refine List.mem_cons_of_mem _ ((List.mem_erase_of_ne ?_).2 he)
      intro heq
      exact hne (heq ▸ hkey)
    · rw [hkey]
      exact List.mem_cons_self _ _
    · show c.lruList.length ≤ (_ :: c.lruList.erase elem).length
      rw [List.length_cons, List.length_erase_of_mem hmem]
      omega
  | none =>
    rcases h with ⟨elem, helem⟩ | hroom
    · rw [hl] at helem
      cases helem
    · rw [Put_new_room c key value hl hroom]
      exact ⟨fun e he _ => List.mem_cons_of_mem _ he, List.mem_cons_self _ _, by simp⟩

/-- C9: for every cache of capacity `c >= 1` that holds exactly `c` entries (reached from a
new cache by any calls), `Put` of a key that is not in the cache removes exactly one entry,
the one whose last `Put` or `Get` hit is older than that of every other entry, keeps every
other entry with its value and adds the new one; a `Put` of a key that is present, or into a
cache with fewer than `c` entries, removes nothing; and `c + 1` `Put` calls with distinct keys
on a new cache leave exactly the entries of the last `c` calls, the first key being evicted. -/
theorem C9_put_evicts_lru :
    (∀ (capacity : Int) (ops : List CacheOp) (key value : GoString),
      1 ≤ capacity →
      ((((TimedCache.new capacity).run ops).cache.lruList.length : Nat) : Int) = capacity →
      ((TimedCache.new capacity).run ops).cache.lookup key = none →
      ∃ victim ∈ ((TimedCache.new capacity).run ops).cache.lruList,
        (∀ e ∈ ((TimedCache.new capacity).run ops).cache.lruList, e ≠ victim →
          ((TimedCache.new capacity).run ops).lastUse victim.key <
            ((TimedCache.new capacity).run ops).lastUse e.key) ∧
        (∀ e, e ∈ (((TimedCache.new capacity).run ops).cache.Put key value).lruList ↔
          e = { key := key, value := value } ∨
            (e ∈ ((TimedCache.new capacity).run ops).cache.lruList ∧ e ≠ victim)) ∧
        (((((TimedCache.new capacity).run ops).cache.Put key value).lruList.length : Nat) : Int)
          = capacity) ∧
    (∀ (c : LRUCache) (key value : GoString),
      ((∃ elem, c.lookup key = some elem) ∨ (c.lruList.length : Int) < c.capacity) →
      (∀ e ∈ c.lruList, e.key ≠ key → e ∈ (c.Put key value).lruList) ∧
        ({ key := key, value := value } : cacheEntry) ∈ (c.Put key value).lruList ∧
        c.lruList.length ≤ (c.Put key value).lruList.length) ∧
    (∀ (capacity : Int) (first : GoString × GoString) (rest : List (GoString × GoString)),
      1 ≤ capacity → (rest.length : Int) = capacity →
      ((first :: rest).map Prod.fst).Nodup →
      ((NewLRUCache capacity).putAll (first :: rest)).lruList =
        rest.reverse.map (fun kv => ({ key := kv.1, value := kv.2 } : cacheEntry))) := by
  refine ⟨?_, Put_keeps, putAll_overflow⟩
  intro capacity ops key value hcap hfull hnew
  have hinv := TimedInv_run ops _ (TimedInv_new capacity)
  have hc : ((TimedCache.new capacity).run ops).cache.capacity = capacity :=
    capacity_run ops _
  have := evict_lru _ key value hinv (by rw [hc]; exact hcap) (by rw [hc]; exact hfull) hnew
  rw [hc] at this
  exact this

/-- C9 on a cache of capacity 2 after `Put(1)`, `Put(2)`, `Get(1)`: the `Put` of key 3. -/
theorem C9_put_evicts_lru_witness :
    ∃ victim ∈ ((TimedCache.new 2).run
        [CacheOp.put [1] [10], CacheOp.put [2] [20], CacheOp.get [1]]).cache.lruList,
      (∀ e ∈ ((TimedCache.new 2).run
          [CacheOp.put [1] [10], CacheOp.put [2] [20], CacheOp.get [1]]).cache.lruList,
        e ≠ victim →
        ((TimedCache.new 2).run
          [CacheOp.put [1] [10], CacheOp.put [2] [20], CacheOp.get [1]]).lastUse victim.key <
        ((TimedCache.new 2).run
          [CacheOp.put [1] [10], CacheOp.put [2] [20], CacheOp.get [1]]).lastUse e.key) ∧
      (∀ e, e ∈ (((TimedCache.new 2).run
          [CacheOp.put [1] [10], CacheOp.put [2] [20], CacheOp.get [1]]).cache.Put
            [3] [30]).lruList ↔
        e = { key := [3], value := [30] } ∨
          (e ∈ ((TimedCache.new 2).run
            [CacheOp.put [1] [10], CacheOp.put [2] [20], CacheOp.get [1]]).cache.lruList ∧
            e ≠ victim)) ∧
      (((((TimedCache.new 2).run
          [CacheOp.put [1] [10], CacheOp.put [2] [20], CacheOp.get [1]]).cache.Put
            [3] [30]).lruList.length : Nat) : Int) = 2 :=
  C9_put_evicts_lru.1 2 [CacheOp.put [1] [10], CacheOp.put [2] [20], CacheOp.get [1]] [3] [30]
    (by decide) (by decide) (by decide)

/-- A `Get` hit followed by a `Put` of a new key into the full cache. -/
theorem get_then_put (t : TimedCache) (key newKey value : GoString) (elem : cacheEntry)
    (hinv : TimedInv t) (hcap : 2 ≤ t.cache.capacity)
    (hfull : (t.cache.lruList.length : Int) = t.cache.capacity)
    (hkey : t.cache.lookup key = some elem) (hnew : t.cache.lookup newKey = none) :
    (t.cache.Get key).2 = (elem.value, true) ∧
    elem ∈ ((t.cache.Get key).1.Put newKey value).lruList ∧
    (∃ victim ∈ t.cache.lruList, victim.key ≠ key ∧
      (∀ e ∈ t.cache.lruList, e.key ≠ key → e ≠ victim →
        t.lastUse victim.key < t.lastUse e.key) ∧
      (∀ e, e ∈ ((t.cache.Get key).1.Put newKey value).lruList ↔
        e = { key := newKey, value := value } ∨ (e ∈ t.cache.lruList ∧ e ≠ victim))) ∧
    ((∀ e ∈ t.cache.lruList, e ≠ elem → t.lastUse elem.key < t.lastUse e.key) →
      elem ∉ (t.cache.Put newKey value).lruList) := by
  obtain ⟨hmem, hk⟩ := lookup_some _ _ _ hkey
  have hnone := lookup_none _ _ hnew
  have hnd := ordered_nodup t.lastUse _ hinv.1
  have hget := Get_hit t.cache key elem hkey
  have hlen : (t.cache.lruList.erase elem).length = t.cache.lruList.length - 1 :=
    List.length_erase_of_mem hmem
  obtain ⟨init, victim, herase⟩ := concat_of_length_pos (t.cache.lruList.erase elem) (by omega)
  have hord : (init ++ [victim]).Pairwise (fun e e1 => t.lastUse e1.key < t.lastUse e.key) := by
    rw [← herase]
    exact hinv.1.sublist (List.erase_sublist _ _)
  obtain ⟨hiff, hlt⟩ := mem_init_iff t.lastUse init victim hord
  have hmemerase : ∀ e, e ∈ init ++ [victim] ↔ (e ≠ elem ∧ e ∈ t.cache.lruList) := by
    intro e
    rw [← herase]
    exact List.Nodup.mem_erase_iff hnd
  have hvictim := (hmemerase victim).1 (by simp)
  have hlist1 : (t.cache.Get key).1.lruList = (elem :: init) ++ [victim] := by
    rw [hget]
    show elem :: t.cache.lruList.erase elem = _
    rw [herase]
    rfl
  have hnew1 : (t.cache.Get key).1.lookup newKey = none := by
    apply lookup_eq_none
    intro e he
    rw [hlist1] at he
    rcases List.mem_cons.1 he with rfl | he
    · exact hnone _ hmem
    · exact hnone e ((hmemerase e).1 he).2
  have hput : ((t.cache.Get key).1.Put newKey value).lruList =
      { key := newKey, value := value } :: elem :: init := by
    refine Put_new_full_concat _ newKey value (elem :: init) victim hlist1 hnew1 ?_
    rw [hlist1, hget]
    show t.cache.capacity ≤ _
    have : (elem :: init ++ [victim]).length = t.cache.lruList.length := by
      have h2 : (init ++ [victim]).length = t.cache.lruList.length - 1 := by
        rw [← herase, hlen]
      simp only [List.cons_append, List.length_cons]
      omega
    rw [this]
    omega
  refine ⟨by rw [hget], by rw [hput]; simp, ⟨victim, hvictim.2, ?_, ?_, ?_⟩, ?_⟩
  · intro heq
    exact ordered_keys_ne t.lastUse _ hinv.1 victim hvictim.2 elem hmem hvictim.1
      (heq.trans hk.symm)
  · intro e he hek hev
    have hee : e ≠ elem := fun heq => hek (heq ▸ hk)
    exact hlt e ((hmemerase e).2 ⟨hee, he⟩) hev
  · intro e
    rw [hput, List.mem_cons, List.mem_cons, hiff e, hmemerase e]
    constructor
    · rintro (h | h | ⟨⟨h1, h2⟩, h3⟩)
      · exact Or.inl h
      · exact Or.inr ⟨h ▸ hmem, h ▸ (Ne.symm hvictim.1)⟩
      · exact Or.inr ⟨h2, h3⟩
    · rintro (h | ⟨h1, h2⟩)
      · exact Or.inl h
      · by_cases hee : e = elem
        · exact Or.inr (Or.inl hee)
        · exact Or.inr (Or.inr ⟨⟨hee, h1⟩, h2⟩)
  · intro hlru
    obtain ⟨v2, hv2, hmin, hmem2, -⟩ := evict_lru t newKey value hinv (by omega) hfull hnew
    have hv : v2 = elem := by
      by_contra hne
      have a := hmin elem hmem (Ne.symm hne)
      have b := hlru v2 hv2 hne
      omega
    intro hin
    rcases (hmem2 elem).1 hin with h | ⟨-, h⟩
    · have : elem.key = newKey := by rw [h]
      exact hnone elem hmem this
    · exact h hv.symm

/-- C10: in a full cache with at least 2 entries (reached from a new cache by any calls),
`Get` of a key in the cache hits and returns its value, and the next `Put` of a new key keeps
that key's entry: it evicts the entry of another key, the one least recently used among the
entries of the other keys, and keeps all the rest; whereas if the key was the least recently
used one, the same `Put` without the `Get` would have evicted it. -/
theorem C10_get_promotes (capacity : Int) (ops : List CacheOp) (key newKey value : GoString)
    (elem : cacheEntry) (hcap : 2 ≤ capacity)
    (hfull : ((((TimedCache.new capacity).run ops).cache.lruList.length : Nat) : Int) = capacity)
    (hkey : ((TimedCache.new capacity).run ops).cache.lookup key = some elem)
    (hnew : ((TimedCache.new capacity).run ops).cache.lookup newKey = none) :
    ((((TimedCache.new capacity).run ops).cache.Get key).2 = (elem.value, true)) ∧
    elem ∈ ((((TimedCache.new capacity).run ops).cache.Get key).1.Put newKey value).lruList ∧
    (∃ victim ∈ ((TimedCache.new capacity).run ops).cache.lruList, victim.key ≠ key ∧
      (∀ e ∈ ((TimedCache.new capacity).run ops).cache.lruList, e.key ≠ key → e ≠ victim →
        ((TimedCache.new capacity).run ops).lastUse victim.key <
          ((TimedCache.new capacity).run ops).lastUse e.key) ∧
      (∀ e, e ∈ ((((TimedCache.new capacity).run ops).cache.Get key).1.Put
          newKey value).lruList ↔
        e = { key := newKey, value := value } ∨
          (e ∈ ((TimedCache.new capacity).run ops).cache.lruList ∧ e ≠ victim))) ∧
    ((∀ e ∈ ((TimedCache.new capacity).run ops).cache.lruList, e ≠ elem →
        ((TimedCache.new capacity).run ops).lastUse elem.key <
          ((TimedCache.new capacity).run ops).lastUse e.key) →
      elem ∉ (((TimedCache.new capacity).run ops).cache.Put newKey value).lruList) := by
  have hinv := TimedInv_run ops _ (TimedInv_new capacity)
  have hc : ((TimedCache.new capacity).run ops).cache.capacity = capacity :=
    capacity_run ops _
  exact get_then_put _ key newKey value elem hinv (by rw [hc]; exact hcap)
    (by rw [hc]; exact hfull) hkey hnew

/-- C10 on a cache of capacity 2 after `Put(1)`, `Put(2)`: `Get(1)`, then `Put` of key 3. -/
theorem C10_get_promotes_witness :
    ((((TimedCache.new 2).run [CacheOp.put [1] [10], CacheOp.put [2] [20]]).cache.Get [1]).2 =
      ((({ key := [1], value := [10] } : cacheEntry)).value, true)) ∧
    ({ key := [1], value := [10] } : cacheEntry) ∈
      ((((TimedCache.new 2).run [CacheOp.put [1] [10], CacheOp.put [2] [20]]).cache.Get
        [1]).1.Put [3] [30]).lruList ∧
    (∃ victim ∈ ((TimedCache.new 2).run
        [CacheOp.put [1] [10], CacheOp.put [2] [20]]).cache.lruList,
      victim.key ≠ [1] ∧
      (∀ e ∈ ((TimedCache.new 2).run
          [CacheOp.put [1] [10], CacheOp.put [2] [20]]).cache.lruList,
        e.key ≠ [1] → e ≠ victim →
        ((TimedCache.new 2).run
          [CacheOp.put [1] [10], CacheOp.put [2] [20]]).lastUse victim.key <
        ((TimedCache.new 2).run
          [CacheOp.put [1] [10], CacheOp.put [2] [20]]).lastUse e.key) ∧
      (∀ e, e ∈ ((((TimedCache.new 2).run
          [CacheOp.put [1] [10], CacheOp.put [2] [20]]).cache.Get [1]).1.Put
            [3] [30]).lruList ↔
        e = { key := [3], value := [30] } ∨
          (e ∈ ((TimedCache.new 2).run
            [CacheOp.put [1] [10], CacheOp.put [2] [20]]).cache.lruList ∧ e ≠ victim))) ∧
    ((∀ e ∈ ((TimedCache.new 2).run
          [CacheOp.put [1] [10], CacheOp.put [2] [20]]).cache.lruList,
        e ≠ ({ key := [1], value := [10] } : cacheEntry) →
        ((TimedCache.new 2).run
          [CacheOp.put [1] [10], CacheOp.put [2] [20]]).lastUse
            ({ key := [1], value := [10] } : cacheEntry).key <
        ((TimedCache.new 2).run
          [CacheOp.put [1] [10], CacheOp.put [2] [20]]).lastUse e.key) →
      ({ key := [1], value := [10] } : cacheEntry) ∉
        (((TimedCache.new 2).run
          [CacheOp.put [1] [10], CacheOp.put [2] [20]]).cache.Put [3] [30]).lruList) :=
  C10_get_promotes 2 [CacheOp.put [1] [10], CacheOp.put [2] [20]] [1] [3] [30]
    { key := [1], value := [10] } (by decide) (by decide) (by decide) (by decide)

/-! ### The LRU cache: size, counters, read after write -/

theorem TimedCache_run_cache (ops : List CacheOp) :
    ∀ t : TimedCache, (t.run ops).cache = t.cache.run ops := by
  induction ops with
  | nil => intro t; rfl
  | cons op ops ih => intro t; exact ih (t.step op)

theorem LRUCache_run_ordered (capacity : Int) (ops : List CacheOp) :
    ((NewLRUCache capacity).run ops).lruList.Pairwise
      (fun e e1 => ((TimedCache.new capacity).run ops).lastUse e1.key <
        ((TimedCache.new capacity).run ops).lastUse e.key) := by
  have h := (TimedInv_run ops _ (TimedInv_new capacity)).1
  rw [TimedCache_run_cache] at h
  exact h

/-- The keys of the entries of a reachable cache are pairwise different. -/
theorem LRUCache_run_keys_nodup (capacity : Int) (ops : List CacheOp) :
    (((NewLRUCache capacity).run ops).lruList.map cacheEntry.key).Nodup := by
  have h := LRUCache_run_ordered capacity ops
  rw [List.Nodup, List.pairwise_map]
  exact h.imp (fun {a b} hab heq => by rw [heq] at hab; exact Nat.lt_irrefl _ hab)

theorem step_length_le (c : LRUCache) (op : CacheOp) (hcap : 0 ≤ c.capacity)
    (h : (c.lruList.length : Int) ≤ c.capacity) :
    (c.step op).capacity = c.capacity ∧ ((c.step op).lruList.length : Int) ≤ c.capacity := by
  cases op with
  | get key =>
    cases hl : c.lookup key with
    | none => simp only [LRUCache.step, Get_miss _ _ hl]; exact ⟨trivial, h⟩
    | some elem =>
      obtain ⟨hmem, -⟩ := lookup_some c key elem hl
      simp only [LRUCache.step, Get_hit _ _ _ hl]
      refine ⟨trivial, ?_⟩
      show (((elem :: c.lruList.erase elem).length : Nat) : Int) ≤ c.capacity
      have hpos : 0 < c.lruList.length := List.length_pos_of_mem hmem
      rw [List.length_cons, List.length_erase_of_mem hmem]
      omega
  | put key value =>
    cases hl : c.lookup key with
    | some elem =>
      obtain ⟨hmem, -⟩ := lookup_some c key elem hl
      simp only [LRUCache.step, Put_present _ _ _ _ hl]
      refine ⟨trivial, ?_⟩
      show (((_ :: c.lruList.erase elem).length : Nat) : Int) ≤ c.capacity
      have hpos : 0 < c.lruList.length := List.length_pos_of_mem hmem
      rw [List.length_cons, List.length_erase_of_mem hmem]
      omega
    | none =>
      by_cases hfull : c.capacity ≤ (c.lruList.length : Int)
      · simp only [LRUCache.step, Put_new_full _ _ _ hl hfull]
        refine ⟨trivial, ?_⟩
        show (((_ :: c.lruList).dropLast.length : Nat) : Int) ≤ c.capacity
        rw [List.length_dropLast, List.length_cons]
        omega
      · simp only [LRUCache.step, Put_new_room _ _ _ hl (by omega)]
        refine ⟨trivial, ?_⟩
        show (((_ :: c.lruList).length : Nat) : Int) ≤ c.capacity
        rw [List.length_cons]
        push_cast
        omega
  | clear =>
    exact ⟨rfl, by simpa [LRUCache.step, LRUCache.Clear] using hcap⟩

theorem run_length_le (ops : List CacheOp) :
    ∀ c : LRUCache, 0 ≤ c.capacity → (c.lruList.length : Int) ≤ c.capacity →
      (c.run ops).capacity = c.capacity ∧ ((c.run ops).lruList.length : Int) ≤ c.capacity := by
  induction ops with
  | nil => intro c _ h; exact ⟨rfl, h⟩
  | cons op ops ih =>
    intro c hcap h
    obtain ⟨h1, h2⟩ := step_length_le c op hcap h
    obtain ⟨h3, h4⟩ := ih (c.step op) (by rw [h1]; exact hcap) (by rw [h1]; exact h2)
    exact ⟨h3.trans h1, by rw [h1] at h4; exact h4⟩

/-- C12: for every capacity `c >= 0` and every sequence of `Get`, `Put` and `Clear` calls on
a new cache, `Size()` is the number of distinct keys stored (the keys of the entries are
pairwise different) and does not exceed `c`; with capacity 0 the cache is empty after every
further `Put` and every further `Get` misses. -/
theorem C12_size_bounded (capacity : Int) (ops : List CacheOp) (hcap : 0 ≤ capacity) :
    ((NewLRUCache capacity).run ops).Size = (((NewLRUCache capacity).run ops).storedKeys : Int) ∧
    (((NewLRUCache capacity).run ops).lruList.map cacheEntry.key).Nodup ∧
    ((NewLRUCache capacity).run ops).Size ≤ capacity ∧
    (capacity = 0 →
      ((NewLRUCache capacity).run ops).Size = 0 ∧
      (∀ key value, (((NewLRUCache capacity).run ops).Put key value).Size = 0) ∧
      (∀ key, (((NewLRUCache capacity).run ops).Get key).2 = ([], false))) := by
  have hnd := LRUCache_run_keys_nodup capacity ops
  obtain ⟨hc, hlen⟩ := run_length_le ops (NewLRUCache capacity) hcap (by simpa [NewLRUCache] using hcap)
  have hc2 : ((NewLRUCache capacity).run ops).capacity = capacity := hc
  have hlen2 : (((NewLRUCache capacity).run ops).lruList.length : Int) ≤ capacity := hlen
  refine ⟨?_, hnd, hlen2, ?_⟩
  · unfold LRUCache.Size LRUCache.storedKeys
    rw [List.toFinset_card_of_nodup hnd, List.length_map]
  · intro h0
    have hnil : ((NewLRUCache capacity).run ops).lruList = [] := by
      apply List.eq_nil_of_length_eq_zero
      omega
    refine ⟨by unfold LRUCache.Size; omega, fun key value => ?_, fun key => ?_⟩
    · have hl : ((NewLRUCache capacity).run ops).lookup key = none :=
        lookup_eq_none _ key (by rw [hnil]; intro e he; cases he)
      rw [Put_new_full _ key value hl (by rw [hc2, h0]; omega)]
      unfold LRUCache.Size
      simp [hnil]
    · have hl : ((NewLRUCache capacity).run ops).lookup key = none :=
        lookup_eq_none _ key (by rw [hnil]; intro e he; cases he)
      rw [Get_miss _ key hl]

/-- C12 on a cache of capacity 0 after `Put(1)`, `Get(1)` and `Put(2)`. -/
theorem C12_size_bounded_witness :
    ((NewLRUCache 0).run [CacheOp.put [1] [10], CacheOp.get [1], CacheOp.put [2] [20]]).Size = 0 ∧
    (∀ key value,
      (((NewLRUCache 0).run [CacheOp.put [1] [10], CacheOp.get [1],
        CacheOp.put [2] [20]]).Put key value).Size = 0) ∧
    (∀ key,
      (((NewLRUCache 0).run [CacheOp.put [1] [10], CacheOp.get [1],
        CacheOp.put [2] [20]]).Get key).2 = ([], false)) :=
  (C12_size_bounded 0 [CacheOp.put [1] [10], CacheOp.get [1], CacheOp.put [2] [20]]
    (by decide)).2.2.2 rfl

/-- C13 (as amended): `Get` never decreases the hit and miss counters (it adds 1 to exactly
one of them), `Put` leaves both unchanged, and `HitRate` and `Size` only read the cache;
`Clear` sets both counters to 0. -/
theorem C13_counters :
    (∀ (c : LRUCache) (key : GoString),
      c.hits ≤ (c.Get key).1.hits ∧ c.misses ≤ (c.Get key).1.misses ∧
      (c.Get key).1.hits + (c.Get key).1.misses = c.hits + c.misses + 1) ∧
    (∀ (c : LRUCache) (key value : GoString),
      (c.Put key value).hits = c.hits ∧ (c.Put key value).misses = c.misses) ∧
    (∀ c : LRUCache, c.Clear.hits = 0 ∧ c.Clear.misses = 0) := by
  refine ⟨fun c key => ?_, fun c key value => ?_, fun c => ⟨rfl, rfl⟩⟩
  · cases hl : c.lookup key with
    | none =>
      rw [Get_miss c key hl]
      refine ⟨le_refl _, ?_, ?_⟩
      · show c.misses ≤ c.misses + 1
        omega
      · show c.hits + (c.misses + 1) = c.hits + c.misses + 1
        omega
    | some elem =>
      rw [Get_hit c key elem hl]
      refine ⟨?_, le_refl _, ?_⟩
      · show c.hits ≤ c.hits + 1
        omega
      · show c.hits + 1 + c.misses = c.hits + c.misses + 1
        omega
  · cases hl : c.lookup key with
    | some elem => rw [Put_present c key value elem hl]; exact ⟨rfl, rfl⟩
    | none =>
      by_cases hfull : c.capacity ≤ (c.lruList.length : Int)
      · rw [Put_new_full c key value hl hfull]; exact ⟨rfl, rfl⟩
      · rw [Put_new_room c key value hl (by omega)]; exact ⟨rfl, rfl⟩

/-- C13 fails as stated: after `Put(1)` and a `Get(1)` that hits the hit counter is 1, and
`Clear` leaves it at 0. -/
theorem C13_counterexample :
    ((NewLRUCache 2).run [CacheOp.put [1] [10], CacheOp.get [1]]).hits = 1 ∧
    ((NewLRUCache 2).run [CacheOp.put [1] [10], CacheOp.get [1]]).Clear.hits = 0 ∧
    ((NewLRUCache 2).run [CacheOp.put [1] [10], CacheOp.get [1]]).Clear.hits <
      ((NewLRUCache 2).run [CacheOp.put [1] [10], CacheOp.get [1]]).hits := by
  decide

theorem lookup_front (c : LRUCache) (e : cacheEntry) (rest : List cacheEntry)
    (h : c.lruList = e :: rest) : c.lookup e.key = some e := by
  unfold LRUCache.lookup
  rw [h]
  simp

/-- C14: for every cache with capacity `>= 1`, in every state, for every key and value, `Put`
followed at once by `Get` of the same key returns the value and `true`; when the key was
cached before, with whatever value, the number of entries does not change and the entry of
the key now holds the new value. -/
theorem C14_put_then_get (c : LRUCache) (key value : GoString) (hcap : 1 ≤ c.capacity) :
    ((c.Put key value).Get key).2 = (value, true) ∧
    (c.Put key value).lookup key = some { key := key, value := value } ∧
    (∀ elem, c.lookup key = some elem →
      (c.Put key value).lruList.length = c.lruList.length) := by
  have hfront : ∃ rest, (c.Put key value).lruList = { key := key, value := value } :: rest := by
    cases hl : c.lookup key with
    | some elem =>
      obtain ⟨-, hk⟩ := lookup_some c key elem hl
      rw [Put_present c key value elem hl, hk]
      exact ⟨_, rfl⟩
    | none =>
      by_cases hfull : c.capacity ≤ (c.lruList.length : Int)
      · rw [Put_new_full c key value hl hfull]
        have hne : c.lruList ≠ [] := by
          intro h0
          rw [h0] at hfull
          simp at hfull
          omega
        exact ⟨_, List.dropLast_cons_of_ne_nil hne⟩
      · rw [Put_new_room c key value hl (by omega)]
        exact ⟨_, rfl⟩
  obtain ⟨rest, hrest⟩ := hfront
  have hlook := lookup_front (c.Put key value) _ rest hrest
  refine ⟨by rw [Get_hit _ key _ hlook], hlook, fun elem hl => ?_⟩
  obtain ⟨hmem, -⟩ := lookup_some c key elem hl
  rw [Put_present c key value elem hl]
  show (_ :: c.lruList.erase elem).length = _
  have hpos : 0 < c.lruList.length := List.length_pos_of_mem hmem
  rw [List.length_cons, List.length_erase_of_mem hmem]
  omega

/-- C14 on a cache of capacity 1 that holds key 1 with value 10: `Put(1, 11)`, `Get(1)`. -/
theorem C14_put_then_get_witness :
    (((LRUCache.mk 1 [{ key := [1], value := [10] }] 0 0).Put [1] [11]).Get [1]).2 =
      ([11], true) :=
  (C14_put_then_get (LRUCache.mk 1 [{ key := [1], value := [10] }] 0 0) [1] [11]
    (by decide)).1

/-! ### The identifier pool: reachable states and interleaved runs -/

/-- The three critical sections of `loadMore`, run without interruption, are `loadMore`. -/
theorem loadMore_phases (l : LinkedURL) :
    l.loadMore =
      if l.loadMoreEnter.2 then
        match l.loadMoreEnter.1.loader.LoadBatch l.loadMoreEnter.1.batchSize with
        | Outcome.panic => none
        | Outcome.err e => some (l.loadMoreEnter.1.loadMoreFail, some e)
        | Outcome.ok (urls, loader) =>
          some (LinkedURL.loadMoreAppend { l.loadMoreEnter.1 with loader := loader } urls, none)
      else some (l.loadMoreEnter.1, none) := by
  unfold LinkedURL.loadMore LinkedURL.loadMoreEnter
  cases hl : l.loading with
  | true => simp
  | false =>
    simp only [Bool.false_eq_true, if_false, if_true]
    rfl

theorem nodesFrom_of_Chain (nodes : Nat → URLNode) (addrs : List Nat) :
    ∀ (fuel : Nat) (p : Option Nat), Chain nodes p addrs → addrs.length ≤ fuel →
      nodesFrom nodes fuel p = addrs := by
  induction addrs with
  | nil =>
    intro fuel p h _
    have hp : p = none := h
    subst hp
    cases fuel <;> rfl
  | cons a addrs ih =>
    intro fuel p h hlen
    have hp : p = some a := h.1
    subst hp
    cases fuel with
    | zero => simp at hlen
    | succ fuel =>
      show a :: nodesFrom nodes fuel (nodes a).Next = a :: addrs
      rw [ih fuel _ h.2 (by simpa using hlen)]

theorem length_le_of_nodup_lt (addrs : List Nat) (n : Nat) (hnd : addrs.Nodup)
    (hlt : ∀ a ∈ addrs, a < n) : addrs.length ≤ n := by
  rw [← List.toFinset_card_of_nodup hnd, ← Finset.card_range n]
  apply Finset.card_le_card
  intro a ha
  exact Finset.mem_range.2 (hlt a (List.mem_toFinset.1 ha))

/-- The nodes reachable from `head` are the nodes of the representation invariant. -/
theorem reachable_of_PoolInv (l : LinkedURL) (addrs : List Nat) (h : PoolInv l addrs) :
    l.reachable = addrs ∧ l.queue = queued l addrs := by
  have hr : l.reachable = addrs :=
    nodesFrom_of_Chain l.nodes addrs l.fresh l.head h.chain
      (length_le_of_nodup_lt addrs l.fresh h.nodup h.bound)
  exact ⟨hr, by unfold LinkedURL.queue queued; rw [hr]⟩

theorem Chain_last (nodes : Nat → URLNode) (addrs : List Nat) :
    ∀ (p : Option Nat) (t : Nat), Chain nodes p addrs → addrs.getLast? = some t →
      (nodes t).Next = none := by
  induction addrs with
  | nil => intro p t _ h; cases h
  | cons a addrs ih =>
    intro p t h hl
    cases addrs with
    | nil =>
      simp only [List.getLast?_singleton, Option.some.injEq] at hl
      subst hl
      exact h.2
    | cons b bs =>
      rw [List.getLast?_cons_cons] at hl
      exact ih _ t h.2 hl

theorem inFlight_append (l1 l2 : List RefillTask) :
    inFlight (l1 ++ l2) = inFlight l1 + inFlight l2 := by
  simp [inFlight, List.filter_append]

theorem tasks_split (tasks : List RefillTask) (i : Nat) (t : RefillTask)
    (h : tasks[i]? = some t) :
    tasks = tasks.take i ++ t :: tasks.drop (i + 1) ∧
    (∀ t1, tasks.set i t1 = tasks.take i ++ t1 :: tasks.drop (i + 1)) ∧
    tasks.eraseIdx i = tasks.take i ++ tasks.drop (i + 1) := by
  obtain ⟨hlt, hget⟩ := List.getElem?_eq_some.1 h
  refine ⟨?_, fun t1 => ?_, List.eraseIdx_eq_take_drop_succ _ _⟩
  · rw [← hget, ← List.drop_eq_getElem_cons hlt, List.take_append_drop]
  · rw [List.set_eq_take_append_cons_drop, if_pos hlt]

theorem inFlight_set_erase (tasks : List RefillTask) (i : Nat) (t : RefillTask)
    (h : tasks[i]? = some t) :
    (∀ t1, inFlight (tasks.set i t1) + inFlight [t] = inFlight tasks + inFlight [t1]) ∧
    inFlight (tasks.eraseIdx i) + inFlight [t] = inFlight tasks := by
  obtain ⟨h1, h2, h3⟩ := tasks_split tasks i t h
  constructor
  · intro t1
    rw [h2 t1]
    conv_rhs => rw [h1]
    rw [inFlight_append, inFlight_append,
      show t1 :: tasks.drop (i + 1) = [t1] ++ tasks.drop (i + 1) from rfl,
      show t :: tasks.drop (i + 1) = [t] ++ tasks.drop (i + 1) from rfl,
      inFlight_append, inFlight_append]
    omega
  · rw [h3]
    conv_rhs => rw [h1]
    rw [inFlight_append, inFlight_append,
      show t :: tasks.drop (i + 1) = [t] ++ tasks.drop (i + 1) from rfl, inFlight_append]
    omega

theorem Acquire_loading (l : LinkedURL) : l.Acquire.1.loading = l.loading := by
  unfold LinkedURL.Acquire
  cases l.head <;> rfl

theorem Acquire_PoolInv (l : LinkedURL) (addrs : List Nat) (h : PoolInv l addrs) :
    ∃ addrs1, PoolInv l.Acquire.1 addrs1 := by
  cases addrs with
  | nil => rw [Acquire_nil l h]; exact ⟨[], h⟩
  | cons a addrs => exact ⟨addrs, (Acquire_cons l a addrs h).2.1⟩

/-- Every step of an interleaved run keeps the invariant. -/
theorem SysInv_step (s s1 : PoolSys) (ev : SysEvent) (h : SysInv s) (hs : s.step ev = some s1) :
    SysInv s1 := by
  obtain ⟨⟨addrs, hP⟩, hF⟩ := h
  cases ev with
  | acquire =>
    simp only [PoolSys.step, Option.some.injEq] at hs
    subst hs
    refine ⟨Acquire_PoolInv s.pool addrs hP, ?_⟩
    show inFlight (if s.pool.Acquire.2.2 then s.tasks ++ [RefillTask.started] else s.tasks) = _
    rw [Acquire_loading]
    split
    · rw [inFlight_append, hF]
      rfl
    · exact hF
  | init =>
    simp only [PoolSys.step, Option.some.injEq] at hs
    subst hs
    refine ⟨⟨addrs, hP⟩, ?_⟩
    show inFlight (s.tasks ++ [RefillTask.started]) = _
    rw [inFlight_append, hF]
    rfl
  | advance i =>
    unfold PoolSys.step at hs
    cases ht : s.tasks[i]? with
    | none =>
      simp only [ht, Option.some.injEq] at hs
      subst hs
      exact ⟨⟨addrs, hP⟩, hF⟩
    | some t =>
      obtain ⟨hset, herase⟩ := inFlight_set_erase s.tasks i t ht
      cases t with
      | started =>
        simp only [ht] at hs
        cases hl : s.pool.loading with
        | true =>
          simp only [LinkedURL.loadMoreEnter, hl, if_true, Bool.false_eq_true, if_false,
            Option.some.injEq] at hs
          subst hs
          refine ⟨⟨addrs, hP⟩, ?_⟩
          show inFlight (s.tasks.eraseIdx i) = if s.pool.loading then 1 else 0
          rw [← hF]
          have : inFlight [RefillTask.started] = 0 := rfl
          omega
        | false =>
          simp only [LinkedURL.loadMoreEnter, hl, Bool.false_eq_true, if_false, if_true,
            Option.some.injEq] at hs
          subst hs
          refine ⟨⟨addrs, PoolInv_congr s.pool _ addrs hP rfl rfl rfl rfl rfl⟩, ?_⟩
          show inFlight (s.tasks.set i RefillTask.loading) = 1
          have h1 := hset RefillTask.loading
          rw [hl] at hF
          have : inFlight [RefillTask.started] = 0 := rfl
          have : inFlight [RefillTask.loading] = 1 := rfl
          simp only [Bool.false_eq_true, if_false] at hF
          omega
      | loading =>
        simp only [ht] at hs
        cases hL : s.pool.loader.LoadBatch s.pool.batchSize with
        | panic => simp [hL] at hs
        | err e =>
          simp only [hL, Option.some.injEq] at hs
          subst hs
          refine ⟨⟨addrs, hP⟩, ?_⟩
          show inFlight (s.tasks.set i (RefillTask.failed e)) = if s.pool.loading then 1 else 0
          have h1 := hset (RefillTask.failed e)
          have : inFlight [RefillTask.failed e] = 1 := rfl
          have : inFlight [RefillTask.loading] = 1 := rfl
          omega
        | ok r =>
          obtain ⟨urls, ld⟩ := r
          simp only [hL, Option.some.injEq] at hs
          subst hs
          refine ⟨⟨addrs, PoolInv_congr s.pool _ addrs hP rfl rfl rfl rfl rfl⟩, ?_⟩
          show inFlight (s.tasks.set i (RefillTask.loaded urls)) = if s.pool.loading then 1 else 0
          have h1 := hset (RefillTask.loaded urls)
          have : inFlight [RefillTask.loaded urls] = 1 := rfl
          have : inFlight [RefillTask.loading] = 1 := rfl
          omega
      | loaded urls =>
        simp only [ht, Option.some.injEq] at hs
        subst hs
        obtain ⟨addrs2, g1, -⟩ := appendAll_inv urls s.pool addrs hP
        refine ⟨⟨addrs2, PoolInv_congr _ _ addrs2 g1 rfl rfl rfl rfl rfl⟩, ?_⟩
        show inFlight (s.tasks.eraseIdx i) = 0
        have : inFlight [RefillTask.loaded urls] = 1 := rfl
        have hle : inFlight s.tasks ≤ 1 := by rw [hF]; split <;> omega
        omega
      | failed e =>
        simp only [ht, Option.some.injEq] at hs
        subst hs
        refine ⟨⟨addrs, PoolInv_congr s.pool _ addrs hP rfl rfl rfl rfl rfl⟩, ?_⟩
        show inFlight (s.tasks.eraseIdx i) = 0
        have : inFlight [RefillTask.failed e] = 1 := rfl
        have hle : inFlight s.tasks ≤ 1 := by rw [hF]; split <;> omega
        omega

theorem SysInv_run (events : List SysEvent) : ∀ s : PoolSys, SysInv s → SysInv (s.run events) := by
  induction events with
  | nil => intro s h; exact h
  | cons ev events ih =>
    intro s h
    unfold PoolSys.run
    cases hs : s.step ev with
    | none => exact h
    | some s1 => exact ih s1 (SysInv_step s s1 ev h hs)

theorem SysInv_new (loader : FileLoader) (threshold batchSize : Int) :
    SysInv (PoolSys.new loader threshold batchSize) :=
  ⟨⟨[], ⟨rfl, List.nodup_nil, (fun a ha => by cases ha), rfl, rfl⟩⟩, rfl⟩

/-- The pool of every state of an interleaved run is well formed. -/
theorem run_PoolInv (loader : FileLoader) (threshold batchSize : Int) (events : List SysEvent) :
    ∃ addrs, PoolInv ((PoolSys.new loader threshold batchSize).run events).pool addrs :=
  (SysInv_run events _ (SysInv_new loader threshold batchSize)).1

/-- C15: `Acquire` on a pool whose head is nil returns the empty string and the error
"no URLs available", starts no refill and leaves the pool as it is; so from such a pool with
no call of `loadMore` in progress, any number of `Acquire` calls fail, return nothing and
leave the pool empty with no refill started. -/
theorem C15_acquire_empty (l : LinkedURL) (h : l.head = none) :
    l.Acquire = (l, Outcome.err PoolError.noURLsAvailable, false) ∧
    l.acquireReturn = ([], some PoolError.noURLsAvailable) ∧
    (∀ n : Nat, (fun l1 : LinkedURL => l1.Acquire.1)^[n] l = l) ∧
    (∀ n : Nat, poolRun l (List.replicate n PoolEvent.acquire) = []) ∧
    (∀ n : Nat, (PoolSys.mk l []).run (List.replicate n SysEvent.acquire) = PoolSys.mk l []) := by
  have hA : l.Acquire = (l, Outcome.err PoolError.noURLsAvailable, false) := by
    unfold LinkedURL.Acquire
    rw [h]
  refine ⟨hA, ?_, ?_, ?_, ?_⟩
  · unfold LinkedURL.acquireReturn
    rw [hA]
  · intro n
    exact Function.iterate_fixed (by rw [hA]) n
  · intro n
    induction n with
    | zero => rfl
    | succ n ih =>
      rw [List.replicate_succ]
      simp only [poolRun, hA]
      exact ih
  · intro n
    induction n with
    | zero => rfl
    | succ n ih =>
      rw [List.replicate_succ]
      have hstep : (PoolSys.mk l []).step SysEvent.acquire = some (PoolSys.mk l []) := by
        simp [PoolSys.step, hA]
      simp only [PoolSys.run, hstep]
      exact ih

/-- C15 on a new pool. -/
theorem C15_acquire_empty_witness :
    (NewLinkedURL { urlFile := [], offsetFile := none } 1 1).acquireReturn =
      ([], some PoolError.noURLsAvailable) :=
  (C15_acquire_empty (NewLinkedURL { urlFile := [], offsetFile := none } 1 1) rfl).2.1

/-- C18: on every pool with a head node, `Acquire` starts a refill exactly when the count
after the withdrawal is below the threshold and `loading` is false; the identifier it
returns and the head, tail, count and nodes it leaves are those of the withdrawal alone,
the same whatever the threshold and the `loading` flag are. -/
theorem C18_acquire_schedules (l : LinkedURL) (a : Nat) (h : l.head = some a) :
    (l.Acquire.2.2 = true ↔ (l.Acquire.1.count < l.threshold ∧ l.loading = false)) ∧
    l.Acquire.1.count = l.count - 1 ∧
    l.Acquire.2.1 = Outcome.ok (l.nodes a).Code ∧
    l.Acquire.1.head = (l.nodes a).Next ∧
    l.Acquire.1.tail = (if (l.nodes a).Next = none then none else l.tail) ∧
    l.Acquire.1.loading = l.loading ∧
    (∀ (threshold : Int) (loading : Bool),
      ({ l with threshold := threshold, loading := loading } : LinkedURL).Acquire.2.1 =
        l.Acquire.2.1 ∧
      ({ l with threshold := threshold, loading := loading } : LinkedURL).Acquire.1.head =
        l.Acquire.1.head ∧
      ({ l with threshold := threshold, loading := loading } : LinkedURL).Acquire.1.tail =
        l.Acquire.1.tail ∧
      ({ l with threshold := threshold, loading := loading } : LinkedURL).Acquire.1.count =
        l.Acquire.1.count ∧
      ({ l with threshold := threshold, loading := loading } : LinkedURL).Acquire.1.nodes =
        l.Acquire.1.nodes) := by
  have hA : ∀ l1 : LinkedURL, l1.head = some a → l1.Acquire =
      ({ l1 with nodes := Function.update l1.nodes a { Code := (l1.nodes a).Code, Next := none },
                 head := (l1.nodes a).Next,
                 tail := if (l1.nodes a).Next = none then none else l1.tail,
                 count := l1.count - 1 },
        Outcome.ok (l1.nodes a).Code, decide (l1.count - 1 < l1.threshold) && !l1.loading) := by
    intro l1 h1
    unfold LinkedURL.Acquire
    rw [h1]
  rw [hA l h]
  refine ⟨?_, rfl, rfl, rfl, rfl, rfl, fun threshold loading => ?_⟩
  · show (decide (l.count - 1 < l.threshold) && !l.loading) = true ↔
      (l.count - 1 < l.threshold ∧ l.loading = false)
    cases l.loading <;> simp
  · rw [hA { l with threshold := threshold, loading := loading } h]
    exact ⟨rfl, rfl, rfl, rfl, rfl⟩

/-- C18 on a pool that holds one identifier, with threshold 1. -/
theorem C18_acquire_schedules_witness :
    ((NewLinkedURL { urlFile := [], offsetFile := none } 1 1).appendNode [65]).Acquire.2.2 =
        true ↔
      (((NewLinkedURL { urlFile := [], offsetFile := none } 1 1).appendNode [65]).Acquire.1.count
          < ((NewLinkedURL { urlFile := [], offsetFile := none } 1 1).appendNode [65]).threshold ∧
        ((NewLinkedURL { urlFile := [], offsetFile := none } 1 1).appendNode [65]).loading =
          false) :=
  (C18_acquire_schedules
    ((NewLinkedURL { urlFile := [], offsetFile := none } 1 1).appendNode [65]) 0 rfl).1

/-- C17: in every state of every interleaved run of `Init`, `Acquire` and `loadMore` calls
on a new pool, `count` is the number of nodes reachable from `head`; `tail` is nil exactly
when `head` is nil; and a non-nil `tail` is the last node reachable from `head`, whose
`Next` is nil. -/
theorem C17_pool_invariants (loader : FileLoader) (threshold batchSize : Int)
    (events : List SysEvent) :
    Chain ((PoolSys.new loader threshold batchSize).run events).pool.nodes
      ((PoolSys.new loader threshold batchSize).run events).pool.head
      ((PoolSys.new loader threshold batchSize).run events).pool.reachable ∧
    ((PoolSys.new loader threshold batchSize).run events).pool.count =
      (((PoolSys.new loader threshold batchSize).run events).pool.reachable.length : Int) ∧
    (((PoolSys.new loader threshold batchSize).run events).pool.tail = none ↔
      ((PoolSys.new loader threshold batchSize).run events).pool.head = none) ∧
    ((PoolSys.new loader threshold batchSize).run events).pool.tail =
      ((PoolSys.new loader threshold batchSize).run events).pool.reachable.getLast? ∧
    (∀ t, ((PoolSys.new loader threshold batchSize).run events).pool.tail = some t →
      (((PoolSys.new loader threshold batchSize).run events).pool.nodes t).Next = none) := by
  obtain ⟨addrs, hP⟩ := run_PoolInv loader threshold batchSize events
  obtain ⟨hr, -⟩ := reachable_of_PoolInv _ addrs hP
  rw [hr]
  refine ⟨hP.chain, hP.count, ?_, hP.tail, fun t ht => ?_⟩
  · constructor
    · intro ht
      have hnil : addrs = [] := by
        have := hP.tail
        rw [ht] at this
        exact List.getLast?_eq_none_iff.1 this.symm
      have := hP.chain
      rw [hnil] at this
      exact this
    · intro hh
      have := hP.chain
      rw [hh] at this
      rw [hP.tail, Chain_head_nil _ _ this]
      rfl
  · rw [hP.tail] at ht
    exact Chain_last _ addrs _ t hP.chain ht

theorem poolRun_acquire_cons (l : LinkedURL) (a : Nat) (addrs : List Nat)
    (h : PoolInv l (a :: addrs)) (events : List PoolEvent) :
    poolRun l (PoolEvent.acquire :: events) = (l.nodes a).Code :: poolRun l.Acquire.1 events := by
  have a1 := (Acquire_cons l a addrs h).1
  rcases hA : l.Acquire with ⟨l1, r, nl⟩
  rw [hA] at a1
  simp only at a1
  simp only [poolRun, hA, a1]

/-- Successive `Acquire` calls on a well-formed pool take the queued identifiers from the
head, one at a time. -/
theorem acquire_iterate (addrs : List Nat) :
    ∀ (l : LinkedURL), PoolInv l addrs → ∀ k, k ≤ addrs.length →
      PoolInv ((fun l1 : LinkedURL => l1.Acquire.1)^[k] l) (addrs.drop k) ∧
      queued ((fun l1 : LinkedURL => l1.Acquire.1)^[k] l) (addrs.drop k) =
        (queued l addrs).drop k ∧
      ((fun l1 : LinkedURL => l1.Acquire.1)^[k] l).count = l.count - (k : Int) ∧
      poolRun l (List.replicate k PoolEvent.acquire) = (queued l addrs).take k := by
  induction addrs with
  | nil =>
    intro l h k hk
    have hk0 : k = 0 := by simpa using hk
    subst hk0
    exact ⟨h, rfl, by simp, rfl⟩
  | cons a addrs ih =>
    intro l h k hk
    cases k with
    | zero => exact ⟨h, rfl, by simp, rfl⟩
    | succ k =>
      obtain ⟨-, a2, a3, -, -, -, -, a8, -, -⟩ := Acquire_cons l a addrs h
      obtain ⟨i1, i2, i3, i4⟩ := ih l.Acquire.1 a2 k (by simpa using hk)
      rw [Function.iterate_succ_apply]
      refine ⟨i1, ?_, ?_, ?_⟩
      · show queued _ (List.drop k addrs) = List.drop k (queued l addrs)
        rw [i2, a3]
      · rw [i3, a8]
        push_cast
        omega
      · rw [List.replicate_succ, poolRun_acquire_cons l a addrs h, i4, a3]
        rfl

/-- No step changes the batch size or the threshold of the pool. -/
theorem step_params (s s1 : PoolSys) (ev : SysEvent) (hs : s.step ev = some s1) :
    s1.pool.batchSize = s.pool.batchSize ∧ s1.pool.threshold = s.pool.threshold := by
  have hA : s.pool.Acquire.1.batchSize = s.pool.batchSize ∧
      s.pool.Acquire.1.threshold = s.pool.threshold := by
    unfold LinkedURL.Acquire
    cases s.pool.head <;> exact ⟨rfl, rfl⟩
  have hApp : ∀ (urls : List GoString) (l : LinkedURL),
      (urls.foldl LinkedURL.appendNode l).batchSize = l.batchSize ∧
      (urls.foldl LinkedURL.appendNode l).threshold = l.threshold := by
    intro urls
    induction urls with
    | nil => intro l; exact ⟨rfl, rfl⟩
    | cons u urls ih =>
      intro l
      rw [List.foldl_cons]
      have h1 : (l.appendNode u).batchSize = l.batchSize ∧
          (l.appendNode u).threshold = l.threshold := by
        unfold LinkedURL.appendNode
        cases l.tail <;> exact ⟨rfl, rfl⟩
      exact ⟨(ih _).1.trans h1.1, (ih _).2.trans h1.2⟩
  cases ev with
  | acquire =>
    simp only [PoolSys.step, Option.some.injEq] at hs
    subst hs
    exact hA
  | init =>
    simp only [PoolSys.step, Option.some.injEq] at hs
    subst hs
    exact ⟨rfl, rfl⟩
  | advance i =>
    unfold PoolSys.step at hs
    cases ht : s.tasks[i]? with
    | none =>
      simp only [ht, Option.some.injEq] at hs
      subst hs
      exact ⟨rfl, rfl⟩
    | some t =>
      cases t with
      | started =>
        simp only [ht] at hs
        cases hl : s.pool.loading <;>
          simp only [LinkedURL.loadMoreEnter, hl, if_true, Bool.false_eq_true, if_false,
            Option.some.injEq] at hs <;> subst hs <;> exact ⟨rfl, rfl⟩
      | loading =>
        simp only [ht] at hs
        cases hL : s.pool.loader.LoadBatch s.pool.batchSize with
        | panic => simp [hL] at hs
        | err e =>
          simp only [hL, Option.some.injEq] at hs
          subst hs
          exact ⟨rfl, rfl⟩
        | ok r =>
          simp only [hL, Option.some.injEq] at hs
          subst hs
          exact ⟨rfl, rfl⟩
      | loaded urls =>
        simp only [ht, Option.some.injEq] at hs
        subst hs
        exact hApp urls s.pool
      | failed e =>
        simp only [ht, Option.some.injEq] at hs
        subst hs
        exact ⟨rfl, rfl⟩

theorem params_run (events : List SysEvent) : ∀ s : PoolSys,
    (s.run events).pool.batchSize = s.pool.batchSize ∧
    (s.run events).pool.threshold = s.pool.threshold := by
  induction events with
  | nil => intro s; exact ⟨rfl, rfl⟩
  | cons ev events ih =>
    intro s
    unfold PoolSys.run
    cases hs : s.step ev with
    | none => exact ⟨rfl, rfl⟩
    | some s1 =>
      obtain ⟨h1, h2⟩ := step_params s s1 ev hs
      exact ⟨(ih s1).1.trans h1, (ih s1).2.trans h2⟩

theorem batchSize_run (loader : FileLoader) (threshold batchSize : Int)
    (events : List SysEvent) :
    ((PoolSys.new loader threshold batchSize).run events).pool.batchSize = batchSize :=
  (params_run events _).1

/-- A successful `LoadBatch` returns at most `count` records exactly when `count` is not
negative. -/
theorem LoadBatch_length_le (f f1 : FileLoader) (count : Int) (urls : List GoString)
    (h : f.LoadBatch count = Outcome.ok (urls, f1)) :
    (urls.length : Int) ≤ count ↔ 0 ≤ count := by
  obtain ⟨hm, hu, -, -⟩ := LoadBatch_ok f f1 count urls h
  have hW : 0 ≤ wrap64 (count * urlLength) := ((canMake_spec _ _ _).1 hm).1
  constructor
  · intro hle
    by_contra hneg
    have : (0 : Int) ≤ (urls.length : Int) := Int.ofNat_nonneg _
    omega
  · intro h0
    have hw : wrap64 (count * urlLength) ≤ count * 6 := by
      unfold urlLength
      exact wrap64_le_self _ (by omega)
    have hlen : urls.length ≤ (wrap64 (count * urlLength)).toNat / 6 := by
      rw [hu, wholeRecords_length]
      apply Nat.div_le_div_right
      rw [List.length_take]
      omega
    omega

/-- The last critical section of `loadMore` on a well-formed pool: the records are appended
behind the identifiers queued at that time. -/
theorem loadMoreAppend_inv (l : LinkedURL) (addrs : List Nat) (h : PoolInv l addrs)
    (urls : List GoString) :
    (l.loadMoreAppend urls).queue = l.queue ++ urls ∧
    (l.loadMoreAppend urls).count = l.count + (urls.length : Int) ∧
    (l.loadMoreAppend urls).loading = false ∧
    (l.loadMoreAppend urls).loader = l.loader := by
  obtain ⟨addrs2, g1, g2, g3, -, -, -, g7⟩ := appendAll_inv urls l addrs h
  have g1b : PoolInv (l.loadMoreAppend urls) addrs2 :=
    PoolInv_congr _ _ addrs2 g1 rfl rfl rfl rfl rfl
  obtain ⟨-, hq⟩ := reachable_of_PoolInv _ addrs2 g1b
  obtain ⟨-, hq0⟩ := reachable_of_PoolInv _ addrs h
  refine ⟨?_, g7, rfl, g3⟩
  rw [hq, hq0]
  exact g2

/-- The queue depends only on the nodes, the allocation mark and the head. -/
theorem queue_congr (l l1 : LinkedURL) (h1 : l1.nodes = l.nodes) (h2 : l1.fresh = l.fresh)
    (h3 : l1.head = l.head) : l1.queue = l.queue := by
  unfold LinkedURL.queue LinkedURL.reachable
  rw [h1, h2, h3]

/-- Every step of an interleaved run takes what it hands out from the head of the queue and
puts what it appends behind its end. -/
theorem fifo_step (s s1 : PoolSys) (ev : SysEvent) (h : SysInv s) (hs : s.step ev = some s1) :
    s.output ev ++ s1.pool.queue = s.pool.queue ++ s.input ev := by
  obtain ⟨⟨addrs, hP⟩, -⟩ := h
  cases ev with
  | acquire =>
    simp only [PoolSys.step, Option.some.injEq] at hs
    subst hs
    simp only [PoolSys.output, PoolSys.input, List.append_nil]
    cases addrs with
    | nil =>
      rw [Acquire_nil s.pool hP]
      rfl
    | cons a addrs =>
      obtain ⟨a1, a2, a3, -⟩ := Acquire_cons s.pool a addrs hP
      rw [a1, (reachable_of_PoolInv _ _ a2).2, (reachable_of_PoolInv _ _ hP).2, a3]
      rfl
  | init =>
    simp only [PoolSys.step, Option.some.injEq] at hs
    subst hs
    simp [PoolSys.output, PoolSys.input]
  | advance i =>
    unfold PoolSys.step at hs
    cases ht : s.tasks[i]? with
    | none =>
      simp only [ht, Option.some.injEq] at hs
      subst hs
      simp [PoolSys.output, PoolSys.input, ht]
    | some t =>
      cases t with
      | started =>
        simp only [ht] at hs
        cases hl : s.pool.loading with
        | true =>
          simp only [LinkedURL.loadMoreEnter, hl, if_true, Bool.false_eq_true, if_false,
            Option.some.injEq] at hs
          subst hs
          simp only [PoolSys.output, PoolSys.input, ht, List.nil_append, List.append_nil]
        | false =>
          simp only [LinkedURL.loadMoreEnter, hl, if_true, Bool.false_eq_true, if_false,
            Option.some.injEq] at hs
          subst hs
          simp only [PoolSys.output, PoolSys.input, ht, List.nil_append, List.append_nil]
          exact queue_congr _ _ rfl rfl rfl
      | loading =>
        simp only [ht] at hs
        cases hL : s.pool.loader.LoadBatch s.pool.batchSize with
        | panic => simp [hL] at hs
        | err e =>
          simp only [hL, Option.some.injEq] at hs
          subst hs
          simp [PoolSys.output, PoolSys.input, ht]
        | ok r =>
          simp only [hL, Option.some.injEq] at hs
          subst hs
          simp only [PoolSys.output, PoolSys.input, ht, List.nil_append, List.append_nil]
          exact queue_congr _ _ rfl rfl rfl
      | loaded urls =>
        simp only [ht, Option.some.injEq] at hs
        subst hs
        simp only [PoolSys.output, PoolSys.input, ht, List.nil_append]
        exact (loadMoreAppend_inv s.pool addrs hP urls).1
      | failed e =>
        simp only [ht, Option.some.injEq] at hs
        subst hs
        simp only [PoolSys.output, PoolSys.input, ht, List.nil_append, List.append_nil]
        exact queue_congr _ _ rfl rfl rfl

/-- The identifiers handed out by an interleaved run, followed by those still queued, are
those queued at the start followed by those the refills appended. -/
theorem fifo_run (events : List SysEvent) : ∀ s : PoolSys, SysInv s →
    s.issued events ++ (s.run events).pool.queue = s.pool.queue ++ s.appended events := by
  induction events with
  | nil => intro s _; simp [PoolSys.issued, PoolSys.appended, PoolSys.run]
  | cons ev events ih =>
    intro s h
    unfold PoolSys.issued PoolSys.appended PoolSys.run
    cases hs : s.step ev with
    | none => simp
    | some s1 =>
      have h1 := fifo_step s s1 ev h hs
      have h2 := ih s1 (SysInv_step s s1 ev h hs)
      simp only
      rw [List.append_assoc, h2, ← List.append_assoc, h1, List.append_assoc]

/-- C16: in every state of every interleaved run on a new pool, when the pool holds the
identifiers `q` (head first) and refills append the identifiers `r` behind the tail, the queue
is `q` followed by `r`, and the next `|q| + |r|` `Acquire` calls return exactly `q` followed
by `r`, in that order: after `k` of them the queue is what is left and `count` has gone down by
`k`, and the next call returns the identifier then at the head.  The same holds when the
`Acquire` calls and the refills are interleaved in any way: the identifiers the successful
`Acquire` calls have returned, followed by those still queued, are `q` followed by the
identifiers the refills have appended, in the order of the appends. -/
theorem C16_fifo (loader : FileLoader) (threshold batchSize : Int) (events : List SysEvent)
    (r : List GoString) :
    (r.foldl LinkedURL.appendNode
        ((PoolSys.new loader threshold batchSize).run events).pool).queue =
      ((PoolSys.new loader threshold batchSize).run events).pool.queue ++ r ∧
    poolRun (r.foldl LinkedURL.appendNode
        ((PoolSys.new loader threshold batchSize).run events).pool)
        (List.replicate
          (((PoolSys.new loader threshold batchSize).run events).pool.queue.length + r.length)
          PoolEvent.acquire) =
      ((PoolSys.new loader threshold batchSize).run events).pool.queue ++ r ∧
    (∀ k, k ≤ ((PoolSys.new loader threshold batchSize).run events).pool.queue.length
        + r.length →
      ((fun l1 : LinkedURL => l1.Acquire.1)^[k] (r.foldl LinkedURL.appendNode
          ((PoolSys.new loader threshold batchSize).run events).pool)).queue =
        (((PoolSys.new loader threshold batchSize).run events).pool.queue ++ r).drop k ∧
      ((fun l1 : LinkedURL => l1.Acquire.1)^[k] (r.foldl LinkedURL.appendNode
          ((PoolSys.new loader threshold batchSize).run events).pool)).count =
        (r.foldl LinkedURL.appendNode
          ((PoolSys.new loader threshold batchSize).run events).pool).count - (k : Int) ∧
      ((fun l1 : LinkedURL => l1.Acquire.1)^[k] (r.foldl LinkedURL.appendNode
          ((PoolSys.new loader threshold batchSize).run events).pool)).acquireReturn =
        match (((PoolSys.new loader threshold batchSize).run events).pool.queue ++ r)[k]? with
        | some code => (code, none)
        | none => ([], some PoolError.noURLsAvailable)) ∧
    (∀ events2 : List SysEvent,
      ((PoolSys.new loader threshold batchSize).run events).issued events2 ++
          (((PoolSys.new loader threshold batchSize).run events).run events2).pool.queue =
        ((PoolSys.new loader threshold batchSize).run events).pool.queue ++
          ((PoolSys.new loader threshold batchSize).run events).appended events2) := by
  obtain ⟨addrs, hP⟩ := run_PoolInv loader threshold batchSize events
  obtain ⟨-, hq⟩ := reachable_of_PoolInv _ addrs hP
  obtain ⟨addrs2, g1, g2, -⟩ := appendAll_inv r _ addrs hP
  obtain ⟨-, hq2⟩ := reachable_of_PoolInv _ addrs2 g1
  have hlen : addrs2.length =
      ((PoolSys.new loader threshold batchSize).run events).pool.queue.length + r.length := by
    have := congrArg List.length g2
    rw [hq]
    simpa [queued] using this
  refine ⟨by rw [hq2, g2, hq], ?_, fun k hk => ?_, fun events2 =>
    fifo_run events2 _ (SysInv_run events _ (SysInv_new loader threshold batchSize))⟩
  · have := (acquire_iterate addrs2 _ g1 addrs2.length (le_refl _)).2.2.2
    rw [← hlen, this, g2, hq]
    apply List.take_of_length_le
    rw [← g2]
    simp [queued]
  · obtain ⟨i1, i2, i3, -⟩ := acquire_iterate addrs2 _ g1 k (by omega)
    obtain ⟨-, hq3⟩ := reachable_of_PoolInv _ _ i1
    refine ⟨by rw [hq3, i2, g2, hq], i3, ?_⟩
    rw [hq, ← g2, ← List.head?_drop, ← i2]
    cases hd : addrs2.drop k with
    | nil =>
      rw [hd] at i1
      simp only [queued, List.map_nil, List.head?_nil]
      unfold LinkedURL.acquireReturn
      rw [Acquire_nil _ i1]
    | cons a rest =>
      rw [hd] at i1
      have a1 := (Acquire_cons _ a rest i1).1
      simp only [queued, List.map_cons, List.head?_cons]
      unfold LinkedURL.acquireReturn
      rw [a1]

/-- C16 on a pool that holds the two records of its pool file, when a third identifier is
appended: the next three `Acquire` calls return the two records and then the third. -/
theorem C16_fifo_witness :
    poolRun (([[88, 88, 88, 88, 88, 88]] : List GoString).foldl LinkedURL.appendNode
        ((PoolSys.new { urlFile := [65, 66, 67, 68, 69, 70, 71, 72, 73, 74, 75, 76],
                        offsetFile := none } 1 2).run
          [SysEvent.init, SysEvent.advance 0, SysEvent.advance 0, SysEvent.advance 0]).pool)
        (List.replicate
          (((PoolSys.new { urlFile := [65, 66, 67, 68, 69, 70, 71, 72, 73, 74, 75, 76],
                           offsetFile := none } 1 2).run
            [SysEvent.init, SysEvent.advance 0, SysEvent.advance 0,
              SysEvent.advance 0]).pool.queue.length +
            ([[88, 88, 88, 88, 88, 88]] : List GoString).length)
          PoolEvent.acquire) =
      ((PoolSys.new { urlFile := [65, 66, 67, 68, 69, 70, 71, 72, 73, 74, 75, 76],
                      offsetFile := none } 1 2).run
        [SysEvent.init, SysEvent.advance 0, SysEvent.advance 0, SysEvent.advance 0]).pool.queue ++
        [[88, 88, 88, 88, 88, 88]] :=
  (C16_fifo { urlFile := [65, 66, 67, 68, 69, 70, 71, 72, 73, 74, 75, 76], offsetFile := none }
    1 2 [SysEvent.init, SysEvent.advance 0, SysEvent.advance 0, SysEvent.advance 0]
    [[88, 88, 88, 88, 88, 88]]).2.1

/-- C20 (as amended): in every state of every interleaved run on a new pool in which `loading` is false
and `LoadBatch(batchSize)` succeeds with the records `urls`, a call of `loadMore` (and
therefore of `Init`) returns nil and leaves a pool whose count has increased by exactly the
number `n` of these records, whose queue is the old queue followed by the records in the
loader's order, whose `loading` flag is false and whose loader is the one `LoadBatch` left;
`n` is at most `batchSize` exactly when `batchSize` is not negative.  When the call is
interleaved with `Acquire` calls, its last critical section appends the records behind the
identifiers queued at that time, adds `n` to the count and clears `loading`. -/
theorem C20_refill_appends (loader : FileLoader) (threshold batchSize : Int)
    (events : List SysEvent) (urls : List GoString) (ld : FileLoader)
    (hl : ((PoolSys.new loader threshold batchSize).run events).pool.loading = false)
    (hL : ((PoolSys.new loader threshold batchSize).run events).pool.loader.LoadBatch
      ((PoolSys.new loader threshold batchSize).run events).pool.batchSize =
        Outcome.ok (urls, ld)) :
    (∃ l1, ((PoolSys.new loader threshold batchSize).run events).pool.loadMore =
        some (l1, none) ∧
      ((PoolSys.new loader threshold batchSize).run events).pool.Init = some (l1, none) ∧
      l1.count = ((PoolSys.new loader threshold batchSize).run events).pool.count +
        (urls.length : Int) ∧
      l1.queue = ((PoolSys.new loader threshold batchSize).run events).pool.queue ++ urls ∧
      l1.loading = false ∧ l1.loader = ld) ∧
    ((urls.length : Int) ≤ ((PoolSys.new loader threshold batchSize).run events).pool.batchSize ↔
      0 ≤ ((PoolSys.new loader threshold batchSize).run events).pool.batchSize) ∧
    ((PoolSys.new loader threshold batchSize).run events).pool.batchSize = batchSize ∧
    (∀ (events2 : List SysEvent) (i : Nat) (urls2 : List GoString),
      ((PoolSys.new loader threshold batchSize).run events2).tasks[i]? =
        some (RefillTask.loaded urls2) →
      ((PoolSys.new loader threshold batchSize).run events2).pool.loading = true ∧
      ∃ s1, ((PoolSys.new loader threshold batchSize).run events2).step (SysEvent.advance i) =
          some s1 ∧
        s1.pool.queue =
          ((PoolSys.new loader threshold batchSize).run events2).pool.queue ++ urls2 ∧
        s1.pool.count = ((PoolSys.new loader threshold batchSize).run events2).pool.count +
          (urls2.length : Int) ∧
        s1.pool.loading = false ∧
        s1.tasks = ((PoolSys.new loader threshold batchSize).run events2).tasks.eraseIdx i) := by
  obtain ⟨addrs, hP⟩ := run_PoolInv loader threshold batchSize events
  refine ⟨?_, LoadBatch_length_le _ _ _ _ hL, batchSize_run loader threshold batchSize events,
    fun events2 i urls2 ht => ?_⟩
  · rcases loadMore_inv _ addrs hP hl with ⟨h1, -⟩ | ⟨e, l1, h1, -⟩ |
      ⟨urls1, ld1, l1, addrs2, h1, h2, h3, h4, h5, -, -, h8, h9⟩
    · rw [hL] at h1
      cases h1
    · rw [hL] at h1
      cases h1
    · rw [hL] at h1
      simp only [Outcome.ok.injEq, Prod.mk.injEq] at h1
      obtain ⟨rfl, rfl⟩ := h1
      obtain ⟨-, hq⟩ := reachable_of_PoolInv _ addrs2 h3
      obtain ⟨-, hq0⟩ := reachable_of_PoolInv _ addrs hP
      exact ⟨l1, h2, h2, h9, by rw [hq, hq0]; exact h4, h8, h5⟩
  · obtain ⟨⟨addrs3, hP3⟩, hF⟩ := SysInv_run events2 _ (SysInv_new loader threshold batchSize)
    obtain ⟨a1, a2, a3, -⟩ := loadMoreAppend_inv _ addrs3 hP3 urls2
    refine ⟨?_, { pool := LinkedURL.loadMoreAppend _ urls2, tasks := List.eraseIdx _ i }, ?_,
      a1, a2, a3, rfl⟩
    · obtain ⟨-, herase⟩ := inFlight_set_erase _ i _ ht
      have : inFlight [RefillTask.loaded urls2] = 1 := rfl
      cases hb : ((PoolSys.new loader threshold batchSize).run events2).pool.loading with
      | true => rfl
      | false =>
        rw [hb] at hF
        simp only [Bool.false_eq_true, if_false] at hF
        omega
    · unfold PoolSys.step
      simp only [ht]

/-- C20 (as amended) on a new pool over a pool file of two records, with batch size 5: the refill queues
the two records. -/
theorem C20_refill_appends_witness :
    ((PoolSys.new { urlFile := [65, 66, 67, 68, 69, 70, 71, 72, 73, 74, 75, 76],
                    offsetFile := none } 1 5).run []).pool.loading = false ∧
    (∃ l1, ((PoolSys.new { urlFile := [65, 66, 67, 68, 69, 70, 71, 72, 73, 74, 75, 76],
                           offsetFile := none } 1 5).run []).pool.loadMore = some (l1, none) ∧
      ((PoolSys.new { urlFile := [65, 66, 67, 68, 69, 70, 71, 72, 73, 74, 75, 76],
                      offsetFile := none } 1 5).run []).pool.Init = some (l1, none) ∧
      l1.count = ((PoolSys.new { urlFile := [65, 66, 67, 68, 69, 70, 71, 72, 73, 74, 75, 76],
                                 offsetFile := none } 1 5).run []).pool.count +
        (([[65, 66, 67, 68, 69, 70], [71, 72, 73, 74, 75, 76]] : List GoString).length : Int) ∧
      l1.queue = ((PoolSys.new { urlFile := [65, 66, 67, 68, 69, 70, 71, 72, 73, 74, 75, 76],
                                 offsetFile := none } 1 5).run []).pool.queue ++
        [[65, 66, 67, 68, 69, 70], [71, 72, 73, 74, 75, 76]] ∧
      l1.loading = false ∧
      l1.loader = { urlFile := [65, 66, 67, 68, 69, 70, 71, 72, 73, 74, 75, 76],
                    offsetFile := some 12 }) :=
  ⟨rfl, (C20_refill_appends
      { urlFile := [65, 66, 67, 68, 69, 70, 71, 72, 73, 74, 75, 76], offsetFile := none } 1 5 []
      [[65, 66, 67, 68, 69, 70], [71, 72, 73, 74, 75, 76]]
      { urlFile := [65, 66, 67, 68, 69, 70, 71, 72, 73, 74, 75, 76], offsetFile := some 12 }
      rfl (by decide)).1⟩

/-- C20 fails as stated: for the batch size -6148914691236517204 the product
`batchSize * 6` wraps around to 8, so on a pool file of 8 bytes a refill that starts with
`loading` false has a successful `LoadBatch(batchSize)` with n = 1 record; afterwards the
count is 1, the record is queued and `loading` is false, but n is not at most `batchSize`. -/
theorem C20_counterexample :
    (NewLinkedURL { urlFile := [65, 66, 67, 68, 69, 70, 71, 72], offsetFile := none } 1
      (-6148914691236517204)).loading = false ∧
    (NewLinkedURL { urlFile := [65, 66, 67, 68, 69, 70, 71, 72], offsetFile := none } 1
      (-6148914691236517204)).loader.LoadBatch
        (NewLinkedURL { urlFile := [65, 66, 67, 68, 69, 70, 71, 72], offsetFile := none } 1
          (-6148914691236517204)).batchSize =
      Outcome.ok ([[65, 66, 67, 68, 69, 70]],
        { urlFile := [65, 66, 67, 68, 69, 70, 71, 72], offsetFile := some 8 }) ∧
    ((NewLinkedURL { urlFile := [65, 66, 67, 68, 69, 70, 71, 72], offsetFile := none } 1
      (-6148914691236517204)).loadMore.map
        fun r => (r.1.count, r.1.queue, r.1.loading, r.2)) =
      some (1, [[65, 66, 67, 68, 69, 70]], false, none) ∧
    ¬ ((([[65, 66, 67, 68, 69, 70]] : List GoString).length : Int) ≤
      (NewLinkedURL { urlFile := [65, 66, 67, 68, 69, 70, 71, 72], offsetFile := none } 1
        (-6148914691236517204)).batchSize) := by
  decide

/-- While `loading` is set, `Acquire` calls start no refill. -/
theorem acquires_while_loading (n : Nat) : ∀ (s : PoolSys), s.pool.loading = true →
    s.requests (List.replicate n SysEvent.acquire) = 0 ∧
    (s.run (List.replicate n SysEvent.acquire)).tasks = s.tasks ∧
    (s.run (List.replicate n SysEvent.acquire)).pool.loading = true := by
  induction n with
  | zero => intro s h; exact ⟨rfl, rfl, h⟩
  | succ n ih =>
    intro s h
    have hA : s.pool.Acquire.2.2 = false := by
      unfold LinkedURL.Acquire
      cases s.pool.head with
      | none => rfl
      | some a => simp [h]
    have hs : s.step SysEvent.acquire = some { pool := s.pool.Acquire.1, tasks := s.tasks } := by
      simp [PoolSys.step, hA]
    obtain ⟨i1, i2, i3⟩ := ih { pool := s.pool.Acquire.1, tasks := s.tasks }
      (by rw [Acquire_loading]; exact h)
    rw [List.replicate_succ]
    refine ⟨?_, ?_, ?_⟩
    · simp only [PoolSys.requests, hs, hA, i1]
      simp
    · simp only [PoolSys.run, hs]
      exact i2
    · simp only [PoolSys.run, hs]
      exact i3

/-- While `loading` is not set and no call of `loadMore` takes a step, every successful
`Acquire` call that leaves the count below the threshold starts a refill. -/
theorem acquires_while_idle (n : Nat) : ∀ (addrs : List Nat) (s : PoolSys),
    PoolInv s.pool addrs → s.pool.loading = false → n ≤ addrs.length →
    s.requests (List.replicate n SysEvent.acquire) =
      ((n : Int) - max 0 (s.pool.count - s.pool.threshold)).toNat ∧
    (s.run (List.replicate n SysEvent.acquire)).tasks =
      s.tasks ++ List.replicate ((n : Int) - max 0 (s.pool.count - s.pool.threshold)).toNat
        RefillTask.started ∧
    (s.run (List.replicate n SysEvent.acquire)).pool.loading = false ∧
    (s.run (List.replicate n SysEvent.acquire)).pool.count = s.pool.count - (n : Int) := by
  induction n with
  | zero =>
    intro addrs s _ hl _
    refine ⟨?_, ?_, hl, by simp [PoolSys.run]⟩
    · have : ((0 : Nat) : Int) - max 0 (s.pool.count - s.pool.threshold) ≤ 0 := by omega
      rw [Int.toNat_of_nonpos this]
      rfl
    · have : ((0 : Nat) : Int) - max 0 (s.pool.count - s.pool.threshold) ≤ 0 := by omega
      rw [Int.toNat_of_nonpos this]
      simp [PoolSys.run]
  | succ n ih =>
    intro addrs s hP hl hn
    cases addrs with
    | nil => simp at hn
    | cons a addrs =>
      obtain ⟨-, a2, -, -, -, a6, a7, a8, -⟩ := Acquire_cons s.pool a addrs hP
      have hh : s.pool.head = some a := by
        have := hP.chain
        exact this.1
      have hA : s.pool.Acquire.2.2 = decide (s.pool.count - 1 < s.pool.threshold) := by
        unfold LinkedURL.Acquire
        rw [hh]
        simp [hl]
      have hs : s.step SysEvent.acquire = some
          { pool := s.pool.Acquire.1,
            tasks := if s.pool.Acquire.2.2 then s.tasks ++ [RefillTask.started]
              else s.tasks } := rfl
      obtain ⟨i1, i2, i3, i4⟩ := ih addrs
        { pool := s.pool.Acquire.1,
          tasks := if s.pool.Acquire.2.2 then s.tasks ++ [RefillTask.started] else s.tasks }
        a2 (by rw [a7]; exact hl) (by simpa using hn)
      simp only at i1 i2 i3 i4
      rw [a8, a6] at i1 i2
      rw [a8] at i4
      rw [List.replicate_succ]
      by_cases hc : s.pool.count - 1 < s.pool.threshold
      · have hA1 : s.pool.Acquire.2.2 = true := by rw [hA]; exact decide_eq_true hc
        have e1 : ((n : Int) - max 0 (s.pool.count - 1 - s.pool.threshold)).toNat = n := by
          omega
        have e2 : (((n + 1 : Nat) : Int) - max 0 (s.pool.count - s.pool.threshold)).toNat =
            n + 1 := by omega
        rw [e1] at i1 i2
        rw [e2]
        simp only [hA1, if_true] at hs i1 i2 i3 i4
        refine ⟨?_, ?_, ?_, ?_⟩
        · simp only [PoolSys.requests, hs, hA1, i1, and_self, if_true]
          omega
        · simp only [PoolSys.run, hs]
          rw [i2, List.replicate_succ, List.append_assoc]
          rfl
        · simp only [PoolSys.run, hs]
          exact i3
        · simp only [PoolSys.run, hs]
          rw [i4]
          push_cast
          omega
      · have hA1 : s.pool.Acquire.2.2 = false := by rw [hA]; exact decide_eq_false hc
        have e1 : ((n : Int) - max 0 (s.pool.count - 1 - s.pool.threshold)).toNat =
            (((n + 1 : Nat) : Int) - max 0 (s.pool.count - s.pool.threshold)).toNat := by
          omega
        rw [e1] at i1 i2
        simp only [hA1, Bool.false_eq_true, if_false] at hs i1 i2 i3 i4
        refine ⟨?_, ?_, ?_, ?_⟩
        · simp only [PoolSys.requests, hs, hA1, i1, Bool.false_eq_true, and_false, if_false,
            Nat.zero_add]
        · simp only [PoolSys.run, hs]
          exact i2
        · simp only [PoolSys.run, hs]
          exact i3
        · simp only [PoolSys.run, hs]
          rw [i4]
          push_cast
          omega

/-- C19 (as amended): in every state of every interleaved run on a new pool with threshold T, at most one
call of `loadMore` is past its first critical section, and `loading` is true exactly while
one is.  While `loading` is true, no number of `Acquire` calls starts a refill.  While
`loading` is false and no call of `loadMore` takes a step, a run of `n` successful `Acquire`
calls that starts with the count at least T starts one refill for each call that leaves the
count below T: `n - (count - T)` of them when the run takes the count below T, which is
exactly one only when the run ends with the call that takes the count to `T - 1`.  A started
call of `loadMore` that finds `loading` true returns without touching the pool; one that finds
it false sets it. -/
theorem C19_refill_requests (loader : FileLoader) (threshold batchSize : Int)
    (events : List SysEvent) :
    (inFlight ((PoolSys.new loader threshold batchSize).run events).tasks ≤ 1 ∧
      (((PoolSys.new loader threshold batchSize).run events).pool.loading = true ↔
        inFlight ((PoolSys.new loader threshold batchSize).run events).tasks = 1)) ∧
    (∀ n : Nat, ((PoolSys.new loader threshold batchSize).run events).pool.loading = true →
      ((PoolSys.new loader threshold batchSize).run events).requests
          (List.replicate n SysEvent.acquire) = 0 ∧
        (((PoolSys.new loader threshold batchSize).run events).run
          (List.replicate n SysEvent.acquire)).tasks =
          ((PoolSys.new loader threshold batchSize).run events).tasks) ∧
    (∀ n : Nat, ((PoolSys.new loader threshold batchSize).run events).pool.loading = false →
      threshold ≤ ((PoolSys.new loader threshold batchSize).run events).pool.count →
      (n : Int) ≤ ((PoolSys.new loader threshold batchSize).run events).pool.count →
      ((PoolSys.new loader threshold batchSize).run events).requests
          (List.replicate n SysEvent.acquire) =
        ((n : Int) -
          (((PoolSys.new loader threshold batchSize).run events).pool.count - threshold)).toNat ∧
      (((PoolSys.new loader threshold batchSize).run events).run
          (List.replicate n SysEvent.acquire)).pool.count =
        ((PoolSys.new loader threshold batchSize).run events).pool.count - (n : Int) ∧
      (((PoolSys.new loader threshold batchSize).run events).run
          (List.replicate n SysEvent.acquire)).tasks =
        ((PoolSys.new loader threshold batchSize).run events).tasks ++
          List.replicate (((PoolSys.new loader threshold batchSize).run events).requests
            (List.replicate n SysEvent.acquire)) RefillTask.started ∧
      (((PoolSys.new loader threshold batchSize).run events).requests
          (List.replicate n SysEvent.acquire) = 1 ↔
        ((PoolSys.new loader threshold batchSize).run events).pool.count - (n : Int) =
          threshold - 1)) ∧
    (∀ i : Nat, ((PoolSys.new loader threshold batchSize).run events).tasks[i]? =
        some RefillTask.started →
      ((PoolSys.new loader threshold batchSize).run events).step (SysEvent.advance i) =
        some (if ((PoolSys.new loader threshold batchSize).run events).pool.loading = true then
          { pool := ((PoolSys.new loader threshold batchSize).run events).pool,
            tasks := ((PoolSys.new loader threshold batchSize).run events).tasks.eraseIdx i }
        else
          { pool := { ((PoolSys.new loader threshold batchSize).run events).pool with
                      loading := true },
            tasks := ((PoolSys.new loader threshold batchSize).run events).tasks.set i
              RefillTask.loading })) := by
  obtain ⟨⟨addrs, hP⟩, hF⟩ := SysInv_run events _ (SysInv_new loader threshold batchSize)
  have hT := (params_run events (PoolSys.new loader threshold batchSize)).2
  have hT2 : ((PoolSys.new loader threshold batchSize).run events).pool.threshold = threshold :=
    hT
  refine ⟨?_, fun n hl => ?_, fun n hl hc hn => ?_, fun i ht => ?_⟩
  · cases hb : ((PoolSys.new loader threshold batchSize).run events).pool.loading <;>
      rw [hb] at hF <;> simp at hF <;> simp [hF]
  · obtain ⟨h1, h2, -⟩ := acquires_while_loading n _ hl
    exact ⟨h1, h2⟩
  · have hcount := hP.count
    obtain ⟨h1, h2, -, h4⟩ := acquires_while_idle n addrs _ hP hl (by omega)
    rw [hT2] at h1 h2
    have hmax : max 0 (((PoolSys.new loader threshold batchSize).run events).pool.count -
        threshold) = ((PoolSys.new loader threshold batchSize).run events).pool.count -
          threshold := by omega
    rw [hmax] at h1 h2
    refine ⟨h1, h4, ?_, ?_⟩
    · rw [h2, h1]
    · rw [h1]
      omega
  · unfold PoolSys.step
    simp only [ht]
    cases hb : ((PoolSys.new loader threshold batchSize).run events).pool.loading <;>
      simp [LinkedURL.loadMoreEnter, hb]

/-- C19 (as amended) on a pool with threshold 2 that holds two identifiers: the one `Acquire` call that
takes the count from 2 to 1 starts exactly one refill. -/
theorem C19_refill_requests_witness :
    ((PoolSys.new { urlFile := List.replicate 24 65, offsetFile := none } 2 2).run
      [SysEvent.init, SysEvent.advance 0, SysEvent.advance 0, SysEvent.advance 0]).requests
        (List.replicate 1 SysEvent.acquire) = 1 :=
  ((C19_refill_requests { urlFile := List.replicate 24 65, offsetFile := none } 2 2
      [SysEvent.init, SysEvent.advance 0, SysEvent.advance 0, SysEvent.advance 0]).2.2.1 1
    (by decide) (by decide) (by decide)).2.2.2.2 (by decide)

/-- C19 fails as stated: with threshold 2 and batch size 2, `Init` queues two identifiers; the
first `Acquire` takes the count from 2 to 1 and starts a refill, and a second `Acquire` that
runs before that call of `loadMore` has set `loading` takes the count to 0 and starts another
one, so two refills are started for the one drop.  When the two calls of `loadMore` then run
one after the other, `loading` becomes true and false twice and the count goes to 2 and then
to 4. -/
theorem C19_counterexample :
    ((PoolSys.new { urlFile := List.replicate 36 65, offsetFile := none } 2 2).run
      [SysEvent.init, SysEvent.advance 0, SysEvent.advance 0, SysEvent.advance 0]).pool.count
        = 2 ∧
    ((PoolSys.new { urlFile := List.replicate 36 65, offsetFile := none } 2 2).run
      [SysEvent.init, SysEvent.advance 0, SysEvent.advance 0, SysEvent.advance 0]).tasks = [] ∧
    ((PoolSys.new { urlFile := List.replicate 36 65, offsetFile := none } 2 2).run
      [SysEvent.init, SysEvent.advance 0, SysEvent.advance 0, SysEvent.advance 0,
        SysEvent.acquire]).pool.count = 1 ∧
    ((PoolSys.new { urlFile := List.replicate 36 65, offsetFile := none } 2 2).run
      [SysEvent.init, SysEvent.advance 0, SysEvent.advance 0, SysEvent.advance 0]).requests
        [SysEvent.acquire, SysEvent.acquire] = 2 ∧
    ((PoolSys.new { urlFile := List.replicate 36 65, offsetFile := none } 2 2).run
      [SysEvent.init, SysEvent.advance 0, SysEvent.advance 0, SysEvent.advance 0,
        SysEvent.acquire, SysEvent.acquire]).tasks =
      [RefillTask.started, RefillTask.started] ∧
    ((PoolSys.new { urlFile := List.replicate 36 65, offsetFile := none } 2 2).run
      [SysEvent.init, SysEvent.advance 0, SysEvent.advance 0, SysEvent.advance 0,
        SysEvent.acquire, SysEvent.acquire]).loadingTrace
      [SysEvent.advance 0, SysEvent.advance 0, SysEvent.advance 0,
        SysEvent.advance 0, SysEvent.advance 0, SysEvent.advance 0] =
      [true, true, false, true, true, false] ∧
    ((PoolSys.new { urlFile := List.replicate 36 65, offsetFile := none } 2 2).run
      [SysEvent.init, SysEvent.advance 0, SysEvent.advance 0, SysEvent.advance 0,
        SysEvent.acquire, SysEvent.acquire,
        SysEvent.advance 0, SysEvent.advance 0, SysEvent.advance 0]).pool.count = 2 ∧
    ((PoolSys.new { urlFile := List.replicate 36 65, offsetFile := none } 2 2).run
      [SysEvent.init, SysEvent.advance 0, SysEvent.advance 0, SysEvent.advance 0,
        SysEvent.acquire, SysEvent.acquire,
        SysEvent.advance 0, SysEvent.advance 0, SysEvent.advance 0,
        SysEvent.advance 0, SysEvent.advance 0, SysEvent.advance 0]).pool.count = 4 := by
  decide

/-! ### The hit rate -/

theorem roundHalfEven_intCast (n : Int) : roundHalfEven (n : ℚ) = n := by
  unfold roundHalfEven
  rw [Int.floor_intCast]
  simp

theorem roundHalfEven_bounds (x : ℚ) : ⌊x⌋ ≤ roundHalfEven x ∧ roundHalfEven x ≤ ⌊x⌋ + 1 := by
  unfold roundHalfEven
  split_ifs <;> constructor <;> omega

theorem roundHalfEven_error (x : ℚ) : |(roundHalfEven x : ℚ) - x| ≤ 1 / 2 := by
  have h1 := Int.floor_le x
  have h2 := Int.lt_floor_add_one x
  unfold roundHalfEven
  rw [abs_le]
  split_ifs <;> push_cast <;> constructor <;> linarith

theorem roundHalfEven_mono (x y : ℚ) (h : x ≤ y) : roundHalfEven x ≤ roundHalfEven y := by
  have hf : ⌊x⌋ ≤ ⌊y⌋ := Int.floor_mono h
  rcases lt_or_eq_of_le hf with hlt | heq
  · have := (roundHalfEven_bounds x).2
    have := (roundHalfEven_bounds y).1
    omega
  · unfold roundHalfEven
    rw [← heq]
    split_ifs <;> first | omega | (exfalso; linarith)

/-- The scaled significand of a positive number lies in `[2^52, 2^53)`. -/
theorem scaled_range (x : ℚ) (hx : 0 < x) :
    (4503599627370496 : ℚ) ≤ x * 2 ^ (52 - Int.log 2 x) ∧
    x * 2 ^ (52 - Int.log 2 x) < 9007199254740992 := by
  have h1 : ((2 : ℕ) : ℚ) ^ Int.log 2 x ≤ x := Int.zpow_log_le_self (by decide) hx
  have h2 : x < ((2 : ℕ) : ℚ) ^ (Int.log 2 x + 1) := Int.lt_zpow_succ_log_self (by decide) x
  have hp : (0 : ℚ) < 2 ^ (52 - Int.log 2 x) := zpow_pos (by norm_num) _
  have e1 : ((2 : ℕ) : ℚ) ^ Int.log 2 x * 2 ^ (52 - Int.log 2 x) = 4503599627370496 := by
    push_cast
    rw [← zpow_add₀ (by norm_num : (2 : ℚ) ≠ 0)]
    have : Int.log 2 x + (52 - Int.log 2 x) = 52 := by omega
    rw [this]
    norm_num
  have e2 : ((2 : ℕ) : ℚ) ^ (Int.log 2 x + 1) * 2 ^ (52 - Int.log 2 x) = 9007199254740992 := by
    push_cast
    rw [← zpow_add₀ (by norm_num : (2 : ℚ) ≠ 0)]
    have : Int.log 2 x + 1 + (52 - Int.log 2 x) = 53 := by omega
    rw [this]
    norm_num
  constructor
  · rw [← e1]
    exact mul_le_mul_of_nonneg_right h1 hp.le
  · rw [← e2]
    exact mul_lt_mul_of_pos_right h2 hp

/-- The rounded significand of a positive number lies in `[2^52, 2^53]`. -/
theorem significand_range (x : ℚ) (hx : 0 < x) :
    (4503599627370496 : Int) ≤ roundHalfEven (x * 2 ^ (52 - Int.log 2 x)) ∧
    roundHalfEven (x * 2 ^ (52 - Int.log 2 x)) ≤ 9007199254740992 := by
  obtain ⟨h1, h2⟩ := scaled_range x hx
  constructor
  · have := roundHalfEven_mono _ _ h1
    rw [show (4503599627370496 : ℚ) = ((4503599627370496 : Int) : ℚ) by norm_num,
      roundHalfEven_intCast] at this
    exact this
  · have := roundHalfEven_mono _ _ h2.le
    rw [show (9007199254740992 : ℚ) = ((9007199254740992 : Int) : ℚ) by norm_num,
      roundHalfEven_intCast] at this
    exact this

/-- Rounding keeps a positive number between the powers of two around it. -/
theorem pos_range (x : ℚ) (hx : 0 < x) :
    (2 : ℚ) ^ Int.log 2 x ≤ roundFloat64.pos x ∧
    roundFloat64.pos x ≤ 2 ^ (Int.log 2 x + 1) := by
  obtain ⟨h1, h2⟩ := significand_range x hx
  have hp : (0 : ℚ) < 2 ^ (Int.log 2 x - 52) := zpow_pos (by norm_num) _
  have e1 : (2 : ℚ) ^ Int.log 2 x = 4503599627370496 * 2 ^ (Int.log 2 x - 52) := by
    rw [show (4503599627370496 : ℚ) = 2 ^ (52 : Int) by norm_num,
      ← zpow_add₀ (by norm_num : (2 : ℚ) ≠ 0)]
    congr 1
    omega
  have e2 : (2 : ℚ) ^ (Int.log 2 x + 1) = 9007199254740992 * 2 ^ (Int.log 2 x - 52) := by
    rw [show (9007199254740992 : ℚ) = 2 ^ (53 : Int) by norm_num,
      ← zpow_add₀ (by norm_num : (2 : ℚ) ≠ 0)]
    congr 1
    omega
  unfold roundFloat64.pos
  constructor
  · rw [e1]
    apply mul_le_mul_of_nonneg_right _ hp.le
    exact_mod_cast h1
  · rw [e2]
    apply mul_le_mul_of_nonneg_right _ hp.le
    exact_mod_cast h2

/-- Rounding is monotone on the positive numbers. -/
theorem pos_mono (x y : ℚ) (hx : 0 < x) (h : x ≤ y) :
    roundFloat64.pos x ≤ roundFloat64.pos y := by
  have hy : 0 < y := lt_of_lt_of_le hx h
  have hlog : Int.log 2 x ≤ Int.log 2 y := Int.log_mono_right hx h
  rcases lt_or_eq_of_le hlog with hlt | heq
  · calc roundFloat64.pos x ≤ 2 ^ (Int.log 2 x + 1) := (pos_range x hx).2
      _ ≤ 2 ^ Int.log 2 y := zpow_le_zpow_right₀ (by norm_num) (by omega)
      _ ≤ roundFloat64.pos y := (pos_range y hy).1
  · unfold roundFloat64.pos
    rw [← heq]
    have hp : (0 : ℚ) < 2 ^ (Int.log 2 x - 52) := zpow_pos (by norm_num) _
    have hq : (0 : ℚ) < 2 ^ (52 - Int.log 2 x) := zpow_pos (by norm_num) _
    apply mul_le_mul_of_nonneg_right _ hp.le
    have := roundHalfEven_mono _ _ (mul_le_mul_of_nonneg_right h hq.le)
    exact_mod_cast this

/-- The relative error of rounding a positive number is at most `2^-53`. -/
theorem pos_error (x : ℚ) (hx : 0 < x) :
    |roundFloat64.pos x - x| ≤ x / 9007199254740992 := by
  have h1 : (2 : ℚ) ^ Int.log 2 x ≤ x := by
    have := Int.zpow_log_le_self (R := ℚ) (b := 2) (by decide) hx
    exact_mod_cast this
  have hp : (0 : ℚ) < 2 ^ (Int.log 2 x - 52) := zpow_pos (by norm_num) _
  have hx2 : x = x * 2 ^ (52 - Int.log 2 x) * 2 ^ (Int.log 2 x - 52) := by
    rw [mul_assoc, ← zpow_add₀ (by norm_num : (2 : ℚ) ≠ 0)]
    have : 52 - Int.log 2 x + (Int.log 2 x - 52) = 0 := by omega
    rw [this, zpow_zero, mul_one]
  have herr := roundHalfEven_error (x * 2 ^ (52 - Int.log 2 x))
  have e3 : (2 : ℚ) ^ (Int.log 2 x - 52) = 2 ^ Int.log 2 x / 4503599627370496 := by
    rw [zpow_sub₀ (by norm_num : (2 : ℚ) ≠ 0)]
    norm_num
  unfold roundFloat64.pos
  calc |(roundHalfEven (x * 2 ^ (52 - Int.log 2 x)) : ℚ) * 2 ^ (Int.log 2 x - 52) - x|
      = |((roundHalfEven (x * 2 ^ (52 - Int.log 2 x)) : ℚ) - x * 2 ^ (52 - Int.log 2 x)) *
          2 ^ (Int.log 2 x - 52)| := by
        rw [sub_mul, ← hx2]
    _ = |(roundHalfEven (x * 2 ^ (52 - Int.log 2 x)) : ℚ) - x * 2 ^ (52 - Int.log 2 x)| *
          2 ^ (Int.log 2 x - 52) := by rw [abs_mul, abs_of_pos hp]
    _ ≤ 1 / 2 * 2 ^ (Int.log 2 x - 52) := mul_le_mul_of_nonneg_right herr hp.le
    _ = 2 ^ Int.log 2 x / 9007199254740992 := by rw [e3]; ring
    _ ≤ x / 9007199254740992 := by
        apply div_le_div_of_nonneg_right h1
        norm_num

/-- An integer of at most 53 bits is a `float64` value. -/
theorem pos_intCast (n : Int) (h1 : 1 ≤ n) (h2 : n < 9007199254740992) :
    roundFloat64.pos (n : ℚ) = n := by
  have hn : (0 : ℚ) < (n : ℚ) := by exact_mod_cast (by omega : 0 < n)
  have hlo : 0 ≤ Int.log 2 (n : ℚ) := by
    rw [← Int.zpow_le_iff_le_log (by decide) hn]
    norm_num
    exact_mod_cast h1
  have hhi : Int.log 2 (n : ℚ) < 53 := by
    rw [← Int.lt_zpow_iff_log_lt (by decide) hn]
    norm_num
    exact_mod_cast h2
  obtain ⟨k, hk⟩ : ∃ k : Nat, 52 - Int.log 2 (n : ℚ) = (k : Int) :=
    ⟨(52 - Int.log 2 (n : ℚ)).toNat, by omega⟩
  have hm : (n : ℚ) * 2 ^ (52 - Int.log 2 (n : ℚ)) = ((n * 2 ^ k : Int) : ℚ) := by
    rw [hk, zpow_natCast]
    push_cast
    rfl
  unfold roundFloat64.pos
  rw [hm, roundHalfEven_intCast]
  push_cast
  rw [mul_assoc, ← zpow_natCast, ← hk, ← zpow_add₀ (by norm_num : (2 : ℚ) ≠ 0)]
  have : 52 - Int.log 2 (n : ℚ) + (Int.log 2 (n : ℚ) - 52) = 0 := by omega
  rw [this, zpow_zero, mul_one]

theorem roundFloat64_zero : roundFloat64 0 = 0 := by
  unfold roundFloat64
  rw [if_pos rfl]

theorem roundFloat64_of_pos (x : ℚ) (hx : 0 < x) : roundFloat64 x = roundFloat64.pos x := by
  unfold roundFloat64
  rw [if_neg hx.ne.symm, if_pos hx]

theorem roundFloat64_intCast (n : Int) (h1 : 0 ≤ n) (h2 : n < 9007199254740992) :
    roundFloat64 (n : ℚ) = n := by
  rcases eq_or_lt_of_le h1 with h0 | hpos
  · rw [← h0]
    exact roundFloat64_zero
  · rw [roundFloat64_of_pos _ (by exact_mod_cast hpos), pos_intCast n (by omega) h2]

theorem roundFloat64_one : roundFloat64 1 = 1 := by
  have := roundFloat64_intCast 1 (by decide) (by decide)
  exact_mod_cast this

theorem pos_pos (x : ℚ) (hx : 0 < x) : 0 < roundFloat64.pos x :=
  lt_of_lt_of_le (zpow_pos (by norm_num) _) (pos_range x hx).1

theorem roundFloat64_nonneg (x : ℚ) (hx : 0 ≤ x) : 0 ≤ roundFloat64 x := by
  rcases eq_or_lt_of_le hx with h0 | hpos
  · rw [← h0, roundFloat64_zero]
  · rw [roundFloat64_of_pos x hpos]
    exact (pos_pos x hpos).le

theorem roundFloat64_pos (x : ℚ) (hx : 0 < x) : 0 < roundFloat64 x := by
  rw [roundFloat64_of_pos x hx]
  exact pos_pos x hx

/-- Rounding is monotone on the non-negative numbers. -/
theorem roundFloat64_mono (x y : ℚ) (hx : 0 ≤ x) (h : x ≤ y) :
    roundFloat64 x ≤ roundFloat64 y := by
  rcases eq_or_lt_of_le hx with h0 | hpos
  · rw [← h0, roundFloat64_zero]
    exact roundFloat64_nonneg y (le_trans hx h)
  · rw [roundFloat64_of_pos x hpos, roundFloat64_of_pos y (lt_of_lt_of_le hpos h)]
    exact pos_mono x y hpos h

/-- The relative error of rounding a non-negative number is at most `2^-53`. -/
theorem roundFloat64_error (x : ℚ) (hx : 0 ≤ x) :
    |roundFloat64 x - x| ≤ x / 9007199254740992 := by
  rcases eq_or_lt_of_le hx with h0 | hpos
  · rw [← h0, roundFloat64_zero]
    norm_num
  · rw [roundFloat64_of_pos x hpos]
    exact pos_error x hpos

theorem Put_counters (c : LRUCache) (key value : GoString) :
    (c.Put key value).hits = c.hits ∧ (c.Put key value).misses = c.misses := by
  cases hl : c.lookup key with
  | some elem => rw [Put_present c key value elem hl]; exact ⟨rfl, rfl⟩
  | none =>
    by_cases hfull : c.capacity ≤ (c.lruList.length : Int)
    · rw [Put_new_full c key value hl hfull]; exact ⟨rfl, rfl⟩
    · rw [Put_new_room c key value hl (by omega)]; exact ⟨rfl, rfl⟩

/-- The counters after a run without `Clear`: each `Get` adds one to the hit counter when it
returns true and one to the miss counter when it returns false. -/
theorem run_counters (ops : List CacheOp) : ∀ c : LRUCache, CacheOp.clear ∉ ops →
    (c.run ops).hits = c.hits + ((c.getFlags ops).count true : Int) ∧
    (c.run ops).misses = c.misses + ((c.getFlags ops).count false : Int) := by
  induction ops with
  | nil => intro c _; simp [LRUCache.run, LRUCache.getFlags]
  | cons op ops ih =>
    intro c hc
    have hc2 : CacheOp.clear ∉ ops := fun h => hc (List.mem_cons_of_mem _ h)
    have hrun : c.run (op :: ops) = (c.step op).run ops := rfl
    rw [hrun]
    obtain ⟨i1, i2⟩ := ih (c.step op) hc2
    cases op with
    | clear => exact absurd (List.mem_cons_self _ _) hc
    | put key value =>
      have hP := Put_counters c key value
      rw [i1, i2]
      simp only [LRUCache.getFlags, LRUCache.step]
      rw [hP.1, hP.2]
      exact ⟨rfl, rfl⟩
    | get key =>
      rw [i1, i2]
      simp only [LRUCache.getFlags, LRUCache.step]
      cases hl : c.lookup key with
      | none =>
        rw [Get_miss c key hl]
        simp
        omega
      | some elem =>
        rw [Get_hit c key elem hl]
        simp
        omega

/-- The hit rate of a cache with non-negative counters lies in `[0, 1]`. -/
theorem HitRate_range (c : LRUCache) (h1 : 0 ≤ c.hits) (h2 : 0 ≤ c.misses) :
    0 ≤ c.HitRate ∧ c.HitRate ≤ 1 := by
  unfold LRUCache.HitRate
  simp only
  by_cases h0 : c.hits + c.misses = 0
  · rw [if_pos h0]
    exact ⟨le_refl _, by norm_num⟩
  · rw [if_neg h0]
    have ht : (0 : ℚ) < ((c.hits + c.misses : Int) : ℚ) := by
      exact_mod_cast (by omega : 0 < c.hits + c.misses)
    have hh : (0 : ℚ) ≤ (c.hits : ℚ) := by exact_mod_cast h1
    have hle : (c.hits : ℚ) ≤ ((c.hits + c.misses : Int) : ℚ) := by
      exact_mod_cast (by omega : c.hits ≤ c.hits + c.misses)
    have ha := roundFloat64_nonneg _ hh
    have hb := roundFloat64_pos _ ht
    have hab := roundFloat64_mono _ _ hh hle
    have hq0 : 0 ≤ roundFloat64 (c.hits : ℚ) / roundFloat64 ((c.hits + c.misses : Int) : ℚ) :=
      div_nonneg ha hb.le
    have hq1 : roundFloat64 (c.hits : ℚ) / roundFloat64 ((c.hits + c.misses : Int) : ℚ) ≤ 1 :=
      (div_le_one hb).2 hab
    refine ⟨roundFloat64_nonneg _ hq0, ?_⟩
    have := roundFloat64_mono _ _ hq0 hq1
    rw [roundFloat64_one] at this
    exact this

/-- The hit rate of a cache whose counters have at most 53 bits is the quotient of the
counters rounded once. -/
theorem HitRate_small (c : LRUCache) (h1 : 0 ≤ c.hits) (h2 : 0 ≤ c.misses)
    (h0 : c.hits + c.misses ≠ 0) (h3 : c.hits + c.misses < 9007199254740992) :
    c.HitRate = roundFloat64 ((c.hits : ℚ) / ((c.hits : ℚ) + (c.misses : ℚ))) := by
  unfold LRUCache.HitRate
  simp only
  rw [if_neg h0, roundFloat64_intCast c.hits h1 (by omega),
    roundFloat64_intCast (c.hits + c.misses) (by omega) h3]
  push_cast
  rfl

/-- The exponent of a positive number that lies between two successive powers of two. -/
theorem log_eq (x : ℚ) (e : Int) (h1 : (2 : ℚ) ^ e ≤ x) (h2 : x < 2 ^ (e + 1)) :
    Int.log 2 x = e := by
  have hx : 0 < x := lt_of_lt_of_le (zpow_pos (by norm_num) _) h1
  apply le_antisymm
  · have : Int.log 2 x < e + 1 := by
      rw [← Int.lt_zpow_iff_log_lt (by decide) hx]
      exact_mod_cast h2
    omega
  · rw [← Int.zpow_le_iff_le_log (by decide) hx]
    exact_mod_cast h1

/-- One third is not a `float64` value: it is rounded to `6004799503160661 / 2^54`. -/
theorem roundFloat64_third :
    roundFloat64 (1 / 3) = 6004799503160661 / 18014398509481984 := by
  have hlog : Int.log 2 (1 / 3 : ℚ) = -2 := log_eq _ _ (by norm_num) (by norm_num)
  have hfloor : ⌊(18014398509481984 / 3 : ℚ)⌋ = 6004799503160661 := by
    rw [Int.floor_eq_iff]
    constructor <;> norm_num
  have hround : roundHalfEven (18014398509481984 / 3 : ℚ) = 6004799503160661 := by
    unfold roundHalfEven
    rw [hfloor, if_pos (by norm_num)]
  rw [roundFloat64_of_pos _ (by norm_num)]
  unfold roundFloat64.pos
  rw [hlog, show (1 / 3 : ℚ) * 2 ^ (52 - (-2) : Int) = 18014398509481984 / 3 by norm_num, hround]
  norm_num

/-- C11 (as amended): for every run of `Get` and `Put` calls on a new cache in which `H` `Get` calls return
true and `Mi` return false, the counters are `H` and `Mi`, and `HitRate()` is 0 when
`H + Mi = 0` and otherwise the quotient of `float64(H)` by `float64(H + Mi)`, rounded to a
`float64`.  When `H + Mi` is below `2^53` the conversions are exact and the hit rate is
`H / (H + Mi)` rounded once, within a relative error of `2^-53` of the rational number.  The
hit rate lies in `[0, 1]`, is 1 when every `Get` hit and 0 when none did, and a `Put` call
never changes it. -/
theorem C11_hit_rate (capacity : Int) (ops : List CacheOp) (H Mi : Nat)
    (hops : CacheOp.clear ∉ ops)
    (hH : ((NewLRUCache capacity).getFlags ops).count true = H)
    (hMi : ((NewLRUCache capacity).getFlags ops).count false = Mi) :
    ((NewLRUCache capacity).run ops).hits = (H : Int) ∧
    ((NewLRUCache capacity).run ops).misses = (Mi : Int) ∧
    (H + Mi = 0 → ((NewLRUCache capacity).run ops).HitRate = 0) ∧
    (0 < H + Mi → ((NewLRUCache capacity).run ops).HitRate =
      roundFloat64 (roundFloat64 (H : ℚ) / roundFloat64 ((H : ℚ) + (Mi : ℚ)))) ∧
    (0 < H + Mi → H + Mi < 9007199254740992 →
      ((NewLRUCache capacity).run ops).HitRate = roundFloat64 ((H : ℚ) / ((H : ℚ) + (Mi : ℚ))) ∧
      |((NewLRUCache capacity).run ops).HitRate - (H : ℚ) / ((H : ℚ) + (Mi : ℚ))| ≤
        (H : ℚ) / ((H : ℚ) + (Mi : ℚ)) / 9007199254740992) ∧
    (0 ≤ ((NewLRUCache capacity).run ops).HitRate ∧
      ((NewLRUCache capacity).run ops).HitRate ≤ 1) ∧
    (0 < H → Mi = 0 → ((NewLRUCache capacity).run ops).HitRate = 1) ∧
    (H = 0 → ((NewLRUCache capacity).run ops).HitRate = 0) ∧
    (∀ key value : GoString,
      (((NewLRUCache capacity).run ops).Put key value).HitRate =
        ((NewLRUCache capacity).run ops).HitRate) := by
  obtain ⟨c1, c2⟩ := run_counters ops (NewLRUCache capacity) hops
  rw [hH] at c1
  rw [hMi] at c2
  have d1 : ((NewLRUCache capacity).run ops).hits = (H : Int) := by
    rw [c1]
    show (0 : Int) + (H : Int) = H
    omega
  have d2 : ((NewLRUCache capacity).run ops).misses = (Mi : Int) := by
    rw [c2]
    show (0 : Int) + (Mi : Int) = Mi
    omega
  have hdef : ((NewLRUCache capacity).run ops).HitRate =
      if (H : Int) + (Mi : Int) = 0 then 0
      else roundFloat64 (roundFloat64 (H : ℚ) / roundFloat64 ((H : ℚ) + (Mi : ℚ))) := by
    unfold LRUCache.HitRate
    simp only
    rw [d1, d2]
    push_cast
    rfl
  have hrange := HitRate_range _ (by rw [d1]; omega) (by rw [d2]; omega)
  refine ⟨d1, d2, fun h => ?_, fun h => ?_, fun h hs => ?_, hrange, fun h hm => ?_, fun h => ?_,
    fun key value => ?_⟩
  · rw [hdef, if_pos (by omega)]
  · rw [hdef, if_neg (by omega)]
  · have hsmall := HitRate_small _ (by rw [d1]; omega) (by rw [d2]; omega)
      (by rw [d1, d2]; omega) (by rw [d1, d2]; omega)
    rw [d1, d2] at hsmall
    push_cast at hsmall
    refine ⟨hsmall, ?_⟩
    rw [hsmall]
    apply roundFloat64_error
    apply div_nonneg
    · exact_mod_cast Nat.zero_le H
    · exact_mod_cast Nat.zero_le (H + Mi)
  · rw [hdef, if_neg (by omega), hm]
    have hpos : (0 : ℚ) < (H : ℚ) := by exact_mod_cast h
    rw [Nat.cast_zero, add_zero, div_self (roundFloat64_pos _ hpos).ne.symm, roundFloat64_one]
  · rw [hdef, h]
    split
    · rfl
    · rw [Nat.cast_zero, roundFloat64_zero, zero_div, roundFloat64_zero]
  · obtain ⟨p1, p2⟩ := Put_counters ((NewLRUCache capacity).run ops) key value
    unfold LRUCache.HitRate
    simp only
    rw [p1, p2]

/-- C11 (as amended) on a cache of capacity 2 after a `Put` and two `Get` calls, one of which hits. -/
theorem C11_hit_rate_witness :
    0 ≤ ((NewLRUCache 2).run
      [CacheOp.put [1] [10], CacheOp.get [1], CacheOp.get [2]]).HitRate ∧
    ((NewLRUCache 2).run
      [CacheOp.put [1] [10], CacheOp.get [1], CacheOp.get [2]]).HitRate ≤ 1 :=
  (C11_hit_rate 2 [CacheOp.put [1] [10], CacheOp.get [1], CacheOp.get [2]] 1 1
    (by decide) (by decide) (by decide)).2.2.2.2.2.1

/-- C11 fails as stated: after a `Put` of key 1 and `Get` calls of the keys 1, 2 and 3, one
`Get` call has hit and two have missed, and `HitRate()` is the `float64` value
`6004799503160661 / 2^54`, which is not the rational number `1/3`. -/
theorem C11_counterexample :
    (NewLRUCache 2).getFlags
      [CacheOp.put [1] [10], CacheOp.get [1], CacheOp.get [2], CacheOp.get [3]] =
      [true, false, false] ∧
    ((NewLRUCache 2).run
      [CacheOp.put [1] [10], CacheOp.get [1], CacheOp.get [2], CacheOp.get [3]]).HitRate =
      6004799503160661 / 18014398509481984 ∧
    ((NewLRUCache 2).run
      [CacheOp.put [1] [10], CacheOp.get [1], CacheOp.get [2], CacheOp.get [3]]).HitRate ≠
      (1 : ℚ) / ((1 : ℚ) + (2 : ℚ)) := by
  have hc : (NewLRUCache 2).run
      [CacheOp.put [1] [10], CacheOp.get [1], CacheOp.get [2], CacheOp.get [3]] =
      { capacity := 2, lruList := [{ key := [1], value := [10] }], hits := 1, misses := 2 } := by
    decide
  have hr : ((NewLRUCache 2).run
      [CacheOp.put [1] [10], CacheOp.get [1], CacheOp.get [2], CacheOp.get [3]]).HitRate =
      6004799503160661 / 18014398509481984 := by
    rw [hc, HitRate_small _ (by decide) (by decide) (by decide) (by decide)]
    rw [show (((1 : Int) : ℚ)) / ((((1 : Int) : ℚ)) + (((2 : Int) : ℚ))) = 1 / 3 by norm_num]
    exact roundFloat64_third
  refine ⟨by decide, hr, ?_⟩
  rw [hr]
  norm_num

/-! ### The identifier pool: refills that do nothing or fail -/

/-- Setting `loading` to the value it has leaves the pool as it is. -/
theorem loading_false_eta (l : LinkedURL) (h : l.loading = false) :
    ({ l with loading := false } : LinkedURL) = l := by
  cases l
  simp only at h
  subst h
  rfl

/-- The identifiers that `n` successive `Acquire` calls return are the first `n` queued ones. -/
theorem poolRun_acquires (addrs : List Nat) : ∀ (l : LinkedURL) (n : Nat), PoolInv l addrs →
    poolRun l (List.replicate n PoolEvent.acquire) = (queued l addrs).take n := by
  induction addrs with
  | nil =>
    intro l n h
    induction n with
    | zero => rfl
    | succ n ih =>
      rw [List.replicate_succ]
      simp only [poolRun, Acquire_nil l h]
      rw [ih]
      simp [queued]
  | cons a addrs ih =>
    intro l n h
    cases n with
    | zero => rfl
    | succ n =>
      obtain ⟨-, a2, a3, -⟩ := Acquire_cons l a addrs h
      rw [List.replicate_succ, poolRun_acquire_cons l a addrs h, ih _ n a2, a3]
      rfl

/-- C21: a call of `loadMore` (and therefore of `Init`) on a pool whose `loading` flag is true
returns nil at once and leaves the pool, with its head, tail, count, flag and cursor, as it
is; `LoadBatch` is not called.  In an interleaved run the call ends in its first critical
section, and in every state of every interleaved run on a new pool at most one call of
`loadMore` is past that section, `loading` being true exactly while one is. -/
theorem C21_refill_while_loading (l : LinkedURL) (h : l.loading = true) :
    l.loadMore = some (l, none) ∧
    l.Init = some (l, none) ∧
    l.loadMoreEnter = (l, false) ∧
    (∀ (tasks : List RefillTask) (i : Nat), tasks[i]? = some RefillTask.started →
      (PoolSys.mk l tasks).step (SysEvent.advance i) =
        some { pool := l, tasks := tasks.eraseIdx i }) ∧
    (∀ (loader : FileLoader) (threshold batchSize : Int) (events : List SysEvent),
      inFlight ((PoolSys.new loader threshold batchSize).run events).tasks ≤ 1 ∧
      (((PoolSys.new loader threshold batchSize).run events).pool.loading = true ↔
        inFlight ((PoolSys.new loader threshold batchSize).run events).tasks = 1)) := by
  have h1 : l.loadMore = some (l, none) := by
    unfold LinkedURL.loadMore
    rw [if_pos h]
  have h3 : l.loadMoreEnter = (l, false) := by
    unfold LinkedURL.loadMoreEnter
    rw [if_pos h]
  refine ⟨h1, h1, h3, fun tasks i ht => ?_, fun loader threshold batchSize events => ?_⟩
  · unfold PoolSys.step
    simp only [ht, h3, Bool.false_eq_true, if_false]
  · obtain ⟨-, hF⟩ := SysInv_run events _ (SysInv_new loader threshold batchSize)
    cases hb : ((PoolSys.new loader threshold batchSize).run events).pool.loading <;>
      rw [hb] at hF <;> simp at hF <;> simp [hF]

/-- C21 on a pool whose `loading` flag is set. -/
theorem C21_refill_while_loading_witness :
    ({ NewLinkedURL { urlFile := [65, 66, 67, 68, 69, 70], offsetFile := none } 1 1 with
        loading := true } : LinkedURL).loadMore =
      some ({ NewLinkedURL { urlFile := [65, 66, 67, 68, 69, 70], offsetFile := none } 1 1 with
        loading := true }, none) :=
  (C21_refill_while_loading
    { NewLinkedURL { urlFile := [65, 66, 67, 68, 69, 70], offsetFile := none } 1 1 with
      loading := true } rfl).1

/-- What the `k`-th of a series of `Acquire` calls on a well-formed pool returns. -/
theorem acquireReturn_iterate (addrs : List Nat) (l : LinkedURL) (h : PoolInv l addrs) (k : Nat)
    (hk : k ≤ addrs.length) :
    ((fun l1 : LinkedURL => l1.Acquire.1)^[k] l).acquireReturn =
      match (queued l addrs)[k]? with
      | some code => (code, none)
      | none => ([], some PoolError.noURLsAvailable) := by
  obtain ⟨i1, i2, -, -⟩ := acquire_iterate addrs l h k hk
  rw [← List.head?_drop, ← i2]
  cases hd : addrs.drop k with
  | nil =>
    rw [hd] at i1
    simp only [queued, List.map_nil, List.head?_nil]
    unfold LinkedURL.acquireReturn
    rw [Acquire_nil _ i1]
  | cons a rest =>
    rw [hd] at i1
    have a1 := (Acquire_cons _ a rest i1).1
    simp only [queued, List.map_cons, List.head?_cons]
    unfold LinkedURL.acquireReturn
    rw [a1]

/-- C22: in every state of every interleaved run on a new pool in which `loading` is false and
`LoadBatch(batchSize)` returns an error, a call of `loadMore` (and therefore of `Init`)
returns that error and leaves the pool as it was, with `loading` false again and the head,
tail, count, nodes and cursor unchanged; the `Acquire` calls that follow return the queued
identifiers in order, and the first one to fail with "no URLs available" is the one that
finds the queue drained.  When the call is interleaved with `Acquire` calls, the step that
calls `LoadBatch` leaves the pool untouched, and the critical section that follows clears
`loading` and changes nothing else. -/
theorem C22_refill_failure (l : LinkedURL) (e : FileError)
    (hreach : ∃ (loader : FileLoader) (threshold batchSize : Int) (events : List SysEvent),
      l = ((PoolSys.new loader threshold batchSize).run events).pool)
    (hl : l.loading = false)
    (hL : l.loader.LoadBatch l.batchSize = Outcome.err e) :
    l.loadMore = some (l, some e) ∧
    l.Init = some (l, some e) ∧
    l.loadMoreEnter.1.loading = true ∧
    l.loadMoreEnter.1.loadMoreFail = l ∧
    (∀ n : Nat, poolRun l (PoolEvent.refill :: List.replicate n PoolEvent.acquire) =
      l.queue.take n) ∧
    (∀ k : Nat, k ≤ l.queue.length →
      ((fun l1 : LinkedURL => l1.Acquire.1)^[k] l).acquireReturn =
        match l.queue[k]? with
        | some code => (code, none)
        | none => ([], some PoolError.noURLsAvailable)) ∧
    (∀ (l2 : LinkedURL) (tasks : List RefillTask) (i : Nat) (e2 : FileError),
      (tasks[i]? = some RefillTask.loading →
        l2.loader.LoadBatch l2.batchSize = Outcome.err e2 →
        (PoolSys.mk l2 tasks).step (SysEvent.advance i) =
          some { pool := l2, tasks := tasks.set i (RefillTask.failed e2) }) ∧
      (tasks[i]? = some (RefillTask.failed e2) →
        (PoolSys.mk l2 tasks).step (SysEvent.advance i) =
          some { pool := l2.loadMoreFail, tasks := tasks.eraseIdx i }) ∧
      l2.loadMoreFail.loading = false ∧ l2.loadMoreFail.head = l2.head ∧
      l2.loadMoreFail.tail = l2.tail ∧ l2.loadMoreFail.count = l2.count ∧
      l2.loadMoreFail.nodes = l2.nodes ∧ l2.loadMoreFail.queue = l2.queue ∧
      l2.loadMoreFail.loader = l2.loader) := by
  obtain ⟨loader, threshold, batchSize, events, rfl⟩ := hreach
  obtain ⟨addrs, hP⟩ := run_PoolInv loader threshold batchSize events
  obtain ⟨-, hq⟩ := reachable_of_PoolInv _ addrs hP
  have h1 : ((PoolSys.new loader threshold batchSize).run events).pool.loadMore =
      some (((PoolSys.new loader threshold batchSize).run events).pool, some e) := by
    unfold LinkedURL.loadMore
    simp only [hl, hL, Bool.false_eq_true, if_false]
    rw [loading_false_eta _ hl]
  have hlen : addrs.length =
      ((PoolSys.new loader threshold batchSize).run events).pool.queue.length := by
    rw [hq]
    simp [queued]
  refine ⟨h1, h1, ?_, ?_, fun n => ?_, fun k hk => ?_, fun l2 tasks i e2 => ?_⟩
  · unfold LinkedURL.loadMoreEnter
    rw [hl]
    rfl
  · unfold LinkedURL.loadMoreEnter LinkedURL.loadMoreFail
    rw [hl]
    exact loading_false_eta _ hl
  · simp only [poolRun, h1]
    rw [poolRun_acquires addrs _ n hP, hq]
  · rw [hq]
    exact acquireReturn_iterate addrs _ hP k (by omega)
  · refine ⟨fun ht hL2 => ?_, fun ht => ?_, rfl, rfl, rfl, rfl, rfl,
      queue_congr _ _ rfl rfl rfl, rfl⟩
    · unfold PoolSys.step
      simp only [ht, hL2]
    · unfold PoolSys.step
      simp only [ht]

/-- C22 on a pool that holds the one record of its pool file, with the cursor at the end of
the file: the refill fails with the end-of-file error and leaves the pool as it was. -/
theorem C22_refill_failure_witness :
    ((PoolSys.new { urlFile := [65, 66, 67, 68, 69, 70], offsetFile := none } 1 1).run
      [SysEvent.init, SysEvent.advance 0, SysEvent.advance 0, SysEvent.advance 0]).pool.loadMore =
      some (((PoolSys.new { urlFile := [65, 66, 67, 68, 69, 70], offsetFile := none } 1 1).run
        [SysEvent.init, SysEvent.advance 0, SysEvent.advance 0, SysEvent.advance 0]).pool,
        some FileError.EOF) :=
  (C22_refill_failure
    ((PoolSys.new { urlFile := [65, 66, 67, 68, 69, 70], offsetFile := none } 1 1).run
      [SysEvent.init, SysEvent.advance 0, SysEvent.advance 0, SysEvent.advance 0]).pool
    FileError.EOF ⟨_, _, _, _, rfl⟩ (by decide) (by decide)).1

/-- The product `count * 6` of a positive 64-bit count does not wrap around to zero. -/
theorem wrap64_six_ne_zero (count : Int) (h1 : 1 ≤ count) (h2 : count < 9223372036854775808) :
    wrap64 (count * urlLength) ≠ 0 := by
  intro h
  unfold wrap64 urlLength at h
  have hdiv := Int.emod_add_ediv (count * 6 + 9223372036854775808) 18446744073709551616
  have hq3 : count * 3 = 9223372036854775808 *
      ((count * 6 + 9223372036854775808) / 18446744073709551616) := by linarith
  have hdvd : (9223372036854775808 : Int) ∣ count :=
    Int.dvd_of_dvd_mul_left_of_gcd_one ⟨_, hq3⟩ (by norm_num)
  obtain ⟨r, hr⟩ := hdvd
  have hr0 : 0 < r := by
    by_contra hneg
    have : r ≤ 0 := by linarith
    nlinarith
  nlinarith

/-- C28 (as amended): when the cursor is at or beyond the end of the pool file, but not
beyond the largest offset that `Seek` accepts, and `count >= 1`, `LoadBatch(count)` never
returns a batch, in particular not an empty one: it fails with the end-of-file error when the
buffer of `count * 6` bytes (the product reduced to 64 bits) can be allocated, as it can
whenever `6 * count` bytes can, and it panics when the buffer cannot be allocated; the stored
cursor is not rewritten.  A refill of a pool with such a loader and batch size, started with
`loading` false, returns the end-of-file error and leaves the pool as it was, so every later
refill fails in the same way. -/
theorem C28_exhausted_file (f : FileLoader) (count : Int)
    (hcur : (f.urlFile.length : Int) ≤ readOffset f.offsetFile)
    (hcur2 : readOffset f.offsetFile ≤ f.maxOffset)
    (h1 : 1 ≤ count) (h2 : count < 9223372036854775808) :
    (∀ (urls : List GoString) (f1 : FileLoader), f.LoadBatch count ≠ Outcome.ok (urls, f1)) ∧
    (canMake f.memory (wrap64 (count * urlLength)) 1 = true →
      f.LoadBatch count = Outcome.err FileError.EOF) ∧
    (canMake f.memory (wrap64 (count * urlLength)) 1 = false →
      f.LoadBatch count = Outcome.panic) ∧
    (canMake f.memory (6 * count) 1 = true → f.LoadBatch count = Outcome.err FileError.EOF) ∧
    (∀ l : LinkedURL, l.loader = f → l.batchSize = count → l.loading = false →
      canMake f.memory (wrap64 (count * urlLength)) 1 = true →
      l.loadMore = some (l, some FileError.EOF) ∧
      ∀ n : Nat,
        (fun l1 : LinkedURL => match l1.loadMore with
          | some (l2, _) => l2
          | none => l1)^[n] l = l) := by
  have hne := wrap64_six_ne_zero count h1 h2
  have hseek : f.urlFile.drop (seekStart f.maxOffset (readOffset f.offsetFile)) = [] := by
    apply List.drop_of_length_le
    unfold seekStart
    have : (0 : Int) ≤ (f.urlFile.length : Int) := Int.ofNat_nonneg _
    rw [if_neg (by omega)]
    omega
  have hpos : canMake f.memory (wrap64 (count * urlLength)) 1 = true →
      f.LoadBatch count = Outcome.err FileError.EOF := by
    intro hm
    have hw : 0 < wrap64 (count * urlLength) :=
      lt_of_le_of_ne ((canMake_spec _ _ _).1 hm).1 (Ne.symm hne)
    unfold FileLoader.LoadBatch
    simp only
    rw [readURLsFromFile_eq _ _ _ hm, hseek, if_pos ⟨hw, by simp⟩]
  refine ⟨fun urls f1 hok => ?_, hpos, LoadBatch_panic f count, fun h6 => ?_,
    fun l hf hB hl hw => ?_⟩
  · cases hm : canMake f.memory (wrap64 (count * urlLength)) 1 with
    | true =>
      rw [hpos hm] at hok
      cases hok
    | false =>
      rw [LoadBatch_panic f count hm] at hok
      cases hok
  · apply hpos
    obtain ⟨-, hlim, -⟩ := (canMake_spec _ _ _).1 h6
    have : wrap64 (count * urlLength) = 6 * count := by
      unfold urlLength
      unfold maxAlloc at hlim
      rw [wrap64_of_range _ (by omega) (by omega)]
      omega
    rw [this]
    exact h6
  · have hm : l.loadMore = some (l, some FileError.EOF) := by
      have hL : l.loader.LoadBatch l.batchSize = Outcome.err FileError.EOF := by
        rw [hf, hB]
        exact hpos hw
      unfold LinkedURL.loadMore
      simp only [hl, Bool.false_eq_true, if_false, hL]
      rw [loading_false_eta _ hl]
    refine ⟨hm, fun n => ?_⟩
    apply Function.iterate_fixed
    simp only [hm]

/-- C28 (as amended) on a pool file of one record with the cursor at its end: `LoadBatch(1)`
fails with the end-of-file error. -/
theorem C28_exhausted_file_witness :
    FileLoader.LoadBatch { urlFile := [65, 66, 67, 68, 69, 70], offsetFile := some 6 } 1 =
      Outcome.err FileError.EOF :=
  (C28_exhausted_file { urlFile := [65, 66, 67, 68, 69, 70], offsetFile := some 6 } 1
    (by decide) (by decide) (by decide) (by decide)).2.1 (by decide)

/-- C28 fails as stated: for the count 1537228672809129302 the product `count * 6` wraps
around to -9223372036854775804, so with the cursor at the end of the pool file `LoadBatch`
does not fail with the end-of-file error: `make([]byte, bytesToRead)` panics.  And with the
cursor 17592186044416, beyond the end of a pool file of 8 bytes and beyond the largest offset
that `Seek` accepts there, `LoadBatch(1)` does not fail at all: the error of `Seek` is
ignored, the read starts at byte 0 and returns the record "ABCDEF", and the cursor is
rewritten. -/
theorem C28_counterexample :
    ((([65, 66, 67, 68, 69, 70] : List Byte).length : Int) ≤ readOffset (some 6)) ∧
    (1 : Int) ≤ 1537228672809129302 ∧
    wrap64 (1537228672809129302 * urlLength) = -9223372036854775804 ∧
    FileLoader.LoadBatch { urlFile := [65, 66, 67, 68, 69, 70], offsetFile := some 6 }
      1537228672809129302 = Outcome.panic ∧
    FileLoader.LoadBatch { urlFile := [65, 66, 67, 68, 69, 70], offsetFile := some 6 }
      1537228672809129302 ≠ Outcome.err FileError.EOF ∧
    ((([65, 66, 67, 68, 69, 70, 71, 72] : List Byte).length : Int) ≤
      readOffset (some 17592186044416)) ∧
    FileLoader.LoadBatch
      { urlFile := [65, 66, 67, 68, 69, 70, 71, 72], offsetFile := some 17592186044416 } 1 =
      Outcome.ok ([[65, 66, 67, 68, 69, 70]],
        { urlFile := [65, 66, 67, 68, 69, 70, 71, 72], offsetFile := some 17592186044422 }) := by
  decide

/-! ### The layered storage -/

theorem Put_capacity (c : LRUCache) (key value : GoString) :
    (c.Put key value).capacity = c.capacity := by
  cases hl : c.lookup key with
  | some elem => rw [Put_present c key value elem hl]
  | none =>
    by_cases hfull : c.capacity ≤ (c.lruList.length : Int)
    · rw [Put_new_full c key value hl hfull]
    · rw [Put_new_room c key value hl (by omega)]

/-- After a `Put` into a cache of capacity at least 1 the entry of the key is at the front of
the recency list. -/
theorem Put_front (c : LRUCache) (key value : GoString) (hcap : 1 ≤ c.capacity) :
    ∃ rest, (c.Put key value).lruList = { key := key, value := value } :: rest := by
  cases hl : c.lookup key with
  | some elem =>
    obtain ⟨-, hk⟩ := lookup_some c key elem hl
    rw [Put_present c key value elem hl, hk]
    exact ⟨_, rfl⟩
  | none =>
    by_cases hfull : c.capacity ≤ (c.lruList.length : Int)
    · rw [Put_new_full c key value hl hfull]
      have hne : c.lruList ≠ [] := by
        intro h0
        rw [h0] at hfull
        simp at hfull
        omega
      exact ⟨_, List.dropLast_cons_of_ne_nil hne⟩
    · rw [Put_new_room c key value hl (by omega)]
      exact ⟨_, rfl⟩

theorem Put_lookup (c : LRUCache) (key value : GoString) (hcap : 1 ≤ c.capacity) :
    (c.Put key value).lookup key = some { key := key, value := value } := by
  obtain ⟨rest, hrest⟩ := Put_front c key value hcap
  exact lookup_front (c.Put key value) _ rest hrest

/-- A lookup in the storage when the cache holds the code: no call on the database. -/
theorem Layered_Get_hit (s : LayeredStorage) (code : GoString) (elem : cacheEntry)
    (h : s.cache.lookup code = some elem) :
    s.Get code = ({ s with cache := (s.cache.Get code).1 }, elem.value, none) := by
  unfold LayeredStorage.Get
  rw [Get_hit s.cache code elem h]

/-- A lookup in the storage when the cache does not hold the code: one query. -/
theorem Layered_Get_miss (s : LayeredStorage) (code : GoString)
    (h : s.cache.lookup code = none) :
    s.Get code =
      match s.db.first s.calls code with
      | Except.error e =>
        ({ s with calls := s.calls ++ [DBCall.first code], cache := (s.cache.Get code).1 }, [],
          some (if e = StorageError.recordNotFound then StorageError.notFoundOrExpired else e))
      | Except.ok longURL =>
        ({ s with calls := s.calls ++ [DBCall.first code],
                  cache := (s.cache.Get code).1.Put code longURL }, longURL, none) := by
  unfold LayeredStorage.Get
  rw [Get_miss s.cache code h]

theorem reads_append_first (s : LayeredStorage) (calls : List DBCall) (code : GoString) :
    ({ s with calls := calls ++ [DBCall.first code] } : LayeredStorage).reads =
      ({ s with calls := calls } : LayeredStorage).reads + 1 := by
  simp [LayeredStorage.reads, List.filter_append]

theorem reads_append_create (s : LayeredStorage) (calls : List DBCall)
    (code longURL : GoString) :
    ({ s with calls := calls ++ [DBCall.create code longURL] } : LayeredStorage).reads =
      ({ s with calls := calls } : LayeredStorage).reads := by
  simp [LayeredStorage.reads, List.filter_append]

/-- C23: with a cache of capacity at least 1 and any database: `Get(code)` makes no store
read when the cache holds the code and returns the cached value, in particular right after a
successful `Save(code, dest)`, which itself reads nothing, when it returns `dest`; it makes
exactly one store read when the cache does not hold the code, as after `Clear` on the cache;
and when that read succeeds, `Get` returns the value read and caches the pair, so that the
next `Get(code)` returns it again without a store read. -/
theorem C23_cache_before_store (s : LayeredStorage) (code : GoString)
    (hcap : 1 ≤ s.cache.capacity) :
    (∀ elem, s.cache.lookup code = some elem →
      (s.Get code).2 = (elem.value, none) ∧ (s.Get code).1.reads = s.reads ∧
      (s.Get code).1.calls = s.calls) ∧
    (∀ dest, (s.Save code dest).2 = none →
      ((s.Save code dest).1.Get code).2 = (dest, none) ∧
      ((s.Save code dest).1.Get code).1.reads = s.reads ∧
      (s.Save code dest).1.reads = s.reads) ∧
    (s.cache.lookup code = none →
      (s.Get code).1.reads = s.reads + 1 ∧
      (s.Get code).1.calls = s.calls ++ [DBCall.first code]) ∧
    (({ s with cache := s.cache.Clear } : LayeredStorage).Get code).1.reads = s.reads + 1 ∧
    (∀ longURL, s.cache.lookup code = none → s.db.first s.calls code = Except.ok longURL →
      (s.Get code).2 = (longURL, none) ∧
      (s.Get code).1.cache.lookup code = some { key := code, value := longURL } ∧
      ((s.Get code).1.Get code).2 = (longURL, none) ∧
      ((s.Get code).1.Get code).1.reads = (s.Get code).1.reads) := by
  have hmiss : ∀ s1 : LayeredStorage, s1.cache.lookup code = none →
      (s1.Get code).1.reads = s1.reads + 1 ∧
      (s1.Get code).1.calls = s1.calls ++ [DBCall.first code] := by
    intro s1 h
    rw [Layered_Get_miss s1 code h]
    cases s1.db.first s1.calls code with
    | error e => exact ⟨reads_append_first _ _ _, rfl⟩
    | ok longURL => exact ⟨reads_append_first _ _ _, rfl⟩
  refine ⟨fun elem h => ?_, fun dest hs => ?_, hmiss s, ?_, fun longURL h hf => ?_⟩
  · rw [Layered_Get_hit s code elem h]
    exact ⟨rfl, rfl, rfl⟩
  · have hc : s.db.create s.calls code dest = none := by
      unfold LayeredStorage.Save at hs
      cases hcr : s.db.create s.calls code dest with
      | none => rfl
      | some e => rw [hcr] at hs; cases hs
    have hS : s.Save code dest =
        ({ s with calls := s.calls ++ [DBCall.create code dest],
                  cache := s.cache.Put code dest }, none) := by
      unfold LayeredStorage.Save
      rw [hc]
    rw [hS]
    have hlook := Put_lookup s.cache code dest hcap
    rw [Layered_Get_hit _ code _ hlook]
    exact ⟨rfl, reads_append_create _ _ _ _, reads_append_create _ _ _ _⟩
  · exact (hmiss { s with cache := s.cache.Clear } rfl).1
  · have hG : s.Get code =
        ({ s with calls := s.calls ++ [DBCall.first code],
                  cache := (s.cache.Get code).1.Put code longURL }, longURL, none) := by
      rw [Layered_Get_miss s code h, hf]
    have hcap2 : 1 ≤ (s.cache.Get code).1.capacity := by
      rw [Get_miss s.cache code h]
      exact hcap
    have hlook := Put_lookup (s.cache.Get code).1 code longURL hcap2
    rw [hG]
    refine ⟨rfl, hlook, ?_, ?_⟩
    · rw [Layered_Get_hit _ code _ hlook]
    · rw [Layered_Get_hit _ code _ hlook]
      rfl

/-- C23 on a new storage with a cache of capacity 2: `Save(1, 10)` and then `Get(1)`. -/
theorem C23_cache_before_store_witness :
    (((NewLayeredStorage tableDatabase 2).Save [1] [10]).1.Get [1]).2 = ([10], none) ∧
    (((NewLayeredStorage tableDatabase 2).Save [1] [10]).1.Get [1]).1.reads =
      (NewLayeredStorage tableDatabase 2).reads ∧
    ((NewLayeredStorage tableDatabase 2).Save [1] [10]).1.reads =
      (NewLayeredStorage tableDatabase 2).reads :=
  (C23_cache_before_store (NewLayeredStorage tableDatabase 2) [1] (by decide)).2.1 [10] rfl

/-- C24 (as amended): `Save` calls `Create` on the database first and returns what it
reports.  If that is an error, the cache, with its entries, their order and its counters, is
unchanged.  If it is nil, the cache is the old cache after `Put(code, longURL)`, with the
counters unchanged: when the capacity is at least 1 the cache then maps the code to the new
destination, whatever it held for the code before; when the capacity is at most 0 and the
cache was empty, it is empty again. -/
theorem C24_save_store_first (s : LayeredStorage) (code longURL : GoString) :
    (s.Save code longURL).2 = s.db.create s.calls code longURL ∧
    (s.Save code longURL).1.calls = s.calls ++ [DBCall.create code longURL] ∧
    (∀ e, s.db.create s.calls code longURL = some e →
      (s.Save code longURL).2 = some e ∧ (s.Save code longURL).1.cache = s.cache) ∧
    (s.db.create s.calls code longURL = none →
      (s.Save code longURL).2 = none ∧
      (s.Save code longURL).1.cache = s.cache.Put code longURL ∧
      (s.Save code longURL).1.cache.hits = s.cache.hits ∧
      (s.Save code longURL).1.cache.misses = s.cache.misses ∧
      (1 ≤ s.cache.capacity →
        (s.Save code longURL).1.cache.lookup code = some { key := code, value := longURL } ∧
        ((s.Save code longURL).1.cache.Get code).2 = (longURL, true)) ∧
      (s.cache.capacity ≤ 0 → s.cache.lruList = [] →
        (s.Save code longURL).1.cache.lruList = [])) := by
  cases hc : s.db.create s.calls code longURL with
  | some e =>
    have hS : s.Save code longURL =
        ({ s with calls := s.calls ++ [DBCall.create code longURL] }, some e) := by
      unfold LayeredStorage.Save
      rw [hc]
    rw [hS]
    refine ⟨rfl, rfl, fun e1 he => ⟨he, rfl⟩, fun h => by cases h⟩
  | none =>
    have hS : s.Save code longURL =
        ({ s with calls := s.calls ++ [DBCall.create code longURL],
                  cache := s.cache.Put code longURL }, none) := by
      unfold LayeredStorage.Save
      rw [hc]
    rw [hS]
    refine ⟨rfl, rfl, (fun e he => by cases he), fun _ => ⟨rfl, rfl,
      (Put_counters s.cache code longURL).1, (Put_counters s.cache code longURL).2,
      fun hcap => ?_, fun hcap hnil => ?_⟩⟩
    · have hlook := Put_lookup s.cache code longURL hcap
      exact ⟨hlook, by rw [Get_hit _ code _ hlook]⟩
    · have hl : s.cache.lookup code = none :=
        lookup_eq_none s.cache code (by rw [hnil]; intro e he; cases he)
      show (s.cache.Put code longURL).lruList = []
      rw [Put_new_full s.cache code longURL hl (by rw [hnil]; simpa using hcap), hnil]
      rfl

/-- C24 (as amended) on a new storage with a cache of capacity 2: `Save(1, 10)`. -/
theorem C24_save_store_first_witness :
    ((NewLayeredStorage tableDatabase 2).Save [1] [10]).2 = none ∧
    ((NewLayeredStorage tableDatabase 2).Save [1] [10]).1.cache.lookup [1] =
      some { key := [1], value := [10] } :=
  ⟨((C24_save_store_first (NewLayeredStorage tableDatabase 2) [1] [10]).2.2.2 rfl).1,
    (((C24_save_store_first (NewLayeredStorage tableDatabase 2) [1] [10]).2.2.2 rfl).2.2.2.2.1
      (by decide)).1⟩

/-- C24 fails as stated: on a storage whose cache has capacity 0, `Save(1, 10)` succeeds and
returns nil, but the cache does not map the code to the destination: it is empty, and the
`Get(1)` that follows reads the store. -/
theorem C24_counterexample :
    ((NewLayeredStorage tableDatabase 0).Save [1] [10]).2 = none ∧
    ((NewLayeredStorage tableDatabase 0).Save [1] [10]).1.cache.lookup [1] = none ∧
    ((NewLayeredStorage tableDatabase 0).Save [1] [10]).1.cache.lruList = [] ∧
    (((NewLayeredStorage tableDatabase 0).Save [1] [10]).1.Get [1]).2 = ([10], none) ∧
    (((NewLayeredStorage tableDatabase 0).Save [1] [10]).1.Get [1]).1.reads = 1 := by
  decide

/-! ### Sequence encoding and the probes of the Bloom filter -/

theorem charsetAt_symbol (seq : Int) (h0 : 0 ≤ seq) :
    charsetAt (Int.tmod seq 64) = some (charsetSymbol (seq.toNat % 64)) := by
  have h1 := (tmod64_range seq h0).1
  have h2 := (tmod64_range seq h0).2
  have hlt : (Int.tmod seq 64).toNat < charset.length := by rw [charset_length]; omega
  have he : (Int.tmod seq 64).toNat = seq.toNat % 64 := by
    rw [Int.tmod_eq_emod h0 (by decide)]
    omega
  unfold charsetAt sliceGet charsetSymbol
  rw [if_neg (by omega), he, List.getD_eq_getElem?_getD]
  rw [he] at hlt
  rw [List.getElem?_eq_getElem hlt]
  rfl

theorem tdiv_toNat (seq : Int) (h0 : 0 ≤ seq) :
    0 ≤ Int.tdiv seq 64 ∧ (Int.tdiv seq 64).toNat = seq.toNat / 64 := by
  rw [Int.tdiv_eq_ediv h0 (by decide)]
  omega

/-- The code of a non-negative sequence number: the symbols of its six base-64 digits, most
significant first. -/
theorem GenerateWithSequence_digits (seq : Int) (h0 : 0 ≤ seq) :
    GenerateWithSequence seq = some ((seqDigits seq.toNat).map charsetSymbol) := by
  obtain ⟨p1, q1⟩ := tdiv_toNat seq h0
  obtain ⟨p2, q2⟩ := tdiv_toNat _ p1
  obtain ⟨p3, q3⟩ := tdiv_toNat _ p2
  obtain ⟨p4, q4⟩ := tdiv_toNat _ p3
  obtain ⟨p5, q5⟩ := tdiv_toNat _ p4
  have c0 := charsetAt_symbol seq h0
  have c1 := charsetAt_symbol _ p1
  have c2 := charsetAt_symbol _ p2
  have c3 := charsetAt_symbol _ p3
  have c4 := charsetAt_symbol _ p4
  have c5 := charsetAt_symbol _ p5
  rw [q1] at c1
  rw [q2, q1] at c2
  rw [q3, q2, q1] at c3
  rw [q4, q3, q2, q1] at c4
  rw [q5, q4, q3, q2, q1] at c5
  unfold GenerateWithSequence
  rw [if_neg (by omega)]
  simp only [GenerateWithSequence.loop, c0, c1, c2, c3, c4, c5, Option.bind, sliceSet,
    seqDigits, List.map]
  simp
  refine ⟨?_, ?_, ?_, ?_⟩ <;> congr 1 <;> omega

/-- Two numbers below `64^6` differ first at a digit where the smaller number has the smaller
digit. -/
theorem seqDigits_split (a b : Nat) (hab : a < b) (hb : b < 68719476736) :
    ∃ pre x y ra rb, seqDigits a = pre ++ x :: ra ∧ seqDigits b = pre ++ y :: rb ∧
      x < y ∧ y < 64 := by
  unfold seqDigits
  by_cases h5 : a / 1073741824 % 64 = b / 1073741824 % 64
  · by_cases h4 : a / 16777216 % 64 = b / 16777216 % 64
    · by_cases h3 : a / 262144 % 64 = b / 262144 % 64
      · by_cases h2 : a / 4096 % 64 = b / 4096 % 64
        · by_cases h1 : a / 64 % 64 = b / 64 % 64
          · refine ⟨[a / 1073741824 % 64, a / 16777216 % 64, a / 262144 % 64, a / 4096 % 64,
              a / 64 % 64], a % 64, b % 64, [], [], rfl, ?_, by omega, by omega⟩
            rw [← h5, ← h4, ← h3, ← h2, ← h1]
            rfl
          · refine ⟨[a / 1073741824 % 64, a / 16777216 % 64, a / 262144 % 64, a / 4096 % 64],
              a / 64 % 64, b / 64 % 64, [a % 64], [b % 64], rfl, ?_, by omega, by omega⟩
            rw [← h5, ← h4, ← h3, ← h2]
            rfl
        · refine ⟨[a / 1073741824 % 64, a / 16777216 % 64, a / 262144 % 64],
            a / 4096 % 64, b / 4096 % 64, [a / 64 % 64, a % 64], [b / 64 % 64, b % 64], rfl, ?_,
            by omega, by omega⟩
          rw [← h5, ← h4, ← h3]
          rfl
      · refine ⟨[a / 1073741824 % 64, a / 16777216 % 64],
          a / 262144 % 64, b / 262144 % 64, [a / 4096 % 64, a / 64 % 64, a % 64],
          [b / 4096 % 64, b / 64 % 64, b % 64], rfl, ?_, by omega, by omega⟩
        rw [← h5, ← h4]
        rfl
    · refine ⟨[a / 1073741824 % 64], a / 16777216 % 64, b / 16777216 % 64,
        [a / 262144 % 64, a / 4096 % 64, a / 64 % 64, a % 64],
        [b / 262144 % 64, b / 4096 % 64, b / 64 % 64, b % 64], rfl, ?_, by omega, by omega⟩
      rw [← h5]
      rfl
  · exact ⟨[], a / 1073741824 % 64, b / 1073741824 % 64,
      [a / 16777216 % 64, a / 262144 % 64, a / 4096 % 64, a / 64 % 64, a % 64],
      [b / 16777216 % 64, b / 262144 % 64, b / 4096 % 64, b / 64 % 64, b % 64], rfl, rfl,
      by omega, by omega⟩

/-- Two sequences that differ first at a position where the first has the smaller element are
in lexicographic order. -/
theorem lexLess_split {α β : Type} [DecidableEq β] (lt : β → β → Bool) (f : α → β)
    (pre : List α) (x y : α) (ra rb : List α) (h : lt (f x) (f y) = true) :
    lexLess lt ((pre ++ x :: ra).map f) ((pre ++ y :: rb).map f) = true := by
  induction pre with
  | nil => simp [lexLess, h]
  | cons p pre ih =>
    have e : lexLess lt (f p :: (pre ++ x :: ra).map f) (f p :: (pre ++ y :: rb).map f) =
        (lt (f p) (f p) || (decide (f p = f p) &&
          lexLess lt ((pre ++ x :: ra).map f) ((pre ++ y :: rb).map f))) := rfl
    rw [List.cons_append, List.cons_append, List.map_cons, List.map_cons, e, ih]
    simp

theorem map_split_ne {α β : Type} (f : α → β) (pre : List α) (x y : α) (ra rb : List α)
    (h : f x ≠ f y) : (pre ++ x :: ra).map f ≠ (pre ++ y :: rb).map f := by
  induction pre with
  | nil =>
    intro h1
    simp only [List.nil_append, List.map_cons, List.cons.injEq] at h1
    exact h h1.1
  | cons p pre ih =>
    intro h1
    simp only [List.cons_append, List.map_cons, List.cons.injEq, true_and] at h1
    exact ih h1

theorem charsetIndex_symbol : ∀ d, d < 64 → charsetIndex (charsetSymbol d) = d := by
  decide

theorem charsetSymbol_letters :
    ∀ x, x < 52 → ∀ y, y < 52 → x < y → charsetSymbol x < charsetSymbol y := by
  decide

theorem seqDigits_lt (n : Nat) : ∀ d ∈ seqDigits n, d < 64 := by
  intro d hd
  simp only [seqDigits, List.mem_cons, List.mem_singleton, List.not_mem_nil, or_false] at hd
  omega

/-- C26 (as amended): for every pair of sequence numbers `0 <= a < b < 64^6`, the code of `a`
is strictly less than the code of `b` in the lexicographic order that compares symbols by
their position in the charset; in Go's byte-wise string order it is strictly less whenever
both codes consist of letters only (all digits below 52), in particular for `b < 52`, which
covers the ten sequence numbers of the test. -/
theorem C26_sequence_order (a b : Int) (h0 : 0 ≤ a) (hab : a < b) (hb : b < 68719476736) :
    ∃ sa sb, GenerateWithSequence a = some sa ∧ GenerateWithSequence b = some sb ∧
      charsetLess sa sb = true ∧
      ((∀ d ∈ seqDigits a.toNat, d < 52) → (∀ d ∈ seqDigits b.toNat, d < 52) →
        stringLess sa sb = true) ∧
      (b < 52 → stringLess sa sb = true) := by
  obtain ⟨pre, x, y, ra, rb, ha, hb2, hxy, hy⟩ :=
    seqDigits_split a.toNat b.toNat (by omega) (by omega)
  have hletters : (∀ d ∈ seqDigits a.toNat, d < 52) → (∀ d ∈ seqDigits b.toNat, d < 52) →
      stringLess ((seqDigits a.toNat).map charsetSymbol)
        ((seqDigits b.toNat).map charsetSymbol) = true := by
    intro hda hdb
    have hx : x < 52 := hda x (by rw [ha]; simp)
    have hy2 : y < 52 := hdb y (by rw [hb2]; simp)
    rw [ha, hb2]
    exact lexLess_split _ charsetSymbol pre x y ra rb
      (decide_eq_true (charsetSymbol_letters x hx y hy2 hxy))
  refine ⟨_, _, GenerateWithSequence_digits a h0, GenerateWithSequence_digits b (by omega),
    ?_, hletters, fun hb52 => ?_⟩
  · rw [ha, hb2]
    apply lexLess_split _ charsetSymbol pre x y ra rb
    rw [charsetIndex_symbol x (by omega), charsetIndex_symbol y hy]
    exact decide_eq_true hxy
  · apply hletters
    · intro d hd
      simp only [seqDigits, List.mem_cons, List.mem_singleton, List.not_mem_nil, or_false] at hd
      omega
    · intro d hd
      simp only [seqDigits, List.mem_cons, List.mem_singleton, List.not_mem_nil, or_false] at hd
      omega

/-- C26 (as amended) at the sequence numbers 3 and 4: "AAAAAD" is less than "AAAAAE". -/
theorem C26_sequence_order_witness :
    ∃ sa sb, GenerateWithSequence 3 = some sa ∧ GenerateWithSequence 4 = some sb ∧
      charsetLess sa sb = true ∧
      ((∀ d ∈ seqDigits (3 : Int).toNat, d < 52) → (∀ d ∈ seqDigits (4 : Int).toNat, d < 52) →
        stringLess sa sb = true) ∧
      ((4 : Int) < 52 → stringLess sa sb = true) :=
  C26_sequence_order 3 4 (by decide) (by decide) (by decide)

/-- C26 fails as stated: the sequence numbers 51 and 52 give the codes "AAAAAz" and "AAAAA0",
and "AAAAAz" is not less than "AAAAA0" byte-wise, the byte of `z` being 122 and that of `0`
being 48. -/
theorem C26_counterexample :
    GenerateWithSequence 51 = some [65, 65, 65, 65, 65, 122] ∧
    GenerateWithSequence 52 = some [65, 65, 65, 65, 65, 48] ∧
    stringLess [65, 65, 65, 65, 65, 122] [65, 65, 65, 65, 65, 48] = false := by
  decide

/-- C27: for every two distinct sequence numbers `a` and `b` with `0 <= a, b < 64^6`, the
codes `GenerateWithSequence(a)` and `GenerateWithSequence(b)` differ; the code of a number is
the sequence of the charset symbols of its six base-64 digits, most significant first, and
different digits have different symbols. -/
theorem C27_sequence_injective (a b : Int) (ha0 : 0 ≤ a) (ha : a < 68719476736)
    (hb0 : 0 ≤ b) (hb : b < 68719476736) (hne : a ≠ b) :
    GenerateWithSequence a ≠ GenerateWithSequence b ∧
    GenerateWithSequence a = some ((seqDigits a.toNat).map charsetSymbol) ∧
    GenerateWithSequence b = some ((seqDigits b.toNat).map charsetSymbol) ∧
    (∀ x, x < 64 → ∀ y, y < 64 → charsetSymbol x = charsetSymbol y → x = y) := by
  have hinj : ∀ x, x < 64 → ∀ y, y < 64 → charsetSymbol x = charsetSymbol y → x = y := by
    intro x hx y hy h
    rw [← charsetIndex_symbol x hx, ← charsetIndex_symbol y hy, h]
  have hlt : ∀ m n : Nat, m < n → n < 68719476736 →
      (seqDigits m).map charsetSymbol ≠ (seqDigits n).map charsetSymbol := by
    intro m n hmn hn
    obtain ⟨pre, x, y, ra, rb, h1, h2, hxy, hy⟩ := seqDigits_split m n hmn hn
    rw [h1, h2]
    apply map_split_ne
    intro h
    have := hinj x (by omega) y hy h
    omega
  refine ⟨?_, GenerateWithSequence_digits a ha0, GenerateWithSequence_digits b hb0, hinj⟩
  rw [GenerateWithSequence_digits a ha0, GenerateWithSequence_digits b hb0]
  intro h
  simp only [Option.some.injEq] at h
  rcases lt_or_gt_of_ne hne with hlt2 | hgt
  · exact hlt a.toNat b.toNat (by omega) (by omega) h
  · exact hlt b.toNat a.toNat (by omega) (by omega) h.symm

/-- C27 at the sequence numbers 63 and 64: the codes "AAAAA_" and "AAAABA" differ. -/
theorem C27_sequence_injective_witness :
    GenerateWithSequence 63 ≠ GenerateWithSequence 64 :=
  (C27_sequence_injective 63 64 (by decide) (by decide) (by decide) (by decide)
    (by decide)).1

/-- The value `simpleHash` returns is not negative, or it is the minimum 64-bit integer. -/
theorem simpleHash_cases (item : GoString) (seed : Int) (h1 : -9223372036854775808 ≤ seed)
    (h2 : seed < 9223372036854775808) :
    0 ≤ simpleHash item seed ∨ simpleHash item seed = -9223372036854775808 := by
  have hr := foldl_wrap64_range item seed h1 h2
  unfold simpleHash
  exact flip_cases _ hr.1 hr.2

/-- The hash of "G7Vphkpjtvydtuju" with seed 0 is the minimum 64-bit integer. -/
theorem simpleHash_minInt :
    simpleHash [71, 55, 86, 112, 104, 107, 112, 106, 116, 118, 121, 100, 116, 117, 106, 117] 0 =
      -9223372036854775808 := by
  set_option maxRecDepth 8000 in decide

/-- C25: for every item, seed and filter size `M > 0`, the probe index
`simpleHash(item, seed) % M` lies in `[0, M)` unless the hash is the minimum 64-bit integer,
the one negative value that the negation in `simpleHash` leaves negative; the item
"G7Vphkpjtvydtuju" has that hash for seed 0, its first probe index for `M = 10` is -8, and
`Add` and `Contains` on a filter of 10 bits panic with an index out of range. -/
theorem C25_probe_index :
    (∀ (item : GoString) (seed M : Int), 0 < M → -9223372036854775808 ≤ seed →
      seed < 9223372036854775808 → simpleHash item seed ≠ -9223372036854775808 →
      ∃ idx, goMod (simpleHash item seed) M = some idx ∧ 0 ≤ idx ∧ idx < M) ∧
    simpleHash [71, 55, 86, 112, 104, 107, 112, 106, 116, 118, 121, 100, 116, 117, 106, 117] 0 =
      -9223372036854775808 ∧
    goMod (simpleHash
      [71, 55, 86, 112, 104, 107, 112, 106, 116, 118, 121, 100, 116, 117, 106, 117] 0) 10 =
      some (-8) ∧
    (NewBloomFilter 10).bind (fun bf => bf.Add
      [71, 55, 86, 112, 104, 107, 112, 106, 116, 118, 121, 100, 116, 117, 106, 117]) = none ∧
    (NewBloomFilter 10).bind (fun bf => bf.Contains
      [71, 55, 86, 112, 104, 107, 112, 106, 116, 118, 121, 100, 116, 117, 106, 117]) = none ∧
    (NewBloomFilter 10).isSome = true := by
  have hm : goMod (simpleHash
      [71, 55, 86, 112, 104, 107, 112, 106, 116, 118, 121, 100, 116, 117, 106, 117] 0) 10 =
      some (-8) := by
    rw [simpleHash_minInt]
    decide
  have hnew : NewBloomFilter 10 = some { bits := List.replicate 10 false, size := 10 } := by
    decide
  refine ⟨fun item seed M hM h1 h2 hne => ?_, simpleHash_minInt, hm, ?_, ?_, by decide⟩
  · rcases simpleHash_cases item seed h1 h2 with h | h
    · exact probe_in_range item seed M hM h
    · exact absurd h hne
  · rw [hnew]
    simp only [Option.bind, BloomFilter.Add, hm]
    unfold goMod
    simp [sliceSet]
  · rw [hnew]
    simp only [Option.bind, BloomFilter.Contains, hm]
    unfold goMod
    simp [sliceGet]

end Shorturl
